import Mathlib

/-!
# Fused 3x3 convolution kernel for Gen9 (`sycl_conv_gen9.cpp`)

A shallow embedding of `SYCLConvGen9Kernel` (the tiled convolution work-item,
its row loader and row storer) and of `SYCLConvGen9::runImpl` (the work-group
sizing), followed by theorems about them.

Conventions of the embedding:

* tensor values are exact integers (`Val`), the rounding of the half-precision
  type is not modelled;
* indices and sizes are unbounded naturals and integers, the 32-bit range of
  `int` is not modelled;
* a register `simd<T, N>` is a map from lane index to value;
* every tensor lives in a linear buffer of its own, addressed by element
  offset; pointer arithmetic is arithmetic on offsets;
* a kernel invocation returns the trace of its element stores, in program
  order; a dispatch applies the traces of its work-items in the order of a
  schedule.
-/

namespace oidn

/-! ## Values, registers, memory -/

/-- Tensor element values; arithmetic is exact. -/
abbrev Val := Int

/-- Register `simd<T, N>`: lane index to value. Lanes at or beyond `N` are never read. -/
abbrev Simd := Nat → Val

/-- Linear buffer of one tensor: element offset to value. -/
abbrev Mem := Int → Val

/-- One element store: destination element offset and stored value. -/
abbrev Store := Int × Val

/-- Counted loop `for (int k = 0; k < n; ++k) s = body(k, s)`. -/
def forLoop {σ : Type} (n : Nat) (body : Nat → σ → σ) (s : σ) : σ :=
  match n with
  | 0 => s
  | m + 1 => body m (forLoop m body s)

/-- Loop over the listed index values whose body may `break` (`none`). -/
def loopBreak {σ : Type} (body : Nat → σ → Option σ) : List Nat → σ → σ
  | [], s => s
  | k :: ks, s =>
    match body k s with
    | none => s
    | some s1 => loopBreak body ks s1

/-- Index values of `for (int k = 0; k < n; k += step)`. -/
def loopIndices (n step : Nat) : List Nat :=
  (List.range ((n + step - 1) / step)).map (fun q => q * step)

/-! ## Helpers of `sycl_common.h` and the tensor accessors -/

/-- Modelled from the spec: `TensorAccessor3D<T, Chw16c>::blockC`, the channel
block size of the blocked layout, fixed at 16. -/
abbrev blockC : Nat := 16

/-- Modelled from the spec: `TensorAccessor3D` for layout `Chw16c`. Element
`(c,h,w)` is stored at block index `c / blockC`, offset `c % blockC` within a
contiguous run per `(h,w)`. No bounds checking. -/
structure TensorAccessor3D where
  C : Nat
  H : Nat
  W : Nat
deriving DecidableEq, Repr

/-- Modelled from the spec: `TensorAccessor3D::operator()`, the element offset of `(c,h,w)`. -/
def TensorAccessor3D.offset (t : TensorAccessor3D) (c : Nat) (h w : Int) : Int :=
  ((((c / blockC : Nat) : Int) * t.H + h) * t.W + w) * blockC + ((c % blockC : Nat) : Int)

/-- Modelled from the spec: `TensorAccessor4D` for layout `OIhw16i16o`, blocked on
both channel axes; one tap holds contiguous `blockC x blockC` sub-matrices. -/
structure TensorAccessor4D where
  O : Nat
  I : Nat
  H : Nat
  W : Nat
deriving DecidableEq, Repr

/-- Modelled from the spec: `TensorAccessor4D::operator()`, the element offset of `(o,i,h,w)`. -/
def TensorAccessor4D.offset (t : TensorAccessor4D) (o i h w : Nat) : Int :=
  ((((((o / blockC) * (t.I / blockC) + i / blockC) * t.H + h) * t.W + w) * (blockC * blockC)
    + (i % blockC) * blockC + o % blockC : Nat) : Int)

/-- Modelled from the spec: `TensorAccessor1D::operator()`, the element offset of `o`. -/
def TensorAccessor1D.offset (o : Nat) : Int := (o : Int)

/-- Modelled from the spec: `loadLargeBlock` and the unpredicated `loadBlock`,
a contiguous load starting at `ptr`. -/
def loadBlock (mem : Mem) (ptr : Int) : Simd := fun j => mem (ptr + (j : Int))

/-- Modelled from the spec: the predicated `loadBlock(ptr, pred)`; a masked-out
block reads as zero and touches no memory. -/
def loadBlockPred (mem : Mem) (ptr : Int) (pred : Bool) : Simd :=
  fun j => if pred then mem (ptr + (j : Int)) else 0

/-- Modelled from the spec: `storeLargeBlock`, a contiguous store of `n` lanes at `ptr`. -/
def storeLargeBlock (ptr : Int) (n : Nat) (v : Simd) : List Store :=
  (List.range n).map (fun (j : Nat) => (ptr + (j : Int), v j))

/-- Modelled from the spec: the predicated `storeBlock(ptr, blk, pred)`; a
masked-out block stores nothing. -/
def storeBlock (ptr : Int) (n : Nat) (v : Simd) (pred : Bool) : List Store :=
  if pred then (List.range n).map (fun (j : Nat) => (ptr + (j : Int), v j)) else []

/-- Read of `v.select<n, 1>(off)`. -/
def Simd.select (v : Simd) (off : Nat) : Simd := fun j => v (off + j)

/-- Assignment `v.select<n, 1>(off) = x`. -/
def Simd.assign (v : Simd) (n off : Nat) (x : Simd) : Simd :=
  fun j => if off ≤ j ∧ j < off + n then x (j - off) else v j

/-- Read of `v.replicate_w<Rep, W>(off)`: `W` lanes from `off`, repeated. -/
def Simd.replicate_w (v : Simd) (W off : Nat) : Simd := fun j => v (off + j % W)

/-- Read of `v.replicate_vs_w<Rep, VS, W>(off)`: blocks of `W` lanes, block starts `VS` apart. -/
def Simd.replicate_vs_w (v : Simd) (VS W off : Nat) : Simd :=
  fun j => v (off + (j / W) * VS + j % W)

/-- Read of `v.replicate<Rep>()` for a register of `n` lanes. -/
def Simd.replicate (v : Simd) (n : Nat) : Simd := fun j => v (j % n)

/-- Lane-wise `max` of two registers. -/
def Simd.max (a b : Simd) : Simd := fun j => Max.max (a j) (b j)

/-- Modelled from the spec: `WorkDim<3>`, a triple of extents or indices. -/
structure WorkDim3 where
  d0 : Nat
  d1 : Nat
  d2 : Nat
deriving DecidableEq, Repr

/-- Component read `dim[i]`. -/
def WorkDim3.get (d : WorkDim3) (i : Nat) : Nat :=
  if i = 0 then d.d0 else if i = 1 then d.d1 else d.d2

/-- Component write `dim[i] = v`. -/
def WorkDim3.set (d : WorkDim3) (i : Nat) (v : Nat) : WorkDim3 :=
  if i = 0 then { d with d0 := v } else if i = 1 then { d with d1 := v } else { d with d2 := v }

/-- Componentwise quotient `a / b` of `WorkDim<3>`. -/
def WorkDim3.div (a b : WorkDim3) : WorkDim3 := ⟨a.d0 / b.d0, a.d1 / b.d1, a.d2 / b.d2⟩

/-- Modelled from the spec: `WorkGroupItem<3>`, one work-item of a dispatch,
identified by its group index and its index inside the group. -/
structure WorkGroupItem where
  groupId : WorkDim3
  localId : WorkDim3
  localRange : WorkDim3
deriving DecidableEq, Repr

/-- Modelled from the spec: `getLocalId<i>()`. -/
def WorkGroupItem.getLocalId (it : WorkGroupItem) (i : Nat) : Nat := it.localId.get i

/-- Modelled from the spec: `getGlobalId<i>()`. -/
def WorkGroupItem.getGlobalId (it : WorkGroupItem) (i : Nat) : Nat :=
  it.groupId.get i * it.localRange.get i + it.localId.get i

/-- Modelled from the spec: `ceil_div`. -/
def ceil_div (a b : Nat) : Nat := (a + b - 1) / b

/-! ## `SYCLConvGen9Kernel` -/

/-- Fused epilogue selector. -/
inductive PostOp where
  | None
  | Pool
  | Upsample
deriving DecidableEq, Repr

/-- Block output height. -/
abbrev blockOH : Nat := 2
/-- Block output width. -/
abbrev blockOW : Nat := 8
/-- Block input width. -/
abbrev blockIW : Nat := blockOW + 3 - 1

/-- Kernel closure: the post-op it is specialised for, the accessors and the
read-only buffers of source, weight and bias, and the destination accessor. -/
structure SYCLConvGen9Kernel where
  postOp : PostOp
  src : TensorAccessor3D
  srcMem : Mem
  weight : TensorAccessor4D
  weightMem : Mem
  biasMem : Mem
  dst : TensorAccessor3D

namespace SYCLConvGen9Kernel

/-- Fast path of `loadRow`: loads the entire row. -/
def loadRowFast (k : SYCLConvGen9Kernel) (srcPtr : Int) : Simd :=
  loadBlock k.srcMem srcPtr

/-- Slow path of `loadRow`: loads the in-bounds columns of the row, one
predicated block of `blockC` lanes per column. -/
def loadRowSlow (k : SYCLConvGen9Kernel) (W : Nat) (row : Simd) (srcPtr iw : Int) : Simd :=
  (forLoop W
    (fun w (st : Simd × Int) =>
      let pred := decide ((w : Int) ≥ -iw) && decide ((w : Int) < (k.src.W : Int) - iw)
      (st.1.assign blockC (w * blockC) (loadBlockPred k.srcMem st.2 pred), st.2 + (blockC : Int)))
    (row, srcPtr)).1

/-- Model of `loadRow`: loads a row of `N / blockC` columns from the src tensor into `row`. -/
def loadRow (k : SYCLConvGen9Kernel) (N : Nat) (row : Simd) (ic : Nat) (ih iw : Int) : Simd :=
  let W := N / blockC
  if ih < 0 ∨ ih ≥ (k.src.H : Int) then
    fun _ => 0
  else
    let srcPtr := k.src.offset ic ih iw
    if iw ≥ 0 ∧ iw + (W : Int) ≤ (k.src.W : Int) then
      k.loadRowFast srcPtr
    else
      k.loadRowSlow W row srcPtr iw

/-- Model of `storeRow<K>`: stores a row of `N / blockC` columns to the dst tensor,
in chunks of `K` columns on the slow path. Returns the trace of element stores. -/
def storeRow (k : SYCLConvGen9Kernel) (K N : Nat) (row : Simd) (oc : Nat) (oh ow : Int) :
    List Store :=
  let W := N / blockC
  let dstPtr := k.dst.offset oc oh ow
  if ow + (W : Int) ≤ (k.dst.W : Int) then
    storeLargeBlock dstPtr N row
  else
    let numChunks := W / K
    let chunkSize := blockC * K
    (forLoop numChunks
      (fun i (st : List Store × Int) =>
        let pred := decide (((i * K : Nat) : Int) < (k.dst.W : Int) - ow)
        (st.1 ++ storeBlock st.2 chunkSize (row.select (i * chunkSize)) pred,
          st.2 + (chunkSize : Int)))
      ([], dstPtr)).1

/-- Multiply-accumulate of one kernel tap `(kh, kw)` into the output rows:
the loops over `i`, `boh` and `bow`. -/
def macTap (inRows : Nat → Simd) (weightMat : Simd) (kh kw : Nat) (outRows : Nat → Simd) :
    Nat → Simd :=
  forLoop blockC
    (fun i out =>
      forLoop blockOH
        (fun boh out =>
          forLoop blockOW
            (fun bow out =>
              Function.update out boh
                ((out boh).assign blockC (bow * blockC)
                  (fun j =>
                    (out boh).select (bow * blockC) j
                      + (inRows ((kh + boh) % blockOH)).replicate_w 1 ((kw + bow) * blockC + i) j
                        * weightMat.select (i * blockC) j)))
            out)
        out)
    outRows

/-- Loop over the kernel width for kernel row `kh`, advancing the weight pointer. -/
def kwLoop (k : SYCLConvGen9Kernel) (inRows : Nat → Simd) (kh : Nat) (weightPtr : Int)
    (outRows : Nat → Simd) : Nat → Simd :=
  (forLoop 3
    (fun kw (st : Int × (Nat → Simd)) =>
      let weightMat := loadBlock k.weightMem st.1
      (st.1 + ((blockC * blockC : Nat) : Int), macTap inRows weightMat kh kw st.2))
    (weightPtr, outRows)).2

/-- Loop over the kernel height for one input channel block: ring buffer load, then taps. -/
def khLoop (k : SYCLConvGen9Kernel) (oc ic : Nat) (ih iw : Int)
    (st : (Nat → Simd) × (Nat → Simd)) : (Nat → Simd) × (Nat → Simd) :=
  forLoop 3
    (fun kh (st : (Nat → Simd) × (Nat → Simd)) =>
      let slot := (kh + blockOH - 1) % blockOH
      let inRows := Function.update st.1 slot
        (k.loadRow (blockIW * blockC) (st.1 slot) ic (ih + ((kh + blockOH - 1 : Nat) : Int)) iw)
      let weightPtr := k.weight.offset oc ic kh 0
      (inRows, k.kwLoop inRows kh weightPtr st.2))
    st

/-- Body of the loop over input channel blocks. -/
def icBody (k : SYCLConvGen9Kernel) (oc : Nat) (oh ow : Nat) (ic : Nat) (outRows : Nat → Simd) :
    Nat → Simd :=
  let ih : Int := (oh : Int) - 1
  let iw : Int := (ow : Int) - 1
  let inRows0 : Nat → Simd := fun _ _ => 0
  let inRows := forLoop (blockOH - 1)
    (fun boh (r : Nat → Simd) =>
      Function.update r boh (k.loadRow (blockIW * blockC) (r boh) ic (ih + (boh : Int)) iw))
    inRows0
  (k.khLoop oc ic ih iw (inRows, outRows)).2

/-- Accumulated output rows after the loop `for (ic = 0; ic < src.C; ic += blockC)`. -/
def accumulate (k : SYCLConvGen9Kernel) (oc oh ow : Nat) : Nat → Simd :=
  forLoop (ceil_div k.src.C blockC)
    (fun n out => k.icBody oc oh ow (n * blockC) out)
    (fun _ _ => 0)

/-- Output rows after adding the bias and applying ReLU. -/
def biasRelu (k : SYCLConvGen9Kernel) (oc : Nat) (outRows : Nat → Simd) : Nat → Simd :=
  let biasVec := loadBlock k.biasMem (TensorAccessor1D.offset oc)
  forLoop blockOH
    (fun boh out =>
      let added : Simd := fun j => out boh j + biasVec.replicate blockC j
      Function.update out boh (Simd.max added (fun _ => 0)))
    outRows

/-- Epilogue for `PostOp::None`. -/
def storeNone (k : SYCLConvGen9Kernel) (outRows : Nat → Simd) (oc oh ow : Nat) : List Store :=
  loopBreak
    (fun boh tr =>
      if oh + boh ≥ k.dst.H then none
      else some (tr ++ k.storeRow 1 (blockOW * blockC) (outRows boh) oc ((oh + boh : Nat) : Int) (ow : Int)))
    (loopIndices blockOH 1) []

/-- Epilogue for `PostOp::Pool`. -/
def storePool (k : SYCLConvGen9Kernel) (outRows : Nat → Simd) (oc oh ow : Nat) : List Store :=
  loopBreak
    (fun boh tr =>
      if oh + boh ≥ k.src.H then none
      else
        let poolRow2x1 := Simd.max (outRows boh) (outRows (boh + 1))
        let poolRow2x2 := Simd.max (poolRow2x1.replicate_vs_w (blockC * 2) blockC 0)
          (poolRow2x1.replicate_vs_w (blockC * 2) blockC blockC)
        some (tr ++ k.storeRow 1 (blockOW / 2 * blockC) poolRow2x2 oc
          (((oh + boh) / 2 : Nat) : Int) ((ow / 2 : Nat) : Int)))
    (loopIndices blockOH 2) []

/-- Epilogue for `PostOp::Upsample`. -/
def storeUpsample (k : SYCLConvGen9Kernel) (outRows : Nat → Simd) (oc oh ow : Nat) : List Store :=
  loopBreak
    (fun boh tr =>
      if oh + boh ≥ k.src.H then none
      else
        let upRow1x2 := forLoop blockOW
          (fun bow (up : Simd) =>
            up.assign (blockC * 2) (bow * blockC * 2) ((outRows boh).replicate_w blockC (bow * blockC)))
          (fun _ => 0)
        some (tr
          ++ k.storeRow 2 (blockOW * blockC * 2) upRow1x2 oc (((oh + boh) * 2 : Nat) : Int) ((ow * 2 : Nat) : Int)
          ++ k.storeRow 2 (blockOW * blockC * 2) upRow1x2 oc (((oh + boh) * 2 + 1 : Nat) : Int) ((ow * 2 : Nat) : Int)))
    (loopIndices blockOH 1) []

/-- Output rows of the tile at `(oc, oh, ow)` after bias and ReLU. -/
def tileRows (k : SYCLConvGen9Kernel) (oc oh ow : Nat) : Nat → Simd :=
  k.biasRelu oc (k.accumulate oc oh ow)

/-- Model of `operator()`: the trace of stores of one work-item. -/
def call (k : SYCLConvGen9Kernel) (it : WorkGroupItem) : List Store :=
  let oc := it.getLocalId 0 * blockC
  let oh := it.getGlobalId 1 * blockOH
  let ow := it.getGlobalId 2 * blockOW
  let outRows := k.tileRows oc oh ow
  match k.postOp with
  | PostOp.None => k.storeNone outRows oc oh ow
  | PostOp.Pool => k.storePool outRows oc oh ow
  | PostOp.Upsample => k.storeUpsample outRows oc oh ow

end SYCLConvGen9Kernel

/-! ## Logical view of the tensors -/

/-- Source tensor element `(c,h,w)`, zero outside `[0,H) x [0,W)`. -/
def SYCLConvGen9Kernel.source (k : SYCLConvGen9Kernel) (c : Nat) (h w : Int) : Val :=
  if 0 ≤ h ∧ h < (k.src.H : Int) ∧ 0 ≤ w ∧ w < (k.src.W : Int) then k.srcMem (k.src.offset c h w) else 0

/-- Weight tensor element `(o,i,kh,kw)`. -/
def SYCLConvGen9Kernel.weightAt (k : SYCLConvGen9Kernel) (o i kh kw : Nat) : Val :=
  k.weightMem (k.weight.offset o i kh kw)

/-- Bias element `o`. -/
def SYCLConvGen9Kernel.biasAt (k : SYCLConvGen9Kernel) (o : Nat) : Val :=
  k.biasMem (TensorAccessor1D.offset o)

/-- Reference convolution with bias and ReLU at output position `(o,h,w)`:
`max(0, bias[o] + sum over i, kh, kw of weight[o,i,kh,kw] * source[i,h+kh-1,w+kw-1])`. -/
def SYCLConvGen9Kernel.convRelu (k : SYCLConvGen9Kernel) (o h w : Nat) : Val :=
  max 0 (k.biasAt o + ∑ i in Finset.range k.src.C, ∑ kh in Finset.range 3, ∑ kw in Finset.range 3,
    k.weightAt o i kh kw * k.source i ((h : Int) + (kh : Int) - 1) ((w : Int) + (kw : Int) - 1))

/-! ## `SYCLConvGen9::runImpl` -/

/-- Modelled from the spec: `getCB()`, the number of channel blocks of a tensor. -/
def TensorAccessor3D.getCB (t : TensorAccessor3D) : Nat := t.C / blockC

/-- Global item grid before the EU fusion step. -/
def initialGlobalSize (k : SYCLConvGen9Kernel) : WorkDim3 :=
  ⟨k.dst.getCB, ceil_div k.src.H blockOH, ceil_div k.src.W blockOW⟩

/-- EU fusion step: `if (g[0] % 2 != 0 && g[1] % 2 != 0 && g[2] % 2 != 0) g[2]++`. -/
def euFusion (g : WorkDim3) : WorkDim3 :=
  if g.get 0 % 2 ≠ 0 ∧ g.get 1 % 2 ≠ 0 ∧ g.get 2 % 2 ≠ 0 then g.set 2 (g.get 2 + 1) else g

/-- One evaluation of the sizing loop condition and body: `none` when the loop
stops (condition false or `break`), otherwise the next `(localSize, totalSize)`. -/
def sizingStep (globalSize : WorkDim3) (st : WorkDim3 × Nat) : Option (WorkDim3 × Nat) :=
  let localSize := st.1
  let totalSize := st.2
  if totalSize * 2 ≤ 16 then
    let i := if localSize.get 1 * blockOH < localSize.get 2 * blockOW then 1 else 2
    if globalSize.get i % (localSize.get i * 2) = 0 then
      some (localSize.set i (localSize.get i * 2), totalSize * 2)
    else if globalSize.get (3 - i) % (localSize.get (3 - i) * 2) = 0 then
      some (localSize.set (3 - i) (localSize.get (3 - i) * 2), totalSize * 2)
    else
      none
  else
    none

/-- The sizing loop `while (totalSize * 2 <= 16)`, run for at most `fuel`
evaluations of its condition; `none` when the fuel does not suffice. -/
def sizingLoop (globalSize : WorkDim3) : Nat → WorkDim3 × Nat → Option (WorkDim3 × Nat)
  | 0, _ => none
  | fuel + 1, st =>
    match sizingStep globalSize st with
    | none => some st
    | some st1 => sizingLoop globalSize fuel st1

/-- Grids computed by `runImpl` from the global item counts: the padded global
size and the local size (with its total item count). -/
def sizeGrid (fuel : Nat) (g0 : WorkDim3) : Option (WorkDim3 × WorkDim3 × Nat) :=
  let globalSize := euFusion g0
  match sizingLoop globalSize fuel (⟨globalSize.get 0, 1, 1⟩, globalSize.get 0) with
  | none => none
  | some st => some (globalSize, st.1, st.2)

/-- A kernel dispatch `submitESIMDKernel(groups, local, kernel)`. -/
structure Dispatch where
  groups : WorkDim3
  localSize : WorkDim3
deriving DecidableEq, Repr

/-- Model of `runImpl`: the arguments handed to `submitESIMDKernel`. -/
def runImpl (fuel : Nat) (k : SYCLConvGen9Kernel) : Option Dispatch :=
  match sizeGrid fuel (initialGlobalSize k) with
  | none => none
  | some r => some ⟨r.1.div r.2.1, r.2.1⟩

/-- All index triples below the extents of `d`. -/
def WorkDim3.indices (d : WorkDim3) : List WorkDim3 :=
  (List.range d.d0 ×ˢ (List.range d.d1 ×ˢ List.range d.d2)).map
    (fun p => (⟨p.1, p.2.1, p.2.2⟩ : WorkDim3))

/-- Modelled from the spec: the work-items of a dispatch, every local index of every group. -/
def Dispatch.items (d : Dispatch) : List WorkGroupItem :=
  (d.groups.indices ×ˢ d.localSize.indices).map
    (fun p => (⟨p.1, p.2, d.localSize⟩ : WorkGroupItem))

/-- Effect of a trace of stores on a buffer, in order. -/
def applyStores (mem : Mem) (tr : List Store) : Mem :=
  tr.foldl (fun m s => Function.update m s.1 s.2) mem

/-- Modelled from the spec: execution of the kernel by the work-items of a
schedule, one after the other, on the destination buffer. -/
def execute (k : SYCLConvGen9Kernel) (sched : List WorkGroupItem) (dstMem : Mem) : Mem :=
  sched.foldl (fun m it => applyStores m (k.call it)) dstMem

/-- A concrete kernel closure for instantiating the theorems: every source value
equals its element offset, every weight equals `wv`, and the bias of channel `o` is `o`. -/
def exampleKernel (p : PostOp) (src dst : TensorAccessor3D) (wv : Val) : SYCLConvGen9Kernel :=
  { postOp := p, src := src, srcMem := fun a => a, weight := ⟨dst.C, src.C, 3, 3⟩,
    weightMem := fun _ => wv, biasMem := fun a => a, dst := dst }

/-- The same convolution with post-op `None` and a destination of the height and
width of the source: the plain convolution whose output the fused post-ops refer to. -/
def SYCLConvGen9Kernel.plain (k : SYCLConvGen9Kernel) : SYCLConvGen9Kernel :=
  { k with postOp := PostOp.None, dst := ⟨k.dst.C, k.src.H, k.src.W⟩ }

/-- Nearest-neighbour x2 upsampling of a tensor given by its elements. -/
def nearestUpsample2 (f : Nat → Nat → Nat → Val) (o h w : Nat) : Val :=
  f o (h / 2) (w / 2)

/-- Max-pooling 2x2 with stride 2 of a tensor given by its elements. -/
def maxPool2x2 (f : Nat → Nat → Nat → Val) (o h w : Nat) : Val :=
  max (max (f o (2 * h) (2 * w)) (f o (2 * h) (2 * w + 1)))
    (max (f o (2 * h + 1) (2 * w)) (f o (2 * h + 1) (2 * w + 1)))

/-- Destination rows covered by one tile, per post-op. -/
def dstTileH : PostOp → Nat
  | PostOp.None => blockOH
  | PostOp.Pool => blockOH / 2
  | PostOp.Upsample => blockOH * 2

/-- Destination columns covered by one tile, per post-op. -/
def dstTileW : PostOp → Nat
  | PostOp.None => blockOW
  | PostOp.Pool => blockOW / 2
  | PostOp.Upsample => blockOW * 2

/-- Body of the loop over the kernel height in `khLoop`: the ring buffer load of
kernel row `kh`, then the taps of that row reading the loaded buffer. -/
def SYCLConvGen9Kernel.khBody (k : SYCLConvGen9Kernel) (oc ic : Nat) (ih iw : Int) (kh : Nat)
    (st : (Nat → Simd) × (Nat → Simd)) : (Nat → Simd) × (Nat → Simd) :=
  let slot := (kh + blockOH - 1) % blockOH
  let inRows := Function.update st.1 slot
    (k.loadRow (blockIW * blockC) (st.1 slot) ic (ih + ((kh + blockOH - 1 : Nat) : Int)) iw)
  let weightPtr := k.weight.offset oc ic kh 0
  (inRows, k.kwLoop inRows kh weightPtr st.2)

/-- Ring buffer after the pre-load loop of `icBody`. -/
def SYCLConvGen9Kernel.preloadRows (k : SYCLConvGen9Kernel) (ic : Nat) (ih iw : Int) : Nat → Simd :=
  forLoop (blockOH - 1)
    (fun boh (r : Nat → Simd) =>
      Function.update r boh (k.loadRow (blockIW * blockC) (r boh) ic (ih + (boh : Int)) iw))
    (fun _ _ => 0)

/-- Ring buffer that the multiply-accumulate of kernel row `kh` reads: the buffer
after `kh` iterations of the loop over the kernel height and the load of iteration `kh`. -/
def SYCLConvGen9Kernel.ringBuffer (k : SYCLConvGen9Kernel) (oc ic : Nat) (ih iw : Int)
    (out0 : Nat → Simd) (kh : Nat) : Nat → Simd :=
  (k.khBody oc ic ih iw kh
    (forLoop kh (k.khBody oc ic ih iw) (k.preloadRows ic ih iw, out0))).1

/-- The example scenario: one channel block in and out, a 4 x 4 image, every
source value 1, every weight 1, bias 0, post-op `None`. -/
def onesKernel : SYCLConvGen9Kernel :=
  { postOp := PostOp.None, src := ⟨16, 4, 4⟩, srcMem := fun _ => 1, weight := ⟨16, 16, 3, 3⟩,
    weightMem := fun _ => 1, biasMem := fun _ => 0, dst := ⟨16, 4, 4⟩ }

/-- Number of the 3x3 taps around `(h,w)` that fall inside an `H x W` image. -/
def tapsInside (H W h w : Nat) : Nat :=
  ∑ kh in Finset.range 3, ∑ kw in Finset.range 3,
    if 0 ≤ (h : Int) + (kh : Int) - 1 ∧ (h : Int) + (kh : Int) - 1 < (H : Int) ∧
        0 ≤ (w : Int) + (kw : Int) - 1 ∧ (w : Int) + (kw : Int) - 1 < (W : Int) then 1 else 0

/-! ## `SYCLConvGen9`: construction and submission -/

/-- Modelled from the spec: `TensorLayout`, with the three layouts the constructor
names and a constructor for every other layout. -/
inductive TensorLayout where
  | x
  | Chw16c
  | OIhw16i16o
  | other (tag : Nat)
deriving DecidableEq, Repr

/-- Modelled from the spec: `DataType`, with `Float16` and a constructor for every other type. -/
inductive DataType where
  | Float16
  | other (tag : Nat)
deriving DecidableEq, Repr

/-- Modelled from the spec: the layout and data type of a tensor descriptor. -/
structure TensorDesc where
  layout : TensorLayout
  dataType : DataType
deriving DecidableEq, Repr

/-- Modelled from the spec: `ConvDesc`, the operand descriptors and the post-op. -/
structure ConvDesc where
  srcDesc : TensorDesc
  weightDesc : TensorDesc
  biasDesc : TensorDesc
  postOp : PostOp
deriving DecidableEq, Repr

/-- The exceptions thrown by the operator: `std::invalid_argument` and `std::logic_error`. -/
inductive ConvError where
  | invalid_argument (what : String)
  | logic_error (what : String)
deriving DecidableEq, Repr

/-- Modelled from the spec: a bound rank 3 tensor, its accessor and its buffer. -/
structure Tensor3D where
  acc : TensorAccessor3D
  mem : Mem

/-- Modelled from the spec: a bound rank 4 tensor, its accessor and its buffer. -/
structure Tensor4D where
  acc : TensorAccessor4D
  mem : Mem

/-- Modelled from the spec: a bound rank 1 tensor, its buffer. -/
structure Tensor1D where
  mem : Mem

/-- Modelled from the spec: the operator object, with the members of the base class
`Conv` (the descriptor and the operand references, unset until bound). -/
structure SYCLConvGen9 where
  desc : ConvDesc
  src : Option Tensor3D
  weight : Option Tensor4D
  bias : Option Tensor1D
  dst : Option Tensor3D

/-- Model of the constructor `SYCLConvGen9::SYCLConvGen9`. -/
def SYCLConvGen9.construct (desc : ConvDesc) : Except ConvError SYCLConvGen9 :=
  if desc.srcDesc.layout ≠ TensorLayout.Chw16c ∨ desc.srcDesc.dataType ≠ DataType.Float16 then
    Except.error (ConvError.invalid_argument "unsupported convolution source layout/data type")
  else if desc.weightDesc.layout ≠ TensorLayout.OIhw16i16o
      ∨ desc.weightDesc.dataType ≠ DataType.Float16 then
    Except.error (ConvError.invalid_argument "unsupported convolution weight layout/data type")
  else if desc.biasDesc.layout ≠ TensorLayout.x ∨ desc.biasDesc.dataType ≠ DataType.Float16 then
    Except.error (ConvError.invalid_argument "unsupported convolution bias layout/data type")
  else
    Except.ok { desc := desc, src := none, weight := none, bias := none, dst := none }

/-- The kernel closure that `runImpl<kernelPostOp>` fills in from the operands. -/
def SYCLConvGen9.kernel (p : PostOp) (src : Tensor3D) (weight : Tensor4D) (bias : Tensor1D)
    (dst : Tensor3D) : SYCLConvGen9Kernel :=
  { postOp := p, src := src.acc, srcMem := src.mem, weight := weight.acc, weightMem := weight.mem,
    biasMem := bias.mem, dst := dst.acc }

/-- `runImpl<kernelPostOp>` on the bound operands: the kernel and the grids of its
one call of `submitESIMDKernel`; `none` when the fuel of the sizing loop does not suffice. -/
def SYCLConvGen9.runImplFor (fuel : Nat) (p : PostOp) (src : Tensor3D) (weight : Tensor4D)
    (bias : Tensor1D) (dst : Tensor3D) : Option (List (SYCLConvGen9Kernel × Dispatch)) :=
  match runImpl fuel (SYCLConvGen9.kernel p src weight bias dst) with
  | none => none
  | some d => some [(SYCLConvGen9.kernel p src weight bias dst, d)]

/-- Model of `submit`: the exception thrown, or the list of kernels handed to the engine. -/
def SYCLConvGen9.submit (fuel : Nat) (c : SYCLConvGen9) :
    Except ConvError (Option (List (SYCLConvGen9Kernel × Dispatch))) :=
  match c.src, c.weight, c.bias, c.dst with
  | some src, some weight, some bias, some dst =>
    match c.desc.postOp with
    | PostOp.None => Except.ok (SYCLConvGen9.runImplFor fuel PostOp.None src weight bias dst)
    | PostOp.Pool => Except.ok (SYCLConvGen9.runImplFor fuel PostOp.Pool src weight bias dst)
    | PostOp.Upsample => Except.ok (SYCLConvGen9.runImplFor fuel PostOp.Upsample src weight bias dst)
  | _, _, _, _ => Except.error (ConvError.logic_error "convolution argument not set")

/-! ## Work-group sizing -/

/-- Invariant of the sizing loop. -/
def SizingInv (g : WorkDim3) (st : WorkDim3 × Nat) : Prop :=
  st.1.d0 = g.d0 ∧ st.1.d1 ∣ g.d1 ∧ st.1.d2 ∣ g.d2 ∧ st.2 = st.1.d0 * st.1.d1 * st.1.d2

theorem sizingStep_guard (g : WorkDim3) (st st1 : WorkDim3 × Nat)
    (h : sizingStep g st = some st1) : st.2 * 2 ≤ 16 := by
  unfold sizingStep at h
  simp only at h
  by_contra hc
  rw [if_neg hc] at h
  exact absurd h (by simp)

theorem sizingStep_none (g : WorkDim3) (st : WorkDim3 × Nat) (h : 16 < st.2 * 2) :
    sizingStep g st = none := by
  unfold sizingStep
  simp only
  rw [if_neg (by omega)]

theorem sizingStep_cases (g : WorkDim3) (st st1 : WorkDim3 × Nat)
    (h : sizingStep g st = some st1) :
    (g.d1 % (st.1.d1 * 2) = 0 ∧ st1 = (⟨st.1.d0, st.1.d1 * 2, st.1.d2⟩, st.2 * 2)) ∨
    (g.d2 % (st.1.d2 * 2) = 0 ∧ st1 = (⟨st.1.d0, st.1.d1, st.1.d2 * 2⟩, st.2 * 2)) := by
  obtain ⟨⟨l0, l1, l2⟩, t⟩ := st
  obtain ⟨g0, g1, g2⟩ := g
  unfold sizingStep at h
  simp only at h
  by_cases ht : t * 2 ≤ 16
  · rw [if_pos ht] at h
    by_cases hc : l1 * blockOH < l2 * blockOW
    · have e1 : (WorkDim3.mk l0 l1 l2).get 1 * blockOH < (WorkDim3.mk l0 l1 l2).get 2 * blockOW := by
        simpa [WorkDim3.get] using hc
      rw [if_pos e1] at h
      simp only [WorkDim3.get, WorkDim3.set] at h
      norm_num at h
      split_ifs at h with h1 h2
      · left; exact ⟨h1, (Option.some.inj h).symm⟩
      · right; exact ⟨h2, (Option.some.inj h).symm⟩
    · have e1 : ¬ ((WorkDim3.mk l0 l1 l2).get 1 * blockOH < (WorkDim3.mk l0 l1 l2).get 2 * blockOW) := by
        simpa [WorkDim3.get] using hc
      rw [if_neg e1] at h
      simp only [WorkDim3.get, WorkDim3.set] at h
      norm_num at h
      split_ifs at h with h1 h2
      · right; exact ⟨h1, (Option.some.inj h).symm⟩
      · left; exact ⟨h2, (Option.some.inj h).symm⟩
  · rw [if_neg ht] at h
    exact absurd h (by simp)

theorem sizingStep_total (g : WorkDim3) (st st1 : WorkDim3 × Nat)
    (h : sizingStep g st = some st1) : st1.2 = st.2 * 2 ∧ st.2 * 2 ≤ 16 := by
  refine ⟨?_, sizingStep_guard g st st1 h⟩
  rcases sizingStep_cases g st st1 h with ⟨_, rfl⟩ | ⟨_, rfl⟩ <;> rfl

theorem sizingStep_inv (g : WorkDim3) (st st1 : WorkDim3 × Nat)
    (h : sizingStep g st = some st1) (hi : SizingInv g st) : SizingInv g st1 := by
  obtain ⟨h0, h1, h2, ht⟩ := hi
  rcases sizingStep_cases g st st1 h with ⟨hd, rfl⟩ | ⟨hd, rfl⟩
  · refine ⟨h0, ?_, h2, ?_⟩
    · simpa [mul_comm] using Nat.dvd_of_mod_eq_zero hd
    · simp only [ht]; ring
  · refine ⟨h0, h1, ?_, ?_⟩
    · simpa [mul_comm] using Nat.dvd_of_mod_eq_zero hd
    · simp only [ht]; ring

theorem sizingLoop_inv (g : WorkDim3) (fuel : Nat) (st r : WorkDim3 × Nat)
    (h : sizingLoop g fuel st = some r) (hi : SizingInv g st) : SizingInv g r := by
  induction fuel generalizing st with
  | zero => simp [sizingLoop] at h
  | succ n ih =>
    unfold sizingLoop at h
    cases hs : sizingStep g st with
    | none => simp [hs] at h; subst h; exact hi
    | some st1 => simp [hs] at h; exact ih st1 h (sizingStep_inv g st st1 hs hi)

theorem sizingLoop_stops (g : WorkDim3) (fuel : Nat) (st r : WorkDim3 × Nat)
    (h : sizingLoop g fuel st = some r) : sizingStep g r = none := by
  induction fuel generalizing st with
  | zero => simp [sizingLoop] at h
  | succ n ih =>
    unfold sizingLoop at h
    cases hs : sizingStep g st with
    | none => simp [hs] at h; subst h; exact hs
    | some st1 => simp [hs] at h; exact ih st1 h

theorem sizingLoop_terminates (g : WorkDim3) (fuel : Nat) (st : WorkDim3 × Nat)
    (h : 16 < st.2 * 2 ^ (fuel + 1)) : ∃ r, sizingLoop g (fuel + 1) st = some r := by
  induction fuel generalizing st with
  | zero =>
    refine ⟨st, ?_⟩
    unfold sizingLoop
    rw [sizingStep_none g st (by simpa using h)]
  | succ n ih =>
    unfold sizingLoop
    cases hs : sizingStep g st with
    | none => exact ⟨st, rfl⟩
    | some st1 =>
      have h1 := (sizingStep_total g st st1 hs).1
      exact ih st1 (by rw [h1]; rw [pow_succ] at h; linarith)

theorem sizingLoop_mono (g : WorkDim3) (fuel : Nat) (st r : WorkDim3 × Nat)
    (h : sizingLoop g fuel st = some r) (fuel1 : Nat) (hf : fuel ≤ fuel1) :
    sizingLoop g fuel1 st = some r := by
  induction fuel generalizing st fuel1 with
  | zero => simp [sizingLoop] at h
  | succ n ih =>
    obtain ⟨m, rfl⟩ : ∃ m, fuel1 = m + 1 := ⟨fuel1 - 1, by omega⟩
    unfold sizingLoop at h ⊢
    cases hs : sizingStep g st with
    | none => simpa [hs] using h
    | some st1 =>
      simp only [hs] at h ⊢
      exact ih st1 h m (by omega)

theorem sizingLoop_total_le (g : WorkDim3) (fuel : Nat) (st r : WorkDim3 × Nat)
    (h : sizingLoop g fuel st = some r) (B : Nat) (hB : 16 ≤ B) (hs : st.2 ≤ B) : r.2 ≤ B := by
  induction fuel generalizing st with
  | zero => simp [sizingLoop] at h
  | succ n ih =>
    unfold sizingLoop at h
    cases hst : sizingStep g st with
    | none => simp [hst] at h; subst h; exact hs
    | some st1 =>
      simp [hst] at h
      have := sizingStep_total g st st1 hst
      exact ih st1 h (by omega)

theorem mem_indices (d x : WorkDim3) : x ∈ d.indices ↔ x.d0 < d.d0 ∧ x.d1 < d.d1 ∧ x.d2 < d.d2 := by
  obtain ⟨a, b, c⟩ := x
  simp only [WorkDim3.indices, List.mem_map, Prod.exists, List.mem_product, List.mem_range]
  constructor
  · rintro ⟨a1, b1, c1, ⟨h0, h1, h2⟩, he⟩
    injection he with e0 e1 e2
    subst e0 e1 e2
    exact ⟨h0, h1, h2⟩
  · rintro ⟨h0, h1, h2⟩
    exact ⟨a, b, c, ⟨h0, h1, h2⟩, rfl⟩

theorem nodup_indices (d : WorkDim3) : d.indices.Nodup := by
  unfold WorkDim3.indices
  refine List.Nodup.map ?_ ?_
  · rintro ⟨a, b, c⟩ ⟨a1, b1, c1⟩ h
    injection h with e0 e1 e2
    simp only at e0 e1 e2
    subst e0 e1 e2
    rfl
  · exact List.Nodup.product (List.nodup_range _) (List.Nodup.product (List.nodup_range _) (List.nodup_range _))

theorem mem_items (d : Dispatch) (it : WorkGroupItem) :
    it ∈ d.items ↔ it.groupId ∈ d.groups.indices ∧ it.localId ∈ d.localSize.indices
      ∧ it.localRange = d.localSize := by
  obtain ⟨g, l, r⟩ := it
  simp only [Dispatch.items, List.mem_map, Prod.exists, List.mem_product]
  constructor
  · rintro ⟨g1, l1, ⟨hg, hl⟩, he⟩
    injection he with e0 e1 e2
    subst e0 e1 e2
    exact ⟨hg, hl, rfl⟩
  · rintro ⟨hg, hl, hr⟩
    have hr1 : r = d.localSize := hr
    subst hr1
    exact ⟨g, l, ⟨hg, hl⟩, rfl⟩

theorem nodup_items (d : Dispatch) : d.items.Nodup := by
  unfold Dispatch.items
  refine List.Nodup.map ?_ ?_
  · rintro ⟨g, l⟩ ⟨g1, l1⟩ h
    injection h with e0 e1 e2
    simp only at e0 e1
    subst e0 e1
    rfl
  · exact List.Nodup.product (nodup_indices _) (nodup_indices _)


theorem euFusion_eq (g : WorkDim3) :
    euFusion g = if g.d0 % 2 = 1 ∧ g.d1 % 2 = 1 ∧ g.d2 % 2 = 1 then ⟨g.d0, g.d1, g.d2 + 1⟩ else g := by
  obtain ⟨a, b, c⟩ := g
  simp only [euFusion, WorkDim3.get, WorkDim3.set]
  norm_num

theorem sizeGrid_some (fuel : Nat) (g0 G L : WorkDim3) (t : Nat)
    (h : sizeGrid fuel g0 = some (G, L, t)) :
    G = euFusion g0 ∧ sizingLoop G fuel (⟨G.d0, 1, 1⟩, G.d0) = some (L, t) := by
  unfold sizeGrid at h
  simp only [WorkDim3.get] at h
  norm_num at h
  split at h
  · exact absurd h (by simp)
  · rename_i st hst
    simp only [Option.some.injEq, Prod.mk.injEq] at h
    obtain ⟨h1, h2, h3⟩ := h
    subst h1
    exact ⟨rfl, hst⟩

theorem sizeGrid_terminates (g0 : WorkDim3) (h0 : 1 ≤ g0.d0) :
    ∃ r, ∀ fuel, 5 ≤ fuel → sizeGrid fuel g0 = some r := by
  have hG : (euFusion g0).d0 = g0.d0 := by
    rw [euFusion_eq]; split_ifs <;> rfl
  obtain ⟨r, hr⟩ := sizingLoop_terminates (euFusion g0) 4 (⟨(euFusion g0).d0, 1, 1⟩, (euFusion g0).d0)
    (by simp only [hG]; omega)
  refine ⟨(euFusion g0, r.1, r.2), fun fuel hf => ?_⟩
  have := sizingLoop_mono _ _ _ _ hr fuel hf
  unfold sizeGrid
  simp only [WorkDim3.get]
  norm_num
  rw [this]

theorem sizeGrid_inv (fuel : Nat) (g0 G L : WorkDim3) (t : Nat)
    (h : sizeGrid fuel g0 = some (G, L, t)) :
    L.d0 = G.d0 ∧ L.d1 ∣ G.d1 ∧ L.d2 ∣ G.d2 ∧ t = L.d0 * L.d1 * L.d2 := by
  obtain ⟨_, h2⟩ := sizeGrid_some fuel g0 G L t h
  exact sizingLoop_inv G fuel _ _ h2 ⟨rfl, one_dvd _, one_dvd _, by simp⟩

theorem split_index (L G a : Nat) (hd : L ∣ G) (ha : a < G) :
    0 < L ∧ a / L < G / L ∧ a % L < L ∧ a / L * L + a % L = a := by
  have hL : 0 < L := by
    rcases Nat.eq_zero_or_pos L with h | h
    · subst h; simp at hd; omega
    · exact h
  refine ⟨hL, Nat.div_lt_div_of_lt_of_dvd hd ha, Nat.mod_lt _ hL, ?_⟩
  rw [mul_comm]; exact Nat.div_add_mod a L

theorem split_index_unique (L a g l : Nat) (hl : l < L) (h : g * L + l = a) :
    g = a / L ∧ l = a % L := by
  subst h
  have hL : 0 < L := by omega
  constructor
  · rw [mul_comm, Nat.mul_add_div hL, Nat.div_eq_of_lt hl]; rfl
  · rw [mul_comm, Nat.mul_add_mod, Nat.mod_eq_of_lt hl]

/-- C5: for every global item count with at least one channel block, the sizing of
`runImpl` returns (with five or more loop evaluations allowed) a padded global
grid `G` and a local grid `L` such that `G[k] % L[k] = 0` and
`(G / L)[k] * L[k] = G[k]` on every axis, and every tile index of the global grid
is the global id of exactly one work-item of the dispatch `(G / L, L)`. -/
theorem C5_local_grid_divides (g0 : WorkDim3) (h0 : 1 ≤ g0.d0) :
    ∃ G L t, (∀ fuel, 5 ≤ fuel → sizeGrid fuel g0 = some (G, L, t)) ∧
      (∀ i, i < 3 → G.get i % L.get i = 0 ∧ (G.div L).get i * L.get i = G.get i) ∧
      (Dispatch.mk (G.div L) L).items.Nodup ∧
      (∀ a b c, a < G.d0 → b < G.d1 → c < G.d2 →
        ∃! it, it ∈ (Dispatch.mk (G.div L) L).items ∧
          it.getGlobalId 0 = a ∧ it.getGlobalId 1 = b ∧ it.getGlobalId 2 = c) := by
  obtain ⟨⟨G, L, t⟩, hr⟩ := sizeGrid_terminates g0 h0
  obtain ⟨e0, d1, d2, _⟩ := sizeGrid_inv 5 g0 G L t (hr 5 le_rfl)
  have d0 : L.d0 ∣ G.d0 := by rw [e0]
  refine ⟨G, L, t, hr, ?_, nodup_items _, ?_⟩
  · intro i hi
    have key : ∀ l g : Nat, l ∣ g → g % l = 0 ∧ g / l * l = g := fun l g h =>
      ⟨Nat.mod_eq_zero_of_dvd h, Nat.div_mul_cancel h⟩
    rcases (by omega : i = 0 ∨ i = 1 ∨ i = 2) with rfl | rfl | rfl
    · simpa [WorkDim3.get, WorkDim3.div] using key _ _ d0
    · simpa [WorkDim3.get, WorkDim3.div] using key _ _ d1
    · simpa [WorkDim3.get, WorkDim3.div] using key _ _ d2
  · intro a b c ha hb hc
    obtain ⟨_, a1, a2, a3⟩ := split_index L.d0 G.d0 a d0 ha
    obtain ⟨_, b1, b2, b3⟩ := split_index L.d1 G.d1 b d1 hb
    obtain ⟨_, c1, c2, c3⟩ := split_index L.d2 G.d2 c d2 hc
    refine ⟨⟨⟨a / L.d0, b / L.d1, c / L.d2⟩, ⟨a % L.d0, b % L.d1, c % L.d2⟩, L⟩, ?_, ?_⟩
    · refine ⟨?_, ?_, ?_, ?_⟩
      · rw [mem_items]
        simp only [mem_indices, WorkDim3.div]
        exact ⟨⟨a1, b1, c1⟩, ⟨a2, b2, c2⟩, trivial⟩
      · simpa [WorkGroupItem.getGlobalId, WorkDim3.get] using a3
      · simpa [WorkGroupItem.getGlobalId, WorkDim3.get] using b3
      · simpa [WorkGroupItem.getGlobalId, WorkDim3.get] using c3
    · rintro ⟨⟨x0, x1, x2⟩, ⟨y0, y1, y2⟩, r⟩ ⟨hm, ea, eb, ec⟩
      rw [mem_items] at hm
      simp only [mem_indices, WorkDim3.div] at hm
      obtain ⟨_, ⟨hy0, hy1, hy2⟩, hr1⟩ := hm
      subst hr1
      simp only [WorkGroupItem.getGlobalId, WorkDim3.get] at ea eb ec
      norm_num at ea eb ec
      obtain ⟨p0, q0⟩ := split_index_unique _ _ _ _ hy0 ea
      obtain ⟨p1, q1⟩ := split_index_unique _ _ _ _ hy1 eb
      obtain ⟨p2, q2⟩ := split_index_unique _ _ _ _ hy2 ec
      subst p0 q0 p1 q1 p2 q2
      rfl

/-- C5 at the all-odd count `(1,3,5)`. -/
theorem C5_local_grid_divides_witness :
    1 ≤ (WorkDim3.mk 1 3 5).d0 ∧
    ∃ G L t, (∀ fuel, 5 ≤ fuel → sizeGrid fuel ⟨1, 3, 5⟩ = some (G, L, t)) ∧
      (∀ i, i < 3 → G.get i % L.get i = 0 ∧ (G.div L).get i * L.get i = G.get i) ∧
      (Dispatch.mk (G.div L) L).items.Nodup ∧
      (∀ a b c, a < G.d0 → b < G.d1 → c < G.d2 →
        ∃! it, it ∈ (Dispatch.mk (G.div L) L).items ∧
          it.getGlobalId 0 = a ∧ it.getGlobalId 1 = b ∧ it.getGlobalId 2 = c) :=
  ⟨by decide, C5_local_grid_divides ⟨1, 3, 5⟩ (by decide)⟩

/-- C6 fails as stated: for 17 channel blocks and one tile the local grid is
`(17,1,1)`, of 17 items. -/
theorem C6_counterexample :
    ∃ L t, sizeGrid 5 ⟨17, 1, 1⟩ = some (⟨17, 1, 2⟩, L, t) ∧ ¬ (L.d0 * L.d1 * L.d2 ≤ 16) :=
  ⟨⟨17, 1, 1⟩, 17, by decide, by decide⟩

/-- C6 amended: whatever local grid the sizing returns, its total item count
`L[0] * L[1] * L[2]` is at most `max(Cb, 16)`, so it never exceeds 16 when
`Cb <= 16`; and for `Cb >= 1` the sizing does return, within five loop evaluations. -/
theorem C6_total_le_max (g0 : WorkDim3) :
    (∀ fuel G L t, sizeGrid fuel g0 = some (G, L, t) →
      L.d0 * L.d1 * L.d2 ≤ max g0.d0 16 ∧ (g0.d0 ≤ 16 → L.d0 * L.d1 * L.d2 ≤ 16)) ∧
    (1 ≤ g0.d0 → ∃ r, ∀ fuel, 5 ≤ fuel → sizeGrid fuel g0 = some r) := by
  refine ⟨?_, sizeGrid_terminates g0⟩
  intro fuel G L t h
  obtain ⟨hG, hl⟩ := sizeGrid_some fuel g0 G L t h
  obtain ⟨_, _, _, ht⟩ := sizeGrid_inv fuel g0 G L t h
  have hG0 : G.d0 = g0.d0 := by
    rw [hG, euFusion_eq]; split_ifs <;> rfl
  have hb := sizingLoop_total_le G fuel _ _ hl (max g0.d0 16) (le_max_right _ _)
    (by simp only [hG0]; exact le_max_left _ _)
  simp only at hb
  rw [ht] at hb
  refine ⟨hb, fun h16 => ?_⟩
  rwa [max_eq_right h16] at hb

/-- C6 amended, at the count `(1,3,5)`: the local grid is `(1,1,2)`. -/
theorem C6_total_le_max_witness :
    sizeGrid 5 ⟨1, 3, 5⟩ = some (⟨1, 3, 6⟩, ⟨1, 1, 2⟩, 2) ∧ 1 * 1 * 2 ≤ 16 ∧
    (∃ r, ∀ fuel, 5 ≤ fuel → sizeGrid fuel ⟨1, 3, 5⟩ = some r) :=
  ⟨by decide,
    ((C6_total_le_max ⟨1, 3, 5⟩).1 5 ⟨1, 3, 6⟩ ⟨1, 1, 2⟩ 2 (by decide)).2 (by decide),
    (C6_total_le_max ⟨1, 3, 5⟩).2 (by decide)⟩

/-- C7: the EU fusion step maps `(Cb,Hb,Wb)` to `(Cb,Hb,Wb+1)` exactly when the
three counts are odd and leaves the triple unchanged otherwise; the product of
the resulting grid is even; and for `(1,3,5)` the grid used for sizing is `(1,3,6)`. -/
theorem C7_euFusion (g : WorkDim3) :
    (euFusion g = if g.d0 % 2 = 1 ∧ g.d1 % 2 = 1 ∧ g.d2 % 2 = 1
      then ⟨g.d0, g.d1, g.d2 + 1⟩ else g) ∧
    (euFusion g = ⟨g.d0, g.d1, g.d2 + 1⟩ ↔ (g.d0 % 2 = 1 ∧ g.d1 % 2 = 1 ∧ g.d2 % 2 = 1)) ∧
    ((euFusion g).d0 * (euFusion g).d1 * (euFusion g).d2) % 2 = 0 ∧
    euFusion ⟨1, 3, 5⟩ = ⟨1, 3, 6⟩ ∧
    (∀ fuel, 5 ≤ fuel → (sizeGrid fuel ⟨1, 3, 5⟩).map (fun r => r.1) = some ⟨1, 3, 6⟩) := by
  obtain ⟨a, b, c⟩ := g
  refine ⟨euFusion_eq _, ?_, ?_, by decide, ?_⟩
  · rw [euFusion_eq]
    constructor
    · intro h
      by_contra hc
      rw [if_neg hc] at h
      simp at h
    · intro h
      rw [if_pos h]
  · rw [euFusion_eq]
    simp only
    split_ifs with h
    · simp only
      obtain ⟨_, _, h2⟩ := h
      have : (c + 1) % 2 = 0 := by omega
      rw [Nat.mul_mod, this]; simp
    · simp only
      have : a % 2 = 0 ∨ b % 2 = 0 ∨ c % 2 = 0 := by omega
      rcases this with h1 | h1 | h1
      · rw [mul_assoc, Nat.mul_mod, h1]; simp
      · rw [Nat.mul_mod, Nat.mul_mod a b, h1]; simp
      · rw [Nat.mul_mod, h1]; simp
  · intro fuel hf
    obtain ⟨r, hr⟩ := sizeGrid_terminates ⟨1, 3, 5⟩ (by decide)
    have h5 := hr 5 le_rfl
    rw [hr fuel hf, ← h5]
    decide

open SYCLConvGen9Kernel

/-- C7 at the all-odd count `(1,3,5)`: the grid used for sizing is `(1,3,6)`. -/
theorem C7_euFusion_witness :
    5 ≤ 5 ∧ (sizeGrid 5 ⟨1, 3, 5⟩).map (fun r => r.1) = some ⟨1, 3, 6⟩ :=
  ⟨le_refl 5, (C7_euFusion ⟨1, 3, 5⟩).2.2.2.2 5 (le_refl 5)⟩

/-! ## Row loader -/

theorem forLoop_succ {σ : Type} (n : Nat) (body : Nat → σ → σ) (s : σ) :
    forLoop (n + 1) body s = body n (forLoop n body s) := rfl

theorem forLoop_zero {σ : Type} (body : Nat → σ → σ) (s : σ) : forLoop 0 body s = s := rfl

/-- Element offsets are affine in the column and in the channel inside a block. -/
theorem offset_lane (t : TensorAccessor3D) (c0 : Nat) (h w : Int) (x c : Nat)
    (h0 : c0 % blockC = 0) (hc : c < blockC) :
    t.offset c0 h w + ((x * blockC + c : Nat) : Int) = t.offset (c0 + c) h (w + x) := by
  unfold TensorAccessor3D.offset
  have e1 : (c0 + c) / blockC = c0 / blockC := by simp only [blockC] at *; omega
  have e2 : (c0 + c) % blockC = c := by simp only [blockC] at *; omega
  have e3 : c0 % blockC = 0 := h0
  rw [e1, e2, e3]
  push_cast
  ring

theorem loadRowSlow_loop (k : SYCLConvGen9Kernel) (row : Simd) (srcPtr iw : Int) (n : Nat) :
    let st := forLoop n
      (fun w (st : Simd × Int) =>
        let pred := decide ((w : Int) ≥ -iw) && decide ((w : Int) < (k.src.W : Int) - iw)
        (st.1.assign blockC (w * blockC) (loadBlockPred k.srcMem st.2 pred), st.2 + (blockC : Int)))
      (row, srcPtr)
    st.2 = srcPtr + ((n * blockC : Nat) : Int) ∧
    ∀ j, st.1 j = if j < n * blockC then
        (if 0 ≤ iw + ((j / blockC : Nat) : Int) ∧ iw + ((j / blockC : Nat) : Int) < (k.src.W : Int)
          then k.srcMem (srcPtr + (j : Int)) else 0)
      else row j := by
  induction n with
  | zero =>
    simp [forLoop_zero]
  | succ n ih =>
    obtain ⟨ih1, ih2⟩ := ih
    simp only [forLoop_succ]
    refine ⟨?_, fun j => ?_⟩
    · rw [ih1]; push_cast; ring
    · simp only [Simd.assign, loadBlockPred]
      by_cases hj : n * blockC ≤ j ∧ j < n * blockC + blockC
      · rw [if_pos hj]
        have hq : j / blockC = n := by simp only [blockC] at *; omega
        have hlt : j < (n + 1) * blockC := by simp only [blockC] at *; omega
        rw [if_pos hlt, hq, ih1]
        have hp : (decide ((n : Int) ≥ -iw) && decide ((n : Int) < (k.src.W : Int) - iw)) = true
            ↔ (0 ≤ iw + (n : Int) ∧ iw + (n : Int) < (k.src.W : Int)) := by
          simp only [Bool.and_eq_true, decide_eq_true_eq]
          constructor <;> rintro ⟨a, b⟩ <;> constructor <;> omega
        by_cases hpp : (0 ≤ iw + (n : Int) ∧ iw + (n : Int) < (k.src.W : Int))
        · rw [if_pos hpp, if_pos (hp.2 hpp)]
          congr 1
          have : ((j - n * blockC : Nat) : Int) = (j : Int) - ((n * blockC : Nat) : Int) := by
            omega
          rw [this]; ring
        · rw [if_neg hpp, if_neg (fun h => hpp (hp.1 h))]
      · rw [if_neg hj, ih2 j]
        by_cases hlt : j < n * blockC
        · have hlt2 : j < (n + 1) * blockC := by simp only [blockC] at *; omega
          rw [if_pos hlt, if_pos hlt2]
        · have hlt2 : ¬ j < (n + 1) * blockC := by simp only [blockC] at *; omega
          rw [if_neg hlt, if_neg hlt2]

theorem loadRowSlow_lane (k : SYCLConvGen9Kernel) (W : Nat) (row : Simd) (srcPtr iw : Int)
    (j : Nat) (hj : j < W * blockC) :
    k.loadRowSlow W row srcPtr iw j =
      if 0 ≤ iw + ((j / blockC : Nat) : Int) ∧ iw + ((j / blockC : Nat) : Int) < (k.src.W : Int)
        then k.srcMem (srcPtr + (j : Int)) else 0 := by
  have := (loadRowSlow_loop k row srcPtr iw W).2 j
  simp only at this
  rw [if_pos hj] at this
  exact this

theorem loadRow_lane (k : SYCLConvGen9Kernel) (row : Simd) (ic : Nat) (ih iw : Int)
    (hic : ic % blockC = 0) (w c : Nat) (hw : w < blockIW) (hc : c < blockC) :
    k.loadRow (blockIW * blockC) row ic ih iw (w * blockC + c) = k.source (ic + c) ih (iw + w) := by
  have hdiv : (w * blockC + c) / blockC = w := by simp only [blockC] at *; omega
  have hN : blockIW * blockC / blockC = blockIW := by decide
  unfold loadRow source
  rw [hN]
  simp only
  by_cases hh : ih < 0 ∨ ih ≥ (k.src.H : Int)
  · rw [if_pos hh, if_neg (by omega)]
  · rw [if_neg hh]
    by_cases hf : iw ≥ 0 ∧ iw + (blockIW : Int) ≤ (k.src.W : Int)
    · rw [if_pos hf]
      have hin : 0 ≤ ih ∧ ih < (k.src.H : Int) ∧ 0 ≤ iw + (w : Int) ∧ iw + (w : Int) < (k.src.W : Int) := by
        simp only [blockIW, blockOW] at *; omega
      rw [if_pos hin]
      simp only [loadRowFast, loadBlock]
      rw [offset_lane k.src ic ih iw w c hic hc]
    · rw [if_neg hf, loadRowSlow_lane k blockIW row _ iw _ (by simp only [blockIW, blockOW, blockC] at *; omega)]
      rw [hdiv]
      by_cases hin : 0 ≤ iw + (w : Int) ∧ iw + (w : Int) < (k.src.W : Int)
      · rw [if_pos hin, if_pos (by omega)]
        rw [offset_lane k.src ic ih iw w c hic hc]
      · rw [if_neg hin, if_neg (by omega)]

open SYCLConvGen9Kernel

/-! ## Row storer -/

theorem mem_storeBlock (ptr : Int) (n : Nat) (v : Simd) (pred : Bool) (s : Store) :
    s ∈ storeBlock ptr n v pred ↔ pred = true ∧ ∃ j, j < n ∧ s = (ptr + (j : Int), v j) := by
  unfold storeBlock
  cases pred
  · simp
  · simp only [if_true, List.mem_map, List.mem_range, true_and]
    constructor
    · rintro ⟨j, hj, rfl⟩; exact ⟨j, hj, rfl⟩
    · rintro ⟨j, hj, rfl⟩; exact ⟨j, hj, rfl⟩

theorem mem_storeLargeBlock (ptr : Int) (n : Nat) (v : Simd) (s : Store) :
    s ∈ storeLargeBlock ptr n v ↔ ∃ j, j < n ∧ s = (ptr + (j : Int), v j) := by
  unfold storeLargeBlock
  simp only [List.mem_map, List.mem_range]
  constructor
  · rintro ⟨j, hj, rfl⟩; exact ⟨j, hj, rfl⟩
  · rintro ⟨j, hj, rfl⟩; exact ⟨j, hj, rfl⟩

theorem storeRow_loop (k : SYCLConvGen9Kernel) (K : Nat) (hK : 0 < K) (row : Simd)
    (dstPtr ow : Int) (n : Nat) :
    let st := forLoop n
      (fun i (st : List Store × Int) =>
        let pred := decide (((i * K : Nat) : Int) < (k.dst.W : Int) - ow)
        (st.1 ++ storeBlock st.2 (blockC * K) (row.select (i * (blockC * K))) pred,
          st.2 + ((blockC * K : Nat) : Int)))
      ([], dstPtr)
    st.2 = dstPtr + ((n * (blockC * K) : Nat) : Int) ∧
    ∀ s, s ∈ st.1 ↔ ∃ j, j < n * (blockC * K) ∧
      (((j / (blockC * K) * K : Nat) : Int) < (k.dst.W : Int) - ow) ∧
      s = (dstPtr + (j : Int), row j) := by
  have hc : 0 < blockC * K := Nat.mul_pos (by decide) hK
  generalize blockC * K = c at hc ⊢
  induction n with
  | zero => simp [forLoop_zero]
  | succ n ih =>
    obtain ⟨ih1, ih2⟩ := ih
    simp only [forLoop_succ]
    refine ⟨?_, fun s => ?_⟩
    · rw [ih1]; push_cast; ring
    · rw [List.mem_append, ih2 s, mem_storeBlock, ih1]
      simp only [decide_eq_true_eq, Simd.select]
      have hs : (n + 1) * c = n * c + c := Nat.succ_mul n c
      constructor
      · rintro (⟨j, hj, hp, rfl⟩ | ⟨hp, j, hj, rfl⟩)
        · exact ⟨j, by omega, hp, rfl⟩
        · refine ⟨n * c + j, by omega, ?_, ?_⟩
          · have : (n * c + j) / c = n := by
              rw [Nat.add_comm, Nat.add_mul_div_right _ _ hc, Nat.div_eq_of_lt hj]; simp
            rw [this]; exact hp
          · congr 1; push_cast; ring
      · rintro ⟨j, hj, hp, rfl⟩
        by_cases hlt : j < n * c
        · left; exact ⟨j, hlt, hp, rfl⟩
        · right
          have hge : n * c ≤ j := Nat.le_of_not_lt hlt
          have hq : j / c = n := by
            apply Nat.div_eq_of_lt_le
            · exact hge
            · rw [hs]; omega
          rw [hq] at hp
          refine ⟨hp, j - n * c, by omega, ?_⟩
          have e1 : n * c + (j - n * c) = j := by omega
          rw [e1]
          congr 1
          have : ((j - n * c : Nat) : Int) = (j : Int) - ((n * c : Nat) : Int) := by
            omega
          rw [this]; ring

/-- Stores of `storeRow<K>`: lane `j` of the row goes to `dstPtr + j`; on the slow
path the lanes of a chunk are stored when the first column of the chunk is inside. -/
theorem mem_storeRow (k : SYCLConvGen9Kernel) (K N : Nat) (hK : 0 < K) (row : Simd) (oc : Nat)
    (oh ow : Int) (s : Store) :
    s ∈ k.storeRow K N row oc oh ow ↔
      if ow + ((N / blockC : Nat) : Int) ≤ (k.dst.W : Int) then
        ∃ j, j < N ∧ s = (k.dst.offset oc oh ow + (j : Int), row j)
      else
        ∃ j, j < N / blockC / K * (blockC * K) ∧
          (((j / (blockC * K) * K : Nat) : Int) < (k.dst.W : Int) - ow) ∧
          s = (k.dst.offset oc oh ow + (j : Int), row j) := by
  unfold storeRow
  simp only
  split_ifs with hf
  · exact mem_storeLargeBlock _ _ _ _
  · exact (storeRow_loop k K hK row (k.dst.offset oc oh ow) ow (N / blockC / K)).2 s

open SYCLConvGen9Kernel

/-- Element offsets are affine in the column. -/
theorem offset_col (t : TensorAccessor3D) (c0 : Nat) (h w : Int) (x c : Nat) :
    t.offset c0 h w + ((x * blockC + c : Nat) : Int) = t.offset c0 h (w + x) + (c : Int) := by
  unfold TensorAccessor3D.offset
  push_cast
  ring

theorem lane_split (j : Nat) : j = j / blockC * blockC + j % blockC ∧ j % blockC < blockC := by
  simp only [blockC]; omega

theorem chunk_pred_iff (K : Nat) (hK : 0 < K) (D : Int) (hD : (K : Int) ∣ D) (w : Nat) :
    ((w / K * K : Nat) : Int) < D ↔ (w : Int) < D := by
  obtain ⟨m, rfl⟩ := hD
  have h1 : ((w / K * K : Nat) : Int) ≤ (w : Int) := by
    exact_mod_cast Nat.div_mul_le_self w K
  have h2 : (w : Int) < ((w / K * K : Nat) : Int) + (K : Int) := by
    exact_mod_cast Nat.lt_div_mul_add hK
  have hKi : (0 : Int) < (K : Int) := by exact_mod_cast hK
  constructor
  · intro h
    have e : ((w / K * K : Nat) : Int) = (K : Int) * ((w / K : Nat) : Int) := by
      push_cast; ring
    rw [e] at h h2
    have hq : ((w / K : Nat) : Int) < m := lt_of_mul_lt_mul_left h (le_of_lt hKi)
    have hq1 : ((w / K : Nat) : Int) + 1 ≤ m := hq
    have := mul_le_mul_of_nonneg_left hq1 (le_of_lt hKi)
    linarith
  · intro h
    linarith

/-- C10 fails as stated: with chunks of `K = 2` columns, a row of 16 columns stored
at column 0 of a destination of width 1 writes column 1. -/
theorem C10_counterexample :
    ∃ s ∈ (exampleKernel PostOp.Upsample ⟨16, 1, 1⟩ ⟨16, 1, 1⟩ 1).storeRow 2 (16 * blockC)
        (fun _ => 0) 0 0 0,
      s.1 = (exampleKernel PostOp.Upsample ⟨16, 1, 1⟩ ⟨16, 1, 1⟩ 1).dst.offset 0 0 1 ∧
      ¬ ((1 : Int) < ((exampleKernel PostOp.Upsample ⟨16, 1, 1⟩ ⟨16, 1, 1⟩ 1).dst.W : Int)) := by
  refine ⟨((exampleKernel PostOp.Upsample ⟨16, 1, 1⟩ ⟨16, 1, 1⟩ 1).dst.offset 0 0 1, 0), ?_, rfl, by decide⟩
  rw [mem_storeRow _ 2 _ (by decide)]
  rw [if_neg (by decide)]
  exact ⟨16, by decide, by decide, by decide⟩

/-- Columns stored by `storeRow<K>` when `K` divides both the row width and `dstW - ow`. -/
theorem mem_storeRow_columns (k : SYCLConvGen9Kernel) (K Wrow : Nat) (row : Simd) (oc : Nat)
    (oh ow : Int) (hK : 0 < K) (hKW : K ∣ Wrow) (hD : (K : Int) ∣ (k.dst.W : Int) - ow) (s : Store) :
    s ∈ k.storeRow K (Wrow * blockC) row oc oh ow ↔
      ∃ w c, w < Wrow ∧ c < blockC ∧ ow + (w : Int) < (k.dst.W : Int) ∧
        s = (k.dst.offset oc oh (ow + (w : Int)) + (c : Int), row (w * blockC + c)) := by
  have hN : Wrow * blockC / blockC = Wrow := Nat.mul_div_cancel _ (by decide)
  have hW : Wrow / K * (blockC * K) = Wrow * blockC := by
    rw [mul_comm blockC K, ← mul_assoc, Nat.div_mul_cancel hKW]
  rw [mem_storeRow k K _ hK, hN, hW]
  have key : ∀ j, j < Wrow * blockC → j / blockC < Wrow := fun j hj =>
    Nat.div_lt_of_lt_mul (by rw [mul_comm]; exact hj)
  have hlane : ∀ w c, w < Wrow → c < blockC → w * blockC + c < Wrow * blockC := by
    intro w c hw hc
    have : (w + 1) * blockC ≤ Wrow * blockC := Nat.mul_le_mul_right _ hw
    rw [Nat.succ_mul] at this
    omega
  have hdiv : ∀ w c, c < blockC → (w * blockC + c) / blockC = w := by
    intro w c hc; simp only [blockC] at *; omega
  split_ifs with hf
  · constructor
    · rintro ⟨j, hj, rfl⟩
      obtain ⟨e, hlt⟩ := lane_split j
      refine ⟨j / blockC, j % blockC, key j hj, hlt, ?_, ?_⟩
      · have := key j hj
        omega
      · rw [← offset_col, ← e]
    · rintro ⟨w, c, hw, hc, _, rfl⟩
      exact ⟨w * blockC + c, hlane w c hw hc, by rw [offset_col]⟩
  · constructor
    · rintro ⟨j, hj, hp, rfl⟩
      obtain ⟨e, hlt⟩ := lane_split j
      rw [← Nat.div_div_eq_div_mul] at hp
      rw [chunk_pred_iff K hK _ hD] at hp
      refine ⟨j / blockC, j % blockC, key j hj, hlt, by omega, ?_⟩
      rw [← offset_col, ← e]
    · rintro ⟨w, c, hw, hc, hlt, rfl⟩
      refine ⟨w * blockC + c, hlane w c hw hc, ?_, by rw [offset_col]⟩
      rw [← Nat.div_div_eq_div_mul, hdiv w c hc, chunk_pred_iff K hK _ hD]
      omega

/-- C10 amended: for a chunk size `K >= 1` dividing the row width `Wrow`, and a
destination width such that `K` divides `dstW - ow` (as for `K = 1`, and for the
`K = 2` stores of the Upsample epilogue), `storeRow<K>` stores exactly the columns
`ow + w` with `w < Wrow` and `ow + w < dstW`, each receiving the row's column `w`;
no column at or beyond `dstW` is written. -/
theorem C10_storeRow_columns (k : SYCLConvGen9Kernel) (K Wrow : Nat) (row : Simd) (oc : Nat)
    (oh ow : Int) (hK : 0 < K) (hKW : K ∣ Wrow) (hD : (K : Int) ∣ (k.dst.W : Int) - ow) (s : Store) :
    s ∈ k.storeRow K (Wrow * blockC) row oc oh ow ↔
      ∃ w c, w < Wrow ∧ c < blockC ∧ ow + (w : Int) < (k.dst.W : Int) ∧
        s = (k.dst.offset oc oh (ow + (w : Int)) + (c : Int), row (w * blockC + c)) :=
  mem_storeRow_columns k K Wrow row oc oh ow hK hKW hD s

/-- C10 amended, for the `K = 2` store of a 16 column row at column 16 of a destination of width 20. -/
theorem C10_storeRow_columns_witness :
    0 < 2 ∧ 2 ∣ 16 ∧
    ((2 : Nat) : Int) ∣ ((exampleKernel PostOp.Upsample ⟨16, 4, 10⟩ ⟨16, 8, 20⟩ 1).dst.W : Int) - 16 ∧
    ∀ s : Store, (s ∈ (exampleKernel PostOp.Upsample ⟨16, 4, 10⟩ ⟨16, 8, 20⟩ 1).storeRow 2
        (16 * blockC) (fun j => (j : Int)) 0 3 16 ↔
      ∃ w c : Nat, w < 16 ∧ c < blockC ∧
        (16 : Int) + (w : Int) < ((exampleKernel PostOp.Upsample ⟨16, 4, 10⟩ ⟨16, 8, 20⟩ 1).dst.W : Int) ∧
        s = ((exampleKernel PostOp.Upsample ⟨16, 4, 10⟩ ⟨16, 8, 20⟩ 1).dst.offset 0 3 (16 + (w : Int))
              + (c : Int), ((w * blockC + c : Nat) : Int))) :=
  ⟨by decide, by decide, by decide, fun s =>
    C10_storeRow_columns (exampleKernel PostOp.Upsample ⟨16, 4, 10⟩ ⟨16, 8, 20⟩ 1) 2 16 (fun j => (j : Int)) 0 3 16
      (by decide) (by decide) (by decide) s⟩

open SYCLConvGen9Kernel

/-- C9: for an input channel offset `ic` that is a multiple of `blockC` and any
integers `ih`, `iw`, lane `w * blockC + c` of the row returned by `loadRow` for
`blockIW = 10` columns is `source[ic + c, ih, iw + w]` when `0 <= ih < H` and
`0 <= iw + w < W`, and zero otherwise; the row is all zeros when `ih` is outside
`[0,H)`; and where the fast path applies, the masked slow path gives the same row. -/
theorem C9_loadRow (k : SYCLConvGen9Kernel) (row : Simd) (ic : Nat) (ih iw : Int)
    (hic : ic % blockC = 0) :
    (∀ w c, w < blockIW → c < blockC →
      k.loadRow (blockIW * blockC) row ic ih iw (w * blockC + c) =
        if 0 ≤ ih ∧ ih < (k.src.H : Int) ∧ 0 ≤ iw + (w : Int) ∧ iw + (w : Int) < (k.src.W : Int)
          then k.srcMem (k.src.offset (ic + c) ih (iw + (w : Int))) else 0) ∧
    ((ih < 0 ∨ ih ≥ (k.src.H : Int)) → ∀ j, k.loadRow (blockIW * blockC) row ic ih iw j = 0) ∧
    ((iw ≥ 0 ∧ iw + (blockIW : Int) ≤ (k.src.W : Int)) → ∀ j, j < blockIW * blockC →
      k.loadRowFast (k.src.offset ic ih iw) j = k.loadRowSlow blockIW row (k.src.offset ic ih iw) iw j) := by
  refine ⟨fun w c hw hc => ?_, fun h j => ?_, fun hf j hj => ?_⟩
  · rw [loadRow_lane k row ic ih iw hic w c hw hc]
    rfl
  · unfold loadRow
    simp only
    rw [if_pos h]
  · rw [loadRowSlow_lane k blockIW row _ iw j hj]
    have : j / blockC < blockIW := Nat.div_lt_of_lt_mul (by rw [mul_comm]; exact hj)
    rw [if_pos (by simp only [blockIW, blockOW, blockC] at *; omega)]
    rfl

/-- C9 for the first row of a 4 x 4 source at `iw = -1`. -/
theorem C9_loadRow_witness :
    0 % blockC = 0 ∧
    (∀ w c, w < blockIW → c < blockC →
      (exampleKernel PostOp.None ⟨16, 4, 4⟩ ⟨16, 4, 4⟩ 1).loadRow (blockIW * blockC) (fun _ => 0) 0 0 (-1)
          (w * blockC + c) =
        if (0 : Int) ≤ 0 ∧ (0 : Int) < 4 ∧ 0 ≤ (-1 : Int) + (w : Int) ∧ (-1 : Int) + (w : Int) < 4
          then (TensorAccessor3D.mk 16 4 4).offset (0 + c) 0 (-1 + (w : Int)) else 0) :=
  ⟨by decide, (C9_loadRow (exampleKernel PostOp.None ⟨16, 4, 4⟩ ⟨16, 4, 4⟩ 1) (fun _ => 0) 0 0 (-1)
    (by decide)).1⟩

open SYCLConvGen9Kernel

/-! ## Multiply-accumulate -/

theorem bowStep_apply (inR weightMat : Simd) (kw i boh bow : Nat) (out : Nat → Simd) (b l : Nat) :
    Function.update out boh
        ((out boh).assign blockC (bow * blockC)
          (fun j =>
            (out boh).select (bow * blockC) j
              + inR.replicate_w 1 ((kw + bow) * blockC + i) j * weightMat.select (i * blockC) j)) b l =
      if b = boh ∧ bow * blockC ≤ l ∧ l < bow * blockC + blockC then
        out boh l + inR ((kw + bow) * blockC + i) * weightMat (i * blockC + (l - bow * blockC))
      else out b l := by
  rw [Function.update_apply]
  by_cases hb : b = boh
  · subst hb
    rw [if_pos rfl]
    unfold Simd.assign Simd.select Simd.replicate_w
    by_cases hl : bow * blockC ≤ l ∧ l < bow * blockC + blockC
    · have e1 : bow * blockC + (l - bow * blockC) = l := by omega
      rw [if_pos hl, if_pos ⟨rfl, hl⟩]
      beta_reduce
      rw [e1, Nat.mod_one, Nat.add_zero]
    · rw [if_neg hl, if_neg (by tauto)]
  · rw [if_neg hb, if_neg (by tauto)]

theorem macTap_bow (inR weightMat : Simd) (kw i boh : Nat) (out : Nat → Simd) (n : Nat) (b l : Nat) :
    forLoop n
      (fun bow (out : Nat → Simd) =>
        Function.update out boh
          ((out boh).assign blockC (bow * blockC)
            (fun j =>
              (out boh).select (bow * blockC) j
                + inR.replicate_w 1 ((kw + bow) * blockC + i) j * weightMat.select (i * blockC) j)))
      out b l =
    if b = boh ∧ l < n * blockC then
      out boh l + inR ((kw + l / blockC) * blockC + i) * weightMat (i * blockC + l % blockC)
    else out b l := by
  induction n generalizing b l with
  | zero => simp [forLoop_zero]
  | succ n ih =>
    rw [forLoop_succ, bowStep_apply]
    simp only [ih]
    split_ifs <;>
      first
        | rfl
        | (exfalso; simp only [blockC] at *; omega)
        | (have hq : l / blockC = n := by simp only [blockC] at *; omega
           have hr : l - n * blockC = l % blockC := by simp only [blockC] at *; omega
           rw [hq, hr])

theorem macTap_boh (inRows : Nat → Simd) (weightMat : Simd) (kh kw i : Nat) (out : Nat → Simd)
    (n : Nat) (b l : Nat) :
    forLoop n
      (fun boh (out : Nat → Simd) =>
        forLoop blockOW
          (fun bow (out : Nat → Simd) =>
            Function.update out boh
              ((out boh).assign blockC (bow * blockC)
                (fun j =>
                  (out boh).select (bow * blockC) j
                    + (inRows ((kh + boh) % blockOH)).replicate_w 1 ((kw + bow) * blockC + i) j
                      * weightMat.select (i * blockC) j)))
          out)
      out b l =
    if b < n ∧ l < blockOW * blockC then
      out b l + inRows ((kh + b) % blockOH) ((kw + l / blockC) * blockC + i)
        * weightMat (i * blockC + l % blockC)
    else out b l := by
  induction n generalizing b l with
  | zero => simp [forLoop_zero]
  | succ n ih =>
    rw [forLoop_succ, macTap_bow]
    simp only [ih]
    split_ifs <;>
      first
        | rfl
        | (exfalso; simp only [blockC, blockOW] at *; omega)
        | (rename_i h1 h2 h3; rw [h1.1])

theorem macTap_loop (inRows : Nat → Simd) (weightMat : Simd) (kh kw : Nat) (out : Nat → Simd)
    (n : Nat) (b l : Nat) :
    forLoop n
      (fun i (out : Nat → Simd) =>
        forLoop blockOH
          (fun boh (out : Nat → Simd) =>
            forLoop blockOW
              (fun bow (out : Nat → Simd) =>
                Function.update out boh
                  ((out boh).assign blockC (bow * blockC)
                    (fun j =>
                      (out boh).select (bow * blockC) j
                        + (inRows ((kh + boh) % blockOH)).replicate_w 1 ((kw + bow) * blockC + i) j
                          * weightMat.select (i * blockC) j)))
              out)
          out)
      out b l =
    if b < blockOH ∧ l < blockOW * blockC then
      out b l + ∑ i in Finset.range n,
        inRows ((kh + b) % blockOH) ((kw + l / blockC) * blockC + i)
          * weightMat (i * blockC + l % blockC)
    else out b l := by
  induction n generalizing b l with
  | zero => simp [forLoop_zero]
  | succ n ih =>
    rw [forLoop_succ, macTap_boh]
    simp only [ih]
    split_ifs <;>
      first
        | rfl
        | (rw [Finset.sum_range_succ]; ring)

/-- Effect of one kernel tap on lane `l` of output row `b`. -/
theorem macTap_lane (inRows : Nat → Simd) (weightMat : Simd) (kh kw : Nat) (out : Nat → Simd)
    (b l : Nat) :
    macTap inRows weightMat kh kw out b l =
      if b < blockOH ∧ l < blockOW * blockC then
        out b l + ∑ i in Finset.range blockC,
          inRows ((kh + b) % blockOH) ((kw + l / blockC) * blockC + i)
            * weightMat (i * blockC + l % blockC)
      else out b l := by
  unfold macTap
  exact macTap_loop inRows weightMat kh kw out blockC b l

open SYCLConvGen9Kernel

theorem kwLoop_loop (k : SYCLConvGen9Kernel) (inRows : Nat → Simd) (kh : Nat) (weightPtr : Int)
    (out : Nat → Simd) (n : Nat) :
    let st := forLoop n
      (fun kw (st : Int × (Nat → Simd)) =>
        let weightMat := loadBlock k.weightMem st.1
        (st.1 + ((blockC * blockC : Nat) : Int), macTap inRows weightMat kh kw st.2))
      (weightPtr, out)
    st.1 = weightPtr + ((n * (blockC * blockC) : Nat) : Int) ∧
    ∀ b l, st.2 b l =
      if b < blockOH ∧ l < blockOW * blockC then
        out b l + ∑ kw in Finset.range n, ∑ i in Finset.range blockC,
          inRows ((kh + b) % blockOH) ((kw + l / blockC) * blockC + i)
            * k.weightMem (weightPtr + ((kw * (blockC * blockC) + i * blockC + l % blockC : Nat) : Int))
      else out b l := by
  induction n with
  | zero => simp [forLoop_zero]
  | succ n ih =>
    obtain ⟨ih1, ih2⟩ := ih
    rw [forLoop_succ]
    refine ⟨?_, fun b l => ?_⟩
    · simp only [ih1]; push_cast; ring
    · simp only [macTap_lane, ih2, ih1, loadBlock]
      split_ifs with h
      · rw [Finset.sum_range_succ _ n, add_assoc]
        congr 2
        refine Finset.sum_congr rfl fun i _ => ?_
        congr 2
        push_cast
        ring
      · rfl

theorem kwLoop_lane (k : SYCLConvGen9Kernel) (inRows : Nat → Simd) (kh : Nat) (weightPtr : Int)
    (out : Nat → Simd) (b l : Nat) :
    k.kwLoop inRows kh weightPtr out b l =
      if b < blockOH ∧ l < blockOW * blockC then
        out b l + ∑ kw in Finset.range 3, ∑ i in Finset.range blockC,
          inRows ((kh + b) % blockOH) ((kw + l / blockC) * blockC + i)
            * k.weightMem (weightPtr + ((kw * (blockC * blockC) + i * blockC + l % blockC : Nat) : Int))
      else out b l :=
  (kwLoop_loop k inRows kh weightPtr out 3).2 b l

/-- Weight offsets are affine in the tap column and in the channels inside a block. -/
theorem weight_offset_lane (t : TensorAccessor4D) (oc ic kh kw i c : Nat)
    (hoc : oc % blockC = 0) (hic : ic % blockC = 0) (hi : i < blockC) (hc : c < blockC) :
    t.offset oc ic kh 0 + ((kw * (blockC * blockC) + i * blockC + c : Nat) : Int)
      = t.offset (oc + c) (ic + i) kh kw := by
  unfold TensorAccessor4D.offset
  have e1 : (oc + c) / blockC = oc / blockC := by simp only [blockC] at *; omega
  have e2 : (oc + c) % blockC = c := by simp only [blockC] at *; omega
  have e3 : (ic + i) / blockC = ic / blockC := by simp only [blockC] at *; omega
  have e4 : (ic + i) % blockC = i := by simp only [blockC] at *; omega
  rw [e1, e2, e3, e4, hoc, hic]
  push_cast
  ring

open SYCLConvGen9Kernel

/-- Ring buffer invariant and accumulated sum after `n` iterations of the loop over the kernel height. -/
theorem khLoop_loop (k : SYCLConvGen9Kernel) (oc ic : Nat) (ih iw : Int)
    (hoc : oc % blockC = 0) (hic : ic % blockC = 0)
    (inRows0 out0 : Nat → Simd)
    (h0 : ∀ x i, x < blockIW → i < blockC →
      inRows0 0 (x * blockC + i) = k.source (ic + i) ih (iw + (x : Int))) (n : Nat) :
    let st := forLoop n
      (fun kh (st : (Nat → Simd) × (Nat → Simd)) =>
        let slot := (kh + blockOH - 1) % blockOH
        let inRows := Function.update st.1 slot
          (k.loadRow (blockIW * blockC) (st.1 slot) ic (ih + ((kh + blockOH - 1 : Nat) : Int)) iw)
        let weightPtr := k.weight.offset oc ic kh 0
        (inRows, k.kwLoop inRows kh weightPtr st.2))
      (inRows0, out0)
    (∀ x i, x < blockIW → i < blockC →
      st.1 (n % blockOH) (x * blockC + i) = k.source (ic + i) (ih + (n : Int)) (iw + (x : Int))) ∧
    ∀ b l, st.2 b l =
      if b < blockOH ∧ l < blockOW * blockC then
        out0 b l + ∑ kh in Finset.range n, ∑ kw in Finset.range 3, ∑ i in Finset.range blockC,
          k.source (ic + i) (ih + (kh : Int) + (b : Int)) (iw + (kw : Int) + ((l / blockC : Nat) : Int))
            * k.weightAt (oc + l % blockC) (ic + i) kh kw
      else out0 b l := by
  induction n with
  | zero =>
    refine ⟨fun x i hx hi => ?_, fun b l => ?_⟩
    · simpa [forLoop_zero] using h0 x i hx hi
    · simp [forLoop_zero]
  | succ n ih_n =>
    obtain ⟨iha, ihb⟩ := ih_n
    rw [forLoop_succ]
    generalize forLoop n _ (inRows0, out0) = st at iha ihb
    have hslot : (n + blockOH - 1) % blockOH = (n + 1) % blockOH := rfl
    have hrow : ((n + blockOH - 1 : Nat) : Int) = (n : Int) + 1 := by
      simp only [blockOH]; omega
    -- content of the ring buffer after the load
    have hbuf : ∀ b x i, b < blockOH → x < blockIW → i < blockC →
        Function.update st.1 ((n + blockOH - 1) % blockOH)
          (k.loadRow (blockIW * blockC) (st.1 ((n + blockOH - 1) % blockOH)) ic
            (ih + ((n + blockOH - 1 : Nat) : Int)) iw) ((n + b) % blockOH) (x * blockC + i)
        = k.source (ic + i) (ih + (n : Int) + (b : Int)) (iw + (x : Int)) := by
      intro b x i hb hx hi
      rw [Function.update_apply]
      rcases (by simp only [blockOH] at hb; omega : b = 0 ∨ b = 1) with rfl | rfl
      · rw [if_neg (by simp only [blockOH]; omega)]
        simpa using iha x i hx hi
      · rw [if_pos (by simp only [blockOH]; omega), loadRow_lane k _ ic _ iw hic x i hx hi, hrow]
        congr 1
        push_cast; ring
    refine ⟨fun x i hx hi => ?_, fun b l => ?_⟩
    · have := hbuf 1 x i (by decide) hx hi
      simp only at this ⊢
      rw [this]
      congr 1
      push_cast; ring
    · simp only [kwLoop_lane, ihb]
      split_ifs with h
      · rw [Finset.sum_range_succ _ n, add_assoc]
        congr 2
        refine Finset.sum_congr rfl fun kw hkw => ?_
        refine Finset.sum_congr rfl fun i hi => ?_
        rw [Finset.mem_range] at hkw hi
        have hx : kw + l / blockC < blockIW := by
          simp only [blockIW, blockOW, blockC] at *; omega
        have hl : l % blockC < blockC := Nat.mod_lt _ (by decide)
        rw [hbuf b (kw + l / blockC) i h.1 hx hi]
        unfold weightAt
        rw [weight_offset_lane k.weight oc ic n kw i (l % blockC) hoc hic hi hl]
        congr 2
        push_cast; ring
      · rfl

open SYCLConvGen9Kernel

theorem icBody_lane (k : SYCLConvGen9Kernel) (oc oh ow ic : Nat)
    (hoc : oc % blockC = 0) (hic : ic % blockC = 0) (out : Nat → Simd) (b l : Nat) :
    k.icBody oc oh ow ic out b l =
      if b < blockOH ∧ l < blockOW * blockC then
        out b l + ∑ kh in Finset.range 3, ∑ kw in Finset.range 3, ∑ i in Finset.range blockC,
          k.source (ic + i) ((oh : Int) - 1 + (kh : Int) + (b : Int))
              ((ow : Int) - 1 + (kw : Int) + ((l / blockC : Nat) : Int))
            * k.weightAt (oc + l % blockC) (ic + i) kh kw
      else out b l := by
  unfold icBody khLoop
  simp only
  have hpre : ∀ x i, x < blockIW → i < blockC →
      forLoop (blockOH - 1)
        (fun boh (r : Nat → Simd) =>
          Function.update r boh
            (k.loadRow (blockIW * blockC) (r boh) ic ((oh : Int) - 1 + (boh : Int)) ((ow : Int) - 1)))
        (fun _ _ => 0) 0 (x * blockC + i)
      = k.source (ic + i) ((oh : Int) - 1) ((ow : Int) - 1 + (x : Int)) := by
    intro x i hx hi
    have e : blockOH - 1 = 0 + 1 := rfl
    rw [e, forLoop_succ, forLoop_zero, Function.update_same, loadRow_lane k _ ic _ _ hic x i hx hi]
    congr 1
    push_cast; ring
  exact (khLoop_loop k oc ic _ _ hoc hic _ out hpre 3).2 b l

theorem accumulate_loop (k : SYCLConvGen9Kernel) (oc oh ow : Nat) (hoc : oc % blockC = 0)
    (m : Nat) (b l : Nat) :
    forLoop m (fun n out => k.icBody oc oh ow (n * blockC) out) (fun _ _ => 0) b l =
      if b < blockOH ∧ l < blockOW * blockC then
        ∑ n in Finset.range m, ∑ kh in Finset.range 3, ∑ kw in Finset.range 3,
          ∑ i in Finset.range blockC,
            k.source (n * blockC + i) ((oh : Int) - 1 + (kh : Int) + (b : Int))
                ((ow : Int) - 1 + (kw : Int) + ((l / blockC : Nat) : Int))
              * k.weightAt (oc + l % blockC) (n * blockC + i) kh kw
      else 0 := by
  induction m generalizing b l with
  | zero => simp [forLoop_zero]
  | succ m ih =>
    rw [forLoop_succ, icBody_lane k oc oh ow (m * blockC) hoc (Nat.mul_mod_left _ _)]
    simp only [ih]
    split_ifs with h
    · rw [Finset.sum_range_succ _ m]
    · rfl

/-- A sum over `m` blocks of `blockC` indices is a sum over `m * blockC` indices. -/
theorem sum_blocks (f : Nat → Val) (m : Nat) :
    ∑ n in Finset.range m, ∑ i in Finset.range blockC, f (n * blockC + i)
      = ∑ j in Finset.range (m * blockC), f j := by
  induction m with
  | zero => simp
  | succ m ih =>
    rw [Finset.sum_range_succ _ m, ih, Nat.succ_mul, Finset.sum_range_add]

theorem biasRelu_lane (k : SYCLConvGen9Kernel) (oc : Nat) (out : Nat → Simd) (b l : Nat) :
    k.biasRelu oc out b l =
      if b < blockOH then max (out b l + k.biasAt (oc + l % blockC)) 0 else out b l := by
  unfold biasRelu
  simp only
  have e : blockOH = 0 + 1 + 1 := rfl
  rw [e, forLoop_succ, forLoop_succ, forLoop_zero]
  simp only [Function.update_apply, Simd.max, Simd.replicate, loadBlock, biasAt,
    TensorAccessor1D.offset]
  rcases (by omega : b = 0 ∨ b = 1 ∨ 2 ≤ b) with rfl | rfl | hb
  · simp [Simd.max]
  · simp [Simd.max]
  · rw [if_neg (by omega), if_neg (by omega), if_neg (by omega)]

/-- Value of the tile after bias and ReLU: the reference convolution at the
position of the lane. -/
theorem tileRows_lane (k : SYCLConvGen9Kernel) (oc oh ow : Nat) (hoc : oc % blockC = 0)
    (hC : k.src.C % blockC = 0) (b bow c : Nat) (hb : b < blockOH) (hbow : bow < blockOW)
    (hc : c < blockC) :
    k.tileRows oc oh ow b (bow * blockC + c) = k.convRelu (oc + c) (oh + b) (ow + bow) := by
  have hl : bow * blockC + c < blockOW * blockC := by simp only [blockOW, blockC] at *; omega
  have hq : (bow * blockC + c) / blockC = bow := by simp only [blockC] at *; omega
  have hr : (bow * blockC + c) % blockC = c := by simp only [blockC] at *; omega
  have hm : ceil_div k.src.C blockC * blockC = k.src.C := by
    unfold ceil_div; simp only [blockC] at *; omega
  unfold tileRows accumulate convRelu
  rw [biasRelu_lane, if_pos hb, accumulate_loop k oc oh ow hoc, if_pos ⟨hb, hl⟩, hq, hr, max_comm,
    add_comm]
  congr 2
  have key : ∀ F : Nat → Val, (∑ j in Finset.range k.src.C, F j)
      = ∑ n in Finset.range (ceil_div k.src.C blockC), ∑ i in Finset.range blockC,
          F (n * blockC + i) := by
    intro F; rw [sum_blocks, hm]
  rw [key]
  refine Finset.sum_congr rfl fun n _ => ?_
  conv_rhs => rw [Finset.sum_comm]
  refine Finset.sum_congr rfl fun kh _ => ?_
  conv_rhs => rw [Finset.sum_comm]
  refine Finset.sum_congr rfl fun kw _ => ?_
  refine Finset.sum_congr rfl fun i _ => ?_
  rw [mul_comm]
  congr 2
  · push_cast; ring
  · push_cast; ring

open SYCLConvGen9Kernel

/-! ## Epilogues -/

theorem loopIndices_two_one : loopIndices blockOH 1 = [0, 1] := by decide

theorem loopIndices_two_two : loopIndices blockOH 2 = [0] := by decide

/-- Stores of the `None` epilogue. -/
theorem mem_storeNone (k : SYCLConvGen9Kernel) (out : Nat → Simd) (oc oh ow : Nat) (s : Store) :
    s ∈ k.storeNone out oc oh ow ↔
      ∃ boh w c, boh < blockOH ∧ w < blockOW ∧ c < blockC ∧ oh + boh < k.dst.H ∧ ow + w < k.dst.W ∧
        s = (k.dst.offset oc ((oh + boh : Nat) : Int) ((ow + w : Nat) : Int) + (c : Int),
              out boh (w * blockC + c)) := by
  have hrow : ∀ boh, s ∈ k.storeRow 1 (blockOW * blockC) (out boh) oc ((oh + boh : Nat) : Int) (ow : Int) ↔
      ∃ w c, w < blockOW ∧ c < blockC ∧ ow + w < k.dst.W ∧
        s = (k.dst.offset oc ((oh + boh : Nat) : Int) ((ow + w : Nat) : Int) + (c : Int),
              out boh (w * blockC + c)) := by
    intro boh
    rw [mem_storeRow_columns k 1 blockOW (out boh) oc _ _ (by decide) (one_dvd _) (by simp)]
    constructor
    · rintro ⟨w, c, hw, hc, hlt, rfl⟩
      exact ⟨w, c, hw, hc, by omega, by push_cast; rfl⟩
    · rintro ⟨w, c, hw, hc, hlt, rfl⟩
      exact ⟨w, c, hw, hc, by omega, by push_cast; rfl⟩
  unfold storeNone
  rw [loopIndices_two_one]
  simp only [loopBreak]
  by_cases h0 : oh + 0 ≥ k.dst.H
  · rw [if_pos h0]
    simp only [List.not_mem_nil, false_iff]
    rintro ⟨boh, w, c, hb, _, _, hlt, _⟩
    omega
  · rw [if_neg h0]
    simp only
    by_cases h1 : oh + 1 ≥ k.dst.H
    · rw [if_pos h1]
      simp only [List.nil_append]
      rw [hrow 0]
      constructor
      · rintro ⟨w, c, hw, hc, hlt, rfl⟩
        exact ⟨0, w, c, by decide, hw, hc, by omega, hlt, rfl⟩
      · rintro ⟨boh, w, c, hb, hw, hc, hlt, hlt2, rfl⟩
        have : boh = 0 := by omega
        subst this
        exact ⟨w, c, hw, hc, hlt2, rfl⟩
    · rw [if_neg h1]
      simp only [List.nil_append, List.mem_append]
      rw [hrow 0, hrow 1]
      constructor
      · rintro (⟨w, c, hw, hc, hlt, rfl⟩ | ⟨w, c, hw, hc, hlt, rfl⟩)
        · exact ⟨0, w, c, by decide, hw, hc, by omega, hlt, rfl⟩
        · exact ⟨1, w, c, by decide, hw, hc, by omega, hlt, rfl⟩
      · rintro ⟨boh, w, c, hb, hw, hc, hlt, hlt2, rfl⟩
        rcases (by simp only [blockOH] at hb; omega : boh = 0 ∨ boh = 1) with rfl | rfl
        · left; exact ⟨w, c, hw, hc, hlt2, rfl⟩
        · right; exact ⟨w, c, hw, hc, hlt2, rfl⟩

open SYCLConvGen9Kernel

/-- Stores of the `Pool` epilogue. -/
theorem mem_storePool (k : SYCLConvGen9Kernel) (out : Nat → Simd) (oc oh ow : Nat) (s : Store) :
    s ∈ k.storePool out oc oh ow ↔
      oh < k.src.H ∧ ∃ w c, w < blockOW / 2 ∧ c < blockC ∧ ow / 2 + w < k.dst.W ∧
        s = (k.dst.offset oc ((oh / 2 : Nat) : Int) ((ow / 2 + w : Nat) : Int) + (c : Int),
              max (max (out 0 (2 * w * blockC + c)) (out 1 (2 * w * blockC + c)))
                (max (out 0 ((2 * w + 1) * blockC + c)) (out 1 ((2 * w + 1) * blockC + c)))) := by
  unfold storePool
  rw [loopIndices_two_two]
  simp only [loopBreak]
  by_cases h0 : oh + 0 ≥ k.src.H
  · rw [if_pos h0]
    simp only [List.not_mem_nil, false_iff]
    rintro ⟨hlt, _⟩
    omega
  · rw [if_neg h0]
    simp only [List.nil_append]
    rw [mem_storeRow_columns k 1 (blockOW / 2) _ oc _ _ (by decide) (one_dvd _) (by simp)]
    constructor
    · rintro ⟨w, c, hw, hc, hlt, rfl⟩
      refine ⟨by omega, w, c, hw, hc, by omega, ?_⟩
      have hq : (w * blockC + c) / blockC = w := by simp only [blockC] at *; omega
      have hr : (w * blockC + c) % blockC = c := by simp only [blockC] at *; omega
      simp only [Simd.max, Simd.replicate_vs_w, hq, hr]
      refine Prod.ext ?_ ?_
      · simp only [Nat.add_zero]; push_cast; rfl
      · simp only
        congr 2 <;> congr 1 <;> ring
    · rintro ⟨_, w, c, hw, hc, hlt, rfl⟩
      refine ⟨w, c, hw, hc, by omega, ?_⟩
      have hq : (w * blockC + c) / blockC = w := by simp only [blockC] at *; omega
      have hr : (w * blockC + c) % blockC = c := by simp only [blockC] at *; omega
      simp only [Simd.max, Simd.replicate_vs_w, hq, hr]
      refine Prod.ext ?_ ?_
      · simp only [Nat.add_zero]; push_cast; rfl
      · simp only
        congr 2 <;> congr 1 <;> ring

theorem upRow_loop (row : Simd) (n j : Nat) :
    forLoop n
      (fun bow (up : Simd) =>
        up.assign (blockC * 2) (bow * blockC * 2) (row.replicate_w blockC (bow * blockC)))
      (fun _ => 0) j =
    if j < n * (blockC * 2) then row (j / (blockC * 2) * blockC + j % blockC) else 0 := by
  induction n generalizing j with
  | zero => simp [forLoop_zero]
  | succ n ih =>
    rw [forLoop_succ]
    simp only [Simd.assign, Simd.replicate_w, ih]
    split_ifs <;>
      first
        | rfl
        | (exfalso; simp only [blockC] at *; omega)
        | (congr 1; simp only [blockC] at *; omega)

open SYCLConvGen9Kernel

/-- Stores of one `storeRow<2>` call of the `Upsample` epilogue, for an even destination width. -/
theorem mem_storeUpRow (k : SYCLConvGen9Kernel) (row : Simd) (oc ohu ow : Nat)
    (heven : 2 ∣ k.dst.W) (s : Store) :
    s ∈ k.storeRow 2 (blockOW * blockC * 2)
        (forLoop blockOW
          (fun bow (up : Simd) =>
            up.assign (blockC * 2) (bow * blockC * 2) (row.replicate_w blockC (bow * blockC)))
          (fun _ => 0))
        oc (ohu : Int) ((ow * 2 : Nat) : Int) ↔
      ∃ w c, w < 2 * blockOW ∧ c < blockC ∧ ow * 2 + w < k.dst.W ∧
        s = (k.dst.offset oc (ohu : Int) ((ow * 2 + w : Nat) : Int) + (c : Int),
              row (w / 2 * blockC + c)) := by
  have e : blockOW * blockC * 2 = (2 * blockOW) * blockC := rfl
  have hD : ((2 : Nat) : Int) ∣ (k.dst.W : Int) - ((ow * 2 : Nat) : Int) := by
    obtain ⟨m, hm⟩ := heven
    exact ⟨(m : Int) - (ow : Int), by rw [hm]; push_cast; ring⟩
  rw [e, mem_storeRow_columns k 2 (2 * blockOW) _ oc _ _ (by decide) ⟨blockOW, rfl⟩ hD]
  have hval : ∀ w c, w < 2 * blockOW → c < blockC →
      forLoop blockOW
        (fun bow (up : Simd) =>
          up.assign (blockC * 2) (bow * blockC * 2) (row.replicate_w blockC (bow * blockC)))
        (fun _ => 0) (w * blockC + c) = row (w / 2 * blockC + c) := by
    intro w c hw hc
    rw [upRow_loop, if_pos (by simp only [blockOW, blockC] at *; omega)]
    congr 1
    simp only [blockC] at *
    omega
  constructor
  · rintro ⟨w, c, hw, hc, hlt, rfl⟩
    exact ⟨w, c, hw, hc, by omega, by rw [hval w c hw hc]; push_cast; rfl⟩
  · rintro ⟨w, c, hw, hc, hlt, rfl⟩
    exact ⟨w, c, hw, hc, by omega, by rw [hval w c hw hc]; push_cast; rfl⟩

/-- Stores of the `Upsample` epilogue, for an even destination width. -/
theorem mem_storeUpsample (k : SYCLConvGen9Kernel) (out : Nat → Simd) (oc oh ow : Nat)
    (heven : 2 ∣ k.dst.W) (s : Store) :
    s ∈ k.storeUpsample out oc oh ow ↔
      ∃ boh r w c, boh < blockOH ∧ r < 2 ∧ w < 2 * blockOW ∧ c < blockC ∧ oh + boh < k.src.H ∧
        ow * 2 + w < k.dst.W ∧
        s = (k.dst.offset oc (((oh + boh) * 2 + r : Nat) : Int) ((ow * 2 + w : Nat) : Int) + (c : Int),
              out boh (w / 2 * blockC + c)) := by
  have hrow : ∀ boh, (s ∈ k.storeRow 2 (blockOW * blockC * 2)
        (forLoop blockOW
          (fun bow (up : Simd) =>
            up.assign (blockC * 2) (bow * blockC * 2) ((out boh).replicate_w blockC (bow * blockC)))
          (fun _ => 0))
        oc (((oh + boh) * 2 : Nat) : Int) ((ow * 2 : Nat) : Int) ∨
      s ∈ k.storeRow 2 (blockOW * blockC * 2)
        (forLoop blockOW
          (fun bow (up : Simd) =>
            up.assign (blockC * 2) (bow * blockC * 2) ((out boh).replicate_w blockC (bow * blockC)))
          (fun _ => 0))
        oc (((oh + boh) * 2 + 1 : Nat) : Int) ((ow * 2 : Nat) : Int)) ↔
      ∃ r w c, r < 2 ∧ w < 2 * blockOW ∧ c < blockC ∧ ow * 2 + w < k.dst.W ∧
        s = (k.dst.offset oc (((oh + boh) * 2 + r : Nat) : Int) ((ow * 2 + w : Nat) : Int) + (c : Int),
              out boh (w / 2 * blockC + c)) := by
    intro boh
    rw [mem_storeUpRow k (out boh) oc _ ow heven, mem_storeUpRow k (out boh) oc _ ow heven]
    constructor
    · rintro (⟨w, c, hw, hc, hlt, rfl⟩ | ⟨w, c, hw, hc, hlt, rfl⟩)
      · exact ⟨0, w, c, by decide, hw, hc, hlt, rfl⟩
      · exact ⟨1, w, c, by decide, hw, hc, hlt, rfl⟩
    · rintro ⟨r, w, c, hr, hw, hc, hlt, rfl⟩
      rcases (by omega : r = 0 ∨ r = 1) with rfl | rfl
      · left; exact ⟨w, c, hw, hc, hlt, rfl⟩
      · right; exact ⟨w, c, hw, hc, hlt, rfl⟩
  unfold storeUpsample
  rw [loopIndices_two_one]
  simp only [loopBreak]
  by_cases h0 : oh + 0 ≥ k.src.H
  · rw [if_pos h0]
    simp only [List.not_mem_nil, false_iff]
    rintro ⟨boh, r, w, c, hb, _, _, _, hlt, _⟩
    omega
  · rw [if_neg h0]
    simp only
    by_cases h1 : oh + 1 ≥ k.src.H
    · rw [if_pos h1]
      simp only [List.nil_append, List.mem_append]
      rw [hrow 0]
      constructor
      · rintro ⟨r, w, c, hr, hw, hc, hlt, rfl⟩
        exact ⟨0, r, w, c, by decide, hr, hw, hc, by omega, hlt, rfl⟩
      · rintro ⟨boh, r, w, c, hb, hr, hw, hc, hlt, hlt2, rfl⟩
        have : boh = 0 := by omega
        subst this
        exact ⟨r, w, c, hr, hw, hc, hlt2, rfl⟩
    · rw [if_neg h1]
      simp only [List.nil_append, List.mem_append, List.append_assoc]
      rw [← or_assoc, hrow 0, hrow 1]
      constructor
      · rintro (⟨r, w, c, hr, hw, hc, hlt, rfl⟩ | ⟨r, w, c, hr, hw, hc, hlt, rfl⟩)
        · exact ⟨0, r, w, c, by decide, hr, hw, hc, by omega, hlt, rfl⟩
        · exact ⟨1, r, w, c, by decide, hr, hw, hc, by omega, hlt, rfl⟩
      · rintro ⟨boh, r, w, c, hb, hr, hw, hc, hlt, hlt2, rfl⟩
        rcases (by simp only [blockOH] at hb; omega : boh = 0 ∨ boh = 1) with rfl | rfl
        · left; exact ⟨r, w, c, hr, hw, hc, hlt2, rfl⟩
        · right; exact ⟨r, w, c, hr, hw, hc, hlt2, rfl⟩

open SYCLConvGen9Kernel

/-! ## Element offsets and memory -/

theorem radix_inj (B a b a1 b1 : Nat) (hb : b < B) (hb1 : b1 < B) (e : a * B + b = a1 * B + b1) :
    a = a1 ∧ b = b1 := by
  have hB : 0 < B := by omega
  have h1 : (a * B + b) / B = a := by
    rw [Nat.add_comm, Nat.add_mul_div_right _ _ hB, Nat.div_eq_of_lt hb, Nat.zero_add]
  have h2 : (a1 * B + b1) / B = a1 := by
    rw [Nat.add_comm, Nat.add_mul_div_right _ _ hB, Nat.div_eq_of_lt hb1, Nat.zero_add]
  have ha : a = a1 := by rw [← h1, ← h2, e]
  subst ha
  exact ⟨rfl, by omega⟩

/-- Inside the extents of the tensor, distinct elements have distinct offsets. -/
theorem offset_inj (t : TensorAccessor3D) (c c1 h w h1 w1 : Nat) (hh : h < t.H) (hw : w < t.W)
    (hh1 : h1 < t.H) (hw1 : w1 < t.W)
    (e : t.offset c (h : Int) (w : Int) = t.offset c1 (h1 : Int) (w1 : Int)) :
    c = c1 ∧ h = h1 ∧ w = w1 := by
  unfold TensorAccessor3D.offset at e
  have e1 : ((c / blockC * t.H + h) * t.W + w) * blockC + c % blockC
      = ((c1 / blockC * t.H + h1) * t.W + w1) * blockC + c1 % blockC := by
    exact_mod_cast e
  obtain ⟨e2, e3⟩ := radix_inj blockC _ _ _ _ (Nat.mod_lt _ (by decide)) (Nat.mod_lt _ (by decide)) e1
  obtain ⟨e4, e5⟩ := radix_inj t.W _ _ _ _ hw hw1 e2
  obtain ⟨e6, e7⟩ := radix_inj t.H _ _ _ _ hh hh1 e4
  refine ⟨?_, e7, e5⟩
  have := Nat.div_add_mod c blockC
  have := Nat.div_add_mod c1 blockC
  simp only [blockC] at *
  omega

theorem offset_add_lane (t : TensorAccessor3D) (c0 : Nat) (h w : Int) (c : Nat)
    (h0 : c0 % blockC = 0) (hc : c < blockC) :
    t.offset c0 h w + (c : Int) = t.offset (c0 + c) h w := by
  have := offset_lane t c0 h w 0 c h0 hc
  simpa using this

theorem applyStores_append (mem : Mem) (tr1 tr2 : List Store) :
    applyStores mem (tr1 ++ tr2) = applyStores (applyStores mem tr1) tr2 := by
  unfold applyStores
  rw [List.foldl_append]

/-- A buffer element that no store of the trace addresses keeps its value. -/
theorem applyStores_untouched (mem : Mem) (tr : List Store) (a : Int)
    (h : ∀ s ∈ tr, s.1 ≠ a) : applyStores mem tr a = mem a := by
  induction tr generalizing mem with
  | nil => rfl
  | cons s tr ih =>
    have hs : s.1 ≠ a := h s (List.mem_cons_self _ _)
    have : applyStores mem (s :: tr) = applyStores (Function.update mem s.1 s.2) tr := rfl
    rw [this, ih _ (fun s1 hs1 => h s1 (List.mem_cons_of_mem _ hs1))]
    rw [Function.update_apply, if_neg (Ne.symm hs)]

/-- When every store of the trace to offset `a` carries the value `v`, and there
is such a store, the buffer holds `v` at `a` afterwards. -/
theorem applyStores_value (mem : Mem) (tr : List Store) (a : Int) (v : Val)
    (hall : ∀ s ∈ tr, s.1 = a → s.2 = v) (hex : ∃ s ∈ tr, s.1 = a) :
    applyStores mem tr a = v := by
  induction tr generalizing mem with
  | nil => obtain ⟨s, hs, _⟩ := hex; exact absurd hs (List.not_mem_nil _)
  | cons s tr ih =>
    have e : applyStores mem (s :: tr) = applyStores (Function.update mem s.1 s.2) tr := rfl
    rw [e]
    by_cases hlater : ∃ s1 ∈ tr, s1.1 = a
    · exact ih _ (fun s1 hs1 => hall s1 (List.mem_cons_of_mem _ hs1)) hlater
    · have hno : ∀ s1 ∈ tr, s1.1 ≠ a := fun s1 hs1 h1 => hlater ⟨s1, hs1, h1⟩
      rw [applyStores_untouched _ tr a hno]
      obtain ⟨s0, hs0, ha0⟩ := hex
      rcases List.mem_cons.1 hs0 with rfl | hm
      · rw [ha0.symm, Function.update_same]
        exact hall s0 (List.mem_cons_self _ _) ha0
      · exact absurd ha0 (hno s0 hm)

theorem execute_eq_applyStores (k : SYCLConvGen9Kernel) (sched : List WorkGroupItem) (mem : Mem) :
    execute k sched mem = applyStores mem (sched.flatMap k.call) := by
  induction sched generalizing mem with
  | nil => rfl
  | cons it sched ih =>
    have e : execute k (it :: sched) mem = execute k sched (applyStores mem (k.call it)) := rfl
    rw [e, ih, List.flatMap_cons, applyStores_append]

/-- Final value of a destination element: when every store of every scheduled
work-item to offset `a` carries `v`, and some scheduled work-item stores to `a`. -/
theorem execute_value (k : SYCLConvGen9Kernel) (sched : List WorkGroupItem) (mem : Mem) (a : Int)
    (v : Val) (hall : ∀ it ∈ sched, ∀ s ∈ k.call it, s.1 = a → s.2 = v)
    (hex : ∃ it ∈ sched, ∃ s ∈ k.call it, s.1 = a) :
    execute k sched mem a = v := by
  rw [execute_eq_applyStores]
  apply applyStores_value
  · intro s hs
    rw [List.mem_flatMap] at hs
    obtain ⟨it, hit, hs⟩ := hs
    exact hall it hit s hs
  · obtain ⟨it, hit, s, hs, ha⟩ := hex
    exact ⟨s, List.mem_flatMap.2 ⟨it, hit, hs⟩, ha⟩

open SYCLConvGen9Kernel

/-! ## Work-items of the dispatched grid -/

theorem global_lt (L G g l : Nat) (hd : L ∣ G) (hg : g < G / L) (hl : l < L) : g * L + l < G := by
  have h1 : (g + 1) * L ≤ G / L * L := Nat.mul_le_mul_right _ hg
  rw [Nat.div_mul_cancel hd, Nat.succ_mul] at h1
  omega

theorem euFusion_dims (g : WorkDim3) :
    (euFusion g).d0 = g.d0 ∧ (euFusion g).d1 = g.d1 ∧ g.d2 ≤ (euFusion g).d2 ∧
      (euFusion g).d2 ≤ g.d2 + 1 := by
  rw [euFusion_eq]
  split_ifs <;> simp

/-- Work-items of the grid sized from the counts `g0`: their coordinates stay
inside the padded global grid `G`, and every tile of `G` has a work-item whose
channel block index is its local id. -/
theorem items_of_sizeGrid (fuel : Nat) (g0 G L : WorkDim3) (t : Nat)
    (h : sizeGrid fuel g0 = some (G, L, t)) :
    (∀ it ∈ (Dispatch.mk (G.div L) L).items,
      it.getLocalId 0 < G.d0 ∧ it.getGlobalId 1 < G.d1 ∧ it.getGlobalId 2 < G.d2) ∧
    (∀ a b c, a < G.d0 → b < G.d1 → c < G.d2 →
      ∃ it ∈ (Dispatch.mk (G.div L) L).items,
        it.getLocalId 0 = a ∧ it.getGlobalId 1 = b ∧ it.getGlobalId 2 = c) := by
  obtain ⟨e0, d1, d2, _⟩ := sizeGrid_inv fuel g0 G L t h
  constructor
  · rintro ⟨⟨x0, x1, x2⟩, ⟨y0, y1, y2⟩, r⟩ hm
    rw [mem_items] at hm
    simp only [mem_indices, WorkDim3.div] at hm
    obtain ⟨⟨_, hx1, hx2⟩, ⟨hy0, hy1, hy2⟩, hr1⟩ := hm
    subst hr1
    simp only [WorkGroupItem.getGlobalId, WorkGroupItem.getLocalId, WorkDim3.get]
    norm_num
    exact ⟨by omega, global_lt _ _ _ _ d1 hx1 hy1, global_lt _ _ _ _ d2 hx2 hy2⟩
  · intro a b c ha hb hc
    obtain ⟨_, b1, b2, b3⟩ := split_index L.d1 G.d1 b d1 hb
    obtain ⟨_, c1, c2, c3⟩ := split_index L.d2 G.d2 c d2 hc
    refine ⟨⟨⟨0, b / L.d1, c / L.d2⟩, ⟨a, b % L.d1, c % L.d2⟩, L⟩, ?_, ?_, ?_, ?_⟩
    · rw [mem_items]
      simp only [mem_indices, WorkDim3.div]
      refine ⟨⟨?_, b1, c1⟩, ⟨by omega, b2, c2⟩, trivial⟩
      rw [e0]
      exact Nat.div_pos le_rfl (by omega)
    · simp [WorkGroupItem.getLocalId, WorkDim3.get]
    · simpa [WorkGroupItem.getGlobalId, WorkDim3.get] using b3
    · simpa [WorkGroupItem.getGlobalId, WorkDim3.get] using c3

/-- The dispatch of `runImpl` for a destination with at least one channel block. -/
theorem runImpl_grid (k : SYCLConvGen9Kernel) (h0 : 1 ≤ k.dst.getCB) :
    ∃ d, (∀ fuel, 5 ≤ fuel → runImpl fuel k = some d) ∧
      (∀ it ∈ d.items, it.getLocalId 0 < k.dst.getCB ∧
        it.getGlobalId 1 < ceil_div k.src.H blockOH ∧
        it.getGlobalId 2 ≤ ceil_div k.src.W blockOW) ∧
      (∀ a b c, a < k.dst.getCB → b < ceil_div k.src.H blockOH → c < ceil_div k.src.W blockOW →
        ∃ it ∈ d.items, it.getLocalId 0 = a ∧ it.getGlobalId 1 = b ∧ it.getGlobalId 2 = c) := by
  obtain ⟨⟨G, L, t⟩, hr⟩ := sizeGrid_terminates (initialGlobalSize k) h0
  have h5 := hr 5 le_rfl
  obtain ⟨hG, _⟩ := sizeGrid_some 5 _ G L t h5
  obtain ⟨g0, g1, g2, g3⟩ := euFusion_dims (initialGlobalSize k)
  rw [← hG] at g0 g1 g2 g3
  have i0 : (initialGlobalSize k).d0 = k.dst.getCB := rfl
  have i1 : (initialGlobalSize k).d1 = ceil_div k.src.H blockOH := rfl
  have i2 : (initialGlobalSize k).d2 = ceil_div k.src.W blockOW := rfl
  obtain ⟨hin, hcov⟩ := items_of_sizeGrid 5 _ G L t h5
  refine ⟨⟨G.div L, L⟩, fun fuel hf => ?_, fun it hit => ?_, fun a b c ha hb hc => ?_⟩
  · unfold runImpl
    rw [hr fuel hf]
  · obtain ⟨p0, p1, p2⟩ := hin it hit
    exact ⟨by omega, by omega, by omega⟩
  · exact hcov a b c (by omega) (by omega) (by omega)

open SYCLConvGen9Kernel

/-! ## The three fused kernels -/

theorem call_none (k : SYCLConvGen9Kernel) (hp : k.postOp = PostOp.None) (it : WorkGroupItem) :
    k.call it = k.storeNone
      (k.tileRows (it.getLocalId 0 * blockC) (it.getGlobalId 1 * blockOH) (it.getGlobalId 2 * blockOW))
      (it.getLocalId 0 * blockC) (it.getGlobalId 1 * blockOH) (it.getGlobalId 2 * blockOW) := by
  unfold call
  rw [hp]

theorem call_pool (k : SYCLConvGen9Kernel) (hp : k.postOp = PostOp.Pool) (it : WorkGroupItem) :
    k.call it = k.storePool
      (k.tileRows (it.getLocalId 0 * blockC) (it.getGlobalId 1 * blockOH) (it.getGlobalId 2 * blockOW))
      (it.getLocalId 0 * blockC) (it.getGlobalId 1 * blockOH) (it.getGlobalId 2 * blockOW) := by
  unfold call
  rw [hp]

theorem call_upsample (k : SYCLConvGen9Kernel) (hp : k.postOp = PostOp.Upsample) (it : WorkGroupItem) :
    k.call it = k.storeUpsample
      (k.tileRows (it.getLocalId 0 * blockC) (it.getGlobalId 1 * blockOH) (it.getGlobalId 2 * blockOW))
      (it.getLocalId 0 * blockC) (it.getGlobalId 1 * blockOH) (it.getGlobalId 2 * blockOW) := by
  unfold call
  rw [hp]

/-- Every store of a `None` work-item writes the reference convolution value of
the destination element it addresses, and addresses an element inside the tile. -/
theorem store_none_spec (k : SYCLConvGen9Kernel) (hp : k.postOp = PostOp.None)
    (hC : k.src.C % blockC = 0) (it : WorkGroupItem) (s : Store) (hs : s ∈ k.call it) :
    ∃ c y x, c < blockC ∧ y < k.dst.H ∧ x < k.dst.W ∧
      y / blockOH = it.getGlobalId 1 ∧ x / blockOW = it.getGlobalId 2 ∧
      s = (k.dst.offset (it.getLocalId 0 * blockC + c) (y : Int) (x : Int),
            k.convRelu (it.getLocalId 0 * blockC + c) y x) := by
  rw [call_none k hp, mem_storeNone] at hs
  obtain ⟨boh, w, c, hb, hw, hc, hy, hx, rfl⟩ := hs
  refine ⟨c, _, _, hc, hy, hx, ?_, ?_, ?_⟩
  · simp only [blockOH] at *; omega
  · simp only [blockOW] at *; omega
  · rw [offset_add_lane _ _ _ _ _ (Nat.mul_mod_left _ _) hc,
      tileRows_lane k _ _ _ (Nat.mul_mod_left _ _) hC boh w c hb hw hc]

/-- Final destination contents of the `None` kernel, for any schedule that runs
every work-item of the grid. -/
theorem conv_none_grid (k : SYCLConvGen9Kernel) (hp : k.postOp = PostOp.None)
    (hC : k.src.C % blockC = 0) (hO : k.dst.C % blockC = 0)
    (hH : k.dst.H = k.src.H) (hW : k.dst.W = k.src.W) (h0 : 1 ≤ k.dst.getCB) :
    ∃ d, (∀ fuel, 5 ≤ fuel → runImpl fuel k = some d) ∧
      ∀ o h w : Nat, o < k.dst.C → h < k.src.H → w < k.src.W →
        ∀ (sched : List WorkGroupItem) (mem : Mem), sched.Perm d.items →
          execute k sched mem (k.dst.offset o (h : Int) (w : Int)) = k.convRelu o h w := by
  obtain ⟨d, hd, _, hcov⟩ := runImpl_grid k h0
  refine ⟨d, hd, fun o h w ho hh hw sched mem hperm => ?_⟩
  have hcb : o / blockC < k.dst.getCB := by
    unfold TensorAccessor3D.getCB; simp only [blockC] at *; omega
  apply execute_value
  · intro it _ s hs ha
    obtain ⟨c, y, x, hc, hy, hx, _, _, rfl⟩ := store_none_spec k hp hC it s hs
    obtain ⟨e1, e2, e3⟩ := offset_inj k.dst _ _ _ _ _ _ hy hx (by omega) (by omega) ha
    simp only
    rw [e1, e2, e3]
  · obtain ⟨it, hit, i0, i1, i2⟩ := hcov (o / blockC) (h / blockOH) (w / blockOW) hcb
      (by unfold ceil_div; simp only [blockOH] at *; omega)
      (by unfold ceil_div; simp only [blockOW] at *; omega)
    refine ⟨it, hperm.mem_iff.2 hit, ?_⟩
    refine ⟨(k.dst.offset o (h : Int) (w : Int), k.convRelu o h w), ?_, rfl⟩
    rw [call_none k hp, mem_storeNone, i0, i1, i2]
    refine ⟨h % blockOH, w % blockOW, o % blockC, Nat.mod_lt _ (by decide), Nat.mod_lt _ (by decide),
      Nat.mod_lt _ (by decide), ?_, ?_, ?_⟩
    · simp only [blockOH] at *; omega
    · simp only [blockOW] at *; omega
    · have eo : o / blockC * blockC + o % blockC = o := by simp only [blockC]; omega
      have eh : h / blockOH * blockOH + h % blockOH = h := by simp only [blockOH]; omega
      have ew : w / blockOW * blockOW + w % blockOW = w := by simp only [blockOW]; omega
      rw [offset_add_lane _ _ _ _ _ (Nat.mul_mod_left _ _) (Nat.mod_lt _ (by decide)),
        tileRows_lane k _ _ _ (Nat.mul_mod_left _ _) hC _ _ _ (Nat.mod_lt _ (by decide))
          (Nat.mod_lt _ (by decide)) (Nat.mod_lt _ (by decide)), eo, eh, ew]


theorem getCB_pos (t : TensorAccessor3D) (hO : t.C % blockC = 0) (o : Nat) (ho : o < t.C) :
    1 ≤ t.getCB := by
  unfold TensorAccessor3D.getCB; simp only [blockC] at *; omega

theorem conv_none_correct (k : SYCLConvGen9Kernel) (hp : k.postOp = PostOp.None)
    (hC : k.src.C % blockC = 0) (hO : k.dst.C % blockC = 0)
    (hH : k.dst.H = k.src.H) (hW : k.dst.W = k.src.W)
    (o h w : Nat) (ho : o < k.dst.C) (hh : h < k.src.H) (hw : w < k.src.W) :
    ∃ d, (∀ fuel, 5 ≤ fuel → runImpl fuel k = some d) ∧
      ∀ (sched : List WorkGroupItem) (mem : Mem), sched.Perm d.items →
        execute k sched mem (k.dst.offset o (h : Int) (w : Int)) = k.convRelu o h w := by
  obtain ⟨d, hd, hval⟩ := conv_none_grid k hp hC hO hH hW (getCB_pos k.dst hO o ho)
  exact ⟨d, hd, hval o h w ho hh hw⟩

/-- C1: with post-op `None`, source of shape `(C,H,W)`, weight of shape `(O,C,3,3)`
and destination of shape `(O,H,W)`, `C` and `O` multiples of `blockC`: `runImpl`
dispatches a grid, and after the kernel has run for every work-item of that grid,
in any order, every destination element `(o,h,w)` holds
`max(0, bias[o] + sum over i, kh, kw of weight[o,i,kh,kw] * source[i,h+kh-1,w+kw-1])`
with the source read as zero outside `[0,H) x [0,W)`. -/
theorem C1_conv_none (k : SYCLConvGen9Kernel) (hp : k.postOp = PostOp.None)
    (hC : k.src.C % blockC = 0) (hO : k.dst.C % blockC = 0)
    (_hweight : k.weight = ⟨k.dst.C, k.src.C, 3, 3⟩)
    (hH : k.dst.H = k.src.H) (hW : k.dst.W = k.src.W)
    (o h w : Nat) (ho : o < k.dst.C) (hh : h < k.src.H) (hw : w < k.src.W) :
    ∃ d, (∀ fuel, 5 ≤ fuel → runImpl fuel k = some d) ∧
      ∀ (sched : List WorkGroupItem) (mem : Mem), sched.Perm d.items →
        execute k sched mem (k.dst.offset o (h : Int) (w : Int)) = k.convRelu o h w :=
  conv_none_correct k hp hC hO hH hW o h w ho hh hw

/-- C1 for a 16 channel 4 x 4 source with unit weights, at the corner element of channel 3. -/
theorem C1_conv_none_witness :
    (exampleKernel PostOp.None ⟨16, 4, 4⟩ ⟨16, 4, 4⟩ 1).postOp = PostOp.None ∧
    (exampleKernel PostOp.None ⟨16, 4, 4⟩ ⟨16, 4, 4⟩ 1).src.C % blockC = 0 ∧
    (exampleKernel PostOp.None ⟨16, 4, 4⟩ ⟨16, 4, 4⟩ 1).dst.C % blockC = 0 ∧
    ∃ d, (∀ fuel, 5 ≤ fuel → runImpl fuel (exampleKernel PostOp.None ⟨16, 4, 4⟩ ⟨16, 4, 4⟩ 1) = some d) ∧
      ∀ (sched : List WorkGroupItem) (mem : Mem), sched.Perm d.items →
        execute (exampleKernel PostOp.None ⟨16, 4, 4⟩ ⟨16, 4, 4⟩ 1) sched mem
            ((exampleKernel PostOp.None ⟨16, 4, 4⟩ ⟨16, 4, 4⟩ 1).dst.offset 3 0 0)
          = (exampleKernel PostOp.None ⟨16, 4, 4⟩ ⟨16, 4, 4⟩ 1).convRelu 3 0 0 :=
  ⟨rfl, by decide, by decide,
    C1_conv_none (exampleKernel PostOp.None ⟨16, 4, 4⟩ ⟨16, 4, 4⟩ 1) rfl (by decide) (by decide) rfl rfl rfl
      3 0 0 (by decide) (by decide) (by decide)⟩

open SYCLConvGen9Kernel

/-- Every store of an `Upsample` work-item addresses a destination element inside
`2H x 2W` and writes the reference convolution value of the source position below it. -/
theorem store_upsample_spec (k : SYCLConvGen9Kernel) (hp : k.postOp = PostOp.Upsample)
    (hC : k.src.C % blockC = 0) (hH : k.dst.H = 2 * k.src.H) (hW : k.dst.W = 2 * k.src.W)
    (it : WorkGroupItem) (s : Store) (hs : s ∈ k.call it) :
    ∃ c y x, c < blockC ∧ y < k.dst.H ∧ x < k.dst.W ∧
      s = (k.dst.offset (it.getLocalId 0 * blockC + c) (y : Int) (x : Int),
            k.convRelu (it.getLocalId 0 * blockC + c) (y / 2) (x / 2)) := by
  rw [call_upsample k hp, mem_storeUpsample k _ _ _ _ ⟨k.src.W, hW⟩] at hs
  obtain ⟨boh, r, w, c, hb, hr, hw, hc, hy, hx, rfl⟩ := hs
  refine ⟨c, (it.getGlobalId 1 * blockOH + boh) * 2 + r, it.getGlobalId 2 * blockOW * 2 + w, hc,
    by omega, hx, ?_⟩
  have hbow : w / 2 < blockOW := by simp only [blockOW] at *; omega
  rw [offset_add_lane _ _ _ _ _ (Nat.mul_mod_left _ _) hc,
    tileRows_lane k _ _ _ (Nat.mul_mod_left _ _) hC boh (w / 2) c hb hbow hc]
  congr 2 <;> omega

/-- Final destination contents of the `Upsample` kernel, for any schedule that
runs every work-item of the grid. -/
theorem upsample_correct (k : SYCLConvGen9Kernel) (hp : k.postOp = PostOp.Upsample)
    (hC : k.src.C % blockC = 0) (hO : k.dst.C % blockC = 0)
    (hH : k.dst.H = 2 * k.src.H) (hW : k.dst.W = 2 * k.src.W)
    (o h w : Nat) (ho : o < k.dst.C) (hh : h < k.dst.H) (hw : w < k.dst.W) :
    ∃ d, (∀ fuel, 5 ≤ fuel → runImpl fuel k = some d) ∧
      ∀ (sched : List WorkGroupItem) (mem : Mem), sched.Perm d.items →
        execute k sched mem (k.dst.offset o (h : Int) (w : Int)) = k.convRelu o (h / 2) (w / 2) := by
  have hcb : o / blockC < k.dst.getCB := by
    unfold TensorAccessor3D.getCB; simp only [blockC] at *; omega
  obtain ⟨d, hd, _, hcov⟩ := runImpl_grid k (Nat.lt_of_le_of_lt (Nat.zero_le _) hcb)
  refine ⟨d, hd, fun sched mem hperm => ?_⟩
  apply execute_value
  · intro it _ s hs ha
    obtain ⟨c, y, x, hc, hy, hx, rfl⟩ := store_upsample_spec k hp hC hH hW it s hs
    obtain ⟨e1, e2, e3⟩ := offset_inj k.dst _ _ _ _ _ _ hy hx hh hw ha
    simp only
    rw [e1, e2, e3]
  · obtain ⟨it, hit, i0, i1, i2⟩ := hcov (o / blockC) (h / 2 / blockOH) (w / 2 / blockOW) hcb
      (by unfold ceil_div; simp only [blockOH] at *; omega)
      (by unfold ceil_div; simp only [blockOW] at *; omega)
    refine ⟨it, hperm.mem_iff.2 hit, ?_⟩
    refine ⟨(k.dst.offset o (h : Int) (w : Int), k.convRelu o (h / 2) (w / 2)), ?_, rfl⟩
    rw [call_upsample k hp, mem_storeUpsample k _ _ _ _ ⟨k.src.W, hW⟩, i0, i1, i2]
    refine ⟨h / 2 % blockOH, h % 2, w % (2 * blockOW), o % blockC, Nat.mod_lt _ (by decide),
      Nat.mod_lt _ (by decide), Nat.mod_lt _ (by decide), Nat.mod_lt _ (by decide), ?_, ?_, ?_⟩
    · simp only [blockOH] at *; omega
    · simp only [blockOW] at *; omega
    · have eo : o / blockC * blockC + o % blockC = o := by simp only [blockC]; omega
      have eh : (h / 2 / blockOH * blockOH + h / 2 % blockOH) * 2 + h % 2 = h := by
        simp only [blockOH]; omega
      have ew : w / 2 / blockOW * blockOW * 2 + w % (2 * blockOW) = w := by
        simp only [blockOW]; omega
      have eh2 : h / 2 / blockOH * blockOH + h / 2 % blockOH = h / 2 := by
        simp only [blockOH]; omega
      have ew2 : w / 2 / blockOW * blockOW + w % (2 * blockOW) / 2 = w / 2 := by
        simp only [blockOW]; omega
      have hbow : w % (2 * blockOW) / 2 < blockOW := by simp only [blockOW]; omega
      rw [offset_add_lane _ _ _ _ _ (Nat.mul_mod_left _ _) (Nat.mod_lt _ (by decide)),
        tileRows_lane k _ _ _ (Nat.mul_mod_left _ _) hC _ _ _ (Nat.mod_lt _ (by decide))
          hbow (Nat.mod_lt _ (by decide)), eo, eh, ew, eh2, ew2]

theorem plain_convRelu (k : SYCLConvGen9Kernel) (o h w : Nat) :
    k.plain.convRelu o h w = k.convRelu o h w := rfl

/-- Final destination contents of the plain convolution associated with a kernel. -/
theorem plain_correct (k : SYCLConvGen9Kernel) (hC : k.src.C % blockC = 0)
    (hO : k.dst.C % blockC = 0)
    (o h w : Nat) (ho : o < k.dst.C) (hh : h < k.src.H) (hw : w < k.src.W) :
    ∃ d, (∀ fuel, 5 ≤ fuel → runImpl fuel k.plain = some d) ∧
      ∀ (sched : List WorkGroupItem) (mem : Mem), sched.Perm d.items →
        execute k.plain sched mem (k.plain.dst.offset o (h : Int) (w : Int)) = k.convRelu o h w :=
  conv_none_correct k.plain rfl hC hO rfl rfl o h w ho hh hw

/-- C4: with post-op `Upsample` and destination of shape `(O, 2H, 2W)`, after the
kernel has run for every work-item of the grid of `runImpl`, in any order, every
destination element `(o,h',w')` equals the element `(o, h'/2, w'/2)` of the
output of the plain (`None`) convolution: the fused kernel computes the
nearest-neighbour x2 upsampling of the plain convolution output. -/
theorem C4_upsample_fusion (k : SYCLConvGen9Kernel) (hp : k.postOp = PostOp.Upsample)
    (hC : k.src.C % blockC = 0) (hO : k.dst.C % blockC = 0)
    (_hweight : k.weight = ⟨k.dst.C, k.src.C, 3, 3⟩)
    (hH : k.dst.H = 2 * k.src.H) (hW : k.dst.W = 2 * k.src.W)
    (o h w : Nat) (ho : o < k.dst.C) (hh : h < k.dst.H) (hw : w < k.dst.W) :
    ∃ d dN, (∀ fuel, 5 ≤ fuel → runImpl fuel k = some d ∧ runImpl fuel k.plain = some dN) ∧
      ∀ (sched schedN : List WorkGroupItem) (mem memN : Mem),
        sched.Perm d.items → schedN.Perm dN.items →
        execute k sched mem (k.dst.offset o (h : Int) (w : Int)) =
          nearestUpsample2
            (fun o1 h1 w1 =>
              execute k.plain schedN memN (k.plain.dst.offset o1 (h1 : Int) (w1 : Int))) o h w := by
  obtain ⟨d, hd, hval⟩ := upsample_correct k hp hC hO hH hW o h w ho hh hw
  obtain ⟨dN, hdN, hvalN⟩ := plain_correct k hC hO o (h / 2) (w / 2) ho (by omega) (by omega)
  refine ⟨d, dN, fun fuel hf => ⟨hd fuel hf, hdN fuel hf⟩, fun sched schedN mem memN hs hsN => ?_⟩
  rw [hval sched mem hs]
  exact (hvalN schedN memN hsN).symm

/-- C4 for a 16 channel 4 x 4 source upsampled to 8 x 8, at element `(3,5,7)`. -/
theorem C4_upsample_fusion_witness :
    (exampleKernel PostOp.Upsample ⟨16, 4, 4⟩ ⟨16, 8, 8⟩ 1).postOp = PostOp.Upsample ∧
    (exampleKernel PostOp.Upsample ⟨16, 4, 4⟩ ⟨16, 8, 8⟩ 1).dst.H
      = 2 * (exampleKernel PostOp.Upsample ⟨16, 4, 4⟩ ⟨16, 8, 8⟩ 1).src.H ∧
    ∃ d dN, (∀ fuel, 5 ≤ fuel →
        runImpl fuel (exampleKernel PostOp.Upsample ⟨16, 4, 4⟩ ⟨16, 8, 8⟩ 1) = some d ∧
        runImpl fuel (exampleKernel PostOp.Upsample ⟨16, 4, 4⟩ ⟨16, 8, 8⟩ 1).plain = some dN) ∧
      ∀ (sched schedN : List WorkGroupItem) (mem memN : Mem),
        sched.Perm d.items → schedN.Perm dN.items →
        execute (exampleKernel PostOp.Upsample ⟨16, 4, 4⟩ ⟨16, 8, 8⟩ 1) sched mem
            ((exampleKernel PostOp.Upsample ⟨16, 4, 4⟩ ⟨16, 8, 8⟩ 1).dst.offset 3 ((5 : Nat) : Int)
              ((7 : Nat) : Int)) =
          nearestUpsample2
            (fun o1 h1 w1 =>
              execute (exampleKernel PostOp.Upsample ⟨16, 4, 4⟩ ⟨16, 8, 8⟩ 1).plain schedN memN
                ((exampleKernel PostOp.Upsample ⟨16, 4, 4⟩ ⟨16, 8, 8⟩ 1).plain.dst.offset o1 (h1 : Int)
                  (w1 : Int))) 3 5 7 :=
  ⟨rfl, rfl,
    C4_upsample_fusion (exampleKernel PostOp.Upsample ⟨16, 4, 4⟩ ⟨16, 8, 8⟩ 1) rfl (by decide) (by decide)
      rfl rfl rfl 3 5 7 (by decide) (by decide) (by decide)⟩

open SYCLConvGen9Kernel

/-! ## The padded tile column -/

theorem ceil_div_mul_ge (W : Nat) : W ≤ ceil_div W blockOW * blockOW := by
  unfold ceil_div; simp only [blockOW]; omega

theorem call_nil_none (k : SYCLConvGen9Kernel) (hp : k.postOp = PostOp.None)
    (hW : k.dst.W = k.src.W) (it : WorkGroupItem)
    (hit : k.src.W ≤ it.getGlobalId 2 * blockOW) : k.call it = [] := by
  rw [List.eq_nil_iff_forall_not_mem]
  intro s hs
  rw [call_none k hp, mem_storeNone] at hs
  obtain ⟨boh, w, c, _, _, _, _, hx, _⟩ := hs
  omega

theorem call_nil_pool (k : SYCLConvGen9Kernel) (hp : k.postOp = PostOp.Pool)
    (hW : k.dst.W = k.src.W / 2) (it : WorkGroupItem)
    (hit : k.src.W ≤ it.getGlobalId 2 * blockOW) : k.call it = [] := by
  rw [List.eq_nil_iff_forall_not_mem]
  intro s hs
  rw [call_pool k hp, mem_storePool] at hs
  obtain ⟨_, w, c, _, _, hx, _⟩ := hs
  simp only [blockOW] at *
  omega

theorem call_nil_upsample (k : SYCLConvGen9Kernel) (hp : k.postOp = PostOp.Upsample)
    (hW : k.dst.W = 2 * k.src.W) (it : WorkGroupItem)
    (hit : k.src.W ≤ it.getGlobalId 2 * blockOW) : k.call it = [] := by
  rw [List.eq_nil_iff_forall_not_mem]
  intro s hs
  rw [call_upsample k hp, mem_storeUpsample k _ _ _ _ ⟨k.src.W, hW⟩] at hs
  obtain ⟨boh, r, w, c, _, _, _, _, _, hx, _⟩ := hs
  omega

/-- Work-items that store nothing can be removed from a schedule. -/
theorem execute_filter (k : SYCLConvGen9Kernel) (p : WorkGroupItem → Bool)
    (hp : ∀ it, p it = false → k.call it = []) (sched : List WorkGroupItem) (mem : Mem) :
    execute k sched mem = execute k (sched.filter p) mem := by
  induction sched generalizing mem with
  | nil => rfl
  | cons it sched ih =>
    have e : execute k (it :: sched) mem = execute k sched (applyStores mem (k.call it)) := rfl
    rw [e, ih]
    cases hpi : p it
    · rw [List.filter_cons_of_neg (by simp [hpi]), hp it hpi]
      rfl
    · rw [List.filter_cons_of_pos (by simp [hpi])]
      rfl

/-- C8: for each post-op with its destination shape (`None`: `H x W`, `Pool`:
`H/2 x W/2`, `Upsample`: `2H x 2W`), a work-item whose width tile index is
`Wb = ceil(W / 8)`, the tile column added by the EU fusion padding, stores nothing;
hence for every schedule the destination buffer after the dispatch equals the one
after the same schedule without the work-items of that tile column, and in the
dispatch of `runImpl` the remaining work-items are those of the unpadded grid. -/
theorem C8_padded_tile_stores_nothing (k : SYCLConvGen9Kernel)
    (hshape : (k.postOp = PostOp.None ∧ k.dst.H = k.src.H ∧ k.dst.W = k.src.W) ∨
      (k.postOp = PostOp.Pool ∧ k.dst.H = k.src.H / 2 ∧ k.dst.W = k.src.W / 2) ∨
      (k.postOp = PostOp.Upsample ∧ k.dst.H = 2 * k.src.H ∧ k.dst.W = 2 * k.src.W)) :
    (∀ it : WorkGroupItem, it.getGlobalId 2 = ceil_div k.src.W blockOW → k.call it = []) ∧
    (∀ (sched : List WorkGroupItem) (mem : Mem),
      execute k sched mem =
        execute k (sched.filter (fun it => decide (it.getGlobalId 2 ≠ ceil_div k.src.W blockOW))) mem) ∧
    (1 ≤ k.dst.getCB → ∃ d, (∀ fuel, 5 ≤ fuel → runImpl fuel k = some d) ∧
      ∀ it ∈ d.items, it.getGlobalId 2 ≠ ceil_div k.src.W blockOW →
        it.getLocalId 0 < k.dst.getCB ∧ it.getGlobalId 1 < ceil_div k.src.H blockOH ∧
          it.getGlobalId 2 < ceil_div k.src.W blockOW) := by
  have key : ∀ it : WorkGroupItem, it.getGlobalId 2 = ceil_div k.src.W blockOW → k.call it = [] := by
    intro it hit
    have hge : k.src.W ≤ it.getGlobalId 2 * blockOW := by
      rw [hit]; exact ceil_div_mul_ge _
    rcases hshape with ⟨hp, _, hW⟩ | ⟨hp, _, hW⟩ | ⟨hp, _, hW⟩
    · exact call_nil_none k hp hW it hge
    · exact call_nil_pool k hp hW it hge
    · exact call_nil_upsample k hp hW it hge
  refine ⟨key, fun sched mem => execute_filter k _ (fun it hf => key it ?_) sched mem, fun h0 => ?_⟩
  · simpa using hf
  · obtain ⟨d, hd, hin, _⟩ := runImpl_grid k h0
    refine ⟨d, hd, fun it hit hne => ?_⟩
    obtain ⟨p0, p1, p2⟩ := hin it hit
    exact ⟨p0, p1, lt_of_le_of_ne p2 hne⟩

/-- C8 for the padded dispatch of a 16 channel 5 x 40 source, whose tile counts
`(1,3,5)` are all odd. -/
theorem C8_padded_tile_stores_nothing_witness :
    sizeGrid 5 (initialGlobalSize (exampleKernel PostOp.None ⟨16, 5, 40⟩ ⟨16, 5, 40⟩ 1))
      = some (⟨1, 3, 6⟩, ⟨1, 1, 2⟩, 2) ∧
    (∀ it : WorkGroupItem,
      it.getGlobalId 2 = ceil_div (exampleKernel PostOp.None ⟨16, 5, 40⟩ ⟨16, 5, 40⟩ 1).src.W blockOW →
      (exampleKernel PostOp.None ⟨16, 5, 40⟩ ⟨16, 5, 40⟩ 1).call it = []) :=
  ⟨by decide,
    (C8_padded_tile_stores_nothing (exampleKernel PostOp.None ⟨16, 5, 40⟩ ⟨16, 5, 40⟩ 1)
      (Or.inl ⟨rfl, rfl, rfl⟩)).1⟩

open SYCLConvGen9Kernel

/-! ## The `Pool` kernel -/

/-- Stores of a `Pool` work-item in terms of the reference convolution: the row
pair starting at the even row `oh < H` is pooled into destination row `oh / 2`. -/
theorem store_pool_value (k : SYCLConvGen9Kernel) (hp : k.postOp = PostOp.Pool)
    (hC : k.src.C % blockC = 0) (it : WorkGroupItem) (s : Store) :
    s ∈ k.call it ↔
      it.getGlobalId 1 * blockOH < k.src.H ∧
      ∃ w c, w < blockOW / 2 ∧ c < blockC ∧ it.getGlobalId 2 * (blockOW / 2) + w < k.dst.W ∧
        s = (k.dst.offset (it.getLocalId 0 * blockC + c) ((it.getGlobalId 1 : Nat) : Int)
              ((it.getGlobalId 2 * (blockOW / 2) + w : Nat) : Int),
            maxPool2x2 k.convRelu (it.getLocalId 0 * blockC + c) (it.getGlobalId 1)
              (it.getGlobalId 2 * (blockOW / 2) + w)) := by
  rw [call_pool k hp, mem_storePool]
  have e1 : it.getGlobalId 1 * blockOH / 2 = it.getGlobalId 1 := by simp only [blockOH]; omega
  have e2 : it.getGlobalId 2 * blockOW / 2 = it.getGlobalId 2 * (blockOW / 2) := by
    simp only [blockOW]; omega
  rw [e1, e2]
  have hval : ∀ w c, w < blockOW / 2 → c < blockC →
      max (max (k.tileRows (it.getLocalId 0 * blockC) (it.getGlobalId 1 * blockOH)
                  (it.getGlobalId 2 * blockOW) 0 (2 * w * blockC + c))
               (k.tileRows (it.getLocalId 0 * blockC) (it.getGlobalId 1 * blockOH)
                  (it.getGlobalId 2 * blockOW) 1 (2 * w * blockC + c)))
          (max (k.tileRows (it.getLocalId 0 * blockC) (it.getGlobalId 1 * blockOH)
                  (it.getGlobalId 2 * blockOW) 0 ((2 * w + 1) * blockC + c))
               (k.tileRows (it.getLocalId 0 * blockC) (it.getGlobalId 1 * blockOH)
                  (it.getGlobalId 2 * blockOW) 1 ((2 * w + 1) * blockC + c)))
        = maxPool2x2 k.convRelu (it.getLocalId 0 * blockC + c) (it.getGlobalId 1)
            (it.getGlobalId 2 * (blockOW / 2) + w) := by
    intro w c hw hc
    have h2w : 2 * w < blockOW := by simp only [blockOW] at *; omega
    have h2w1 : 2 * w + 1 < blockOW := by simp only [blockOW] at *; omega
    rw [tileRows_lane k _ _ _ (Nat.mul_mod_left _ _) hC 0 (2 * w) c (by decide) h2w hc,
      tileRows_lane k _ _ _ (Nat.mul_mod_left _ _) hC 1 (2 * w) c (by decide) h2w hc,
      tileRows_lane k _ _ _ (Nat.mul_mod_left _ _) hC 0 (2 * w + 1) c (by decide) h2w1 hc,
      tileRows_lane k _ _ _ (Nat.mul_mod_left _ _) hC 1 (2 * w + 1) c (by decide) h2w1 hc]
    unfold maxPool2x2
    rw [max_max_max_comm]
    have a1 : it.getGlobalId 1 * blockOH + 0 = 2 * it.getGlobalId 1 := by simp only [blockOH]; omega
    have a2 : it.getGlobalId 1 * blockOH + 1 = 2 * it.getGlobalId 1 + 1 := by
      simp only [blockOH]; omega
    have b1 : it.getGlobalId 2 * blockOW + 2 * w = 2 * (it.getGlobalId 2 * (blockOW / 2) + w) := by
      simp only [blockOW]; omega
    have b2 : it.getGlobalId 2 * blockOW + (2 * w + 1)
        = 2 * (it.getGlobalId 2 * (blockOW / 2) + w) + 1 := by
      simp only [blockOW]; omega
    rw [a1, a2, b1, b2]
  constructor
  · rintro ⟨hlt, w, c, hw, hc, hx, rfl⟩
    refine ⟨hlt, w, c, hw, hc, hx, ?_⟩
    rw [offset_add_lane _ _ _ _ _ (Nat.mul_mod_left _ _) hc, hval w c hw hc]
  · rintro ⟨hlt, w, c, hw, hc, hx, rfl⟩
    refine ⟨hlt, w, c, hw, hc, hx, ?_⟩
    rw [offset_add_lane _ _ _ _ _ (Nat.mul_mod_left _ _) hc, hval w c hw hc]

/-- Final destination contents of the `Pool` kernel for an even source height,
for any schedule that runs every work-item of the grid. -/
theorem pool_even_grid (k : SYCLConvGen9Kernel) (hp : k.postOp = PostOp.Pool)
    (hC : k.src.C % blockC = 0) (hO : k.dst.C % blockC = 0)
    (hH : k.dst.H = k.src.H / 2) (hW : k.dst.W = k.src.W / 2) (heven : k.src.H % 2 = 0)
    (h0 : 1 ≤ k.dst.getCB) :
    ∃ d, (∀ fuel, 5 ≤ fuel → runImpl fuel k = some d) ∧
      ∀ o h w : Nat, o < k.dst.C → h < k.dst.H → w < k.dst.W →
        ∀ (sched : List WorkGroupItem) (mem : Mem), sched.Perm d.items →
          execute k sched mem (k.dst.offset o (h : Int) (w : Int)) = maxPool2x2 k.convRelu o h w := by
  obtain ⟨d, hd, _, hcov⟩ := runImpl_grid k h0
  refine ⟨d, hd, fun o h w ho hh hw sched mem hperm => ?_⟩
  have hcb : o / blockC < k.dst.getCB := by
    unfold TensorAccessor3D.getCB; simp only [blockC] at *; omega
  apply execute_value
  · intro it _ s hs ha
    rw [store_pool_value k hp hC] at hs
    obtain ⟨hlt, x, c, hx, hc, hxw, rfl⟩ := hs
    have hy : it.getGlobalId 1 < k.dst.H := by simp only [blockOH] at *; omega
    obtain ⟨e1, e2, e3⟩ := offset_inj k.dst _ _ _ _ _ _ hy hxw hh hw ha
    simp only
    rw [e1, e2, e3]
  · obtain ⟨it, hit, i0, i1, i2⟩ := hcov (o / blockC) h (w / (blockOW / 2)) hcb
      (by unfold ceil_div; simp only [blockOH] at *; omega)
      (by unfold ceil_div; simp only [blockOW] at *; omega)
    refine ⟨it, hperm.mem_iff.2 hit, ?_⟩
    refine ⟨(k.dst.offset o (h : Int) (w : Int), maxPool2x2 k.convRelu o h w), ?_, rfl⟩
    rw [store_pool_value k hp hC, i0, i1, i2]
    have eo : o / blockC * blockC + o % blockC = o := by simp only [blockC]; omega
    have ew : w / (blockOW / 2) * (blockOW / 2) + w % (blockOW / 2) = w := by
      simp only [blockOW]; omega
    refine ⟨by simp only [blockOH] at *; omega, w % (blockOW / 2), o % blockC,
      Nat.mod_lt _ (by decide), Nat.mod_lt _ (by decide), by rw [ew]; exact hw, ?_⟩
    rw [eo, ew]

open SYCLConvGen9Kernel

theorem execute_append (k : SYCLConvGen9Kernel) (s1 s2 : List WorkGroupItem) (mem : Mem) :
    execute k (s1 ++ s2) mem = execute k s2 (execute k s1 mem) := by
  unfold execute
  rw [List.foldl_append]

theorem exampleKernel_convRelu_zero (p : PostOp) (src dst : TensorAccessor3D) (o h w : Nat) :
    (exampleKernel p src dst 0).convRelu o h w = (o : Int) := by
  unfold convRelu weightAt biasAt exampleKernel TensorAccessor1D.offset
  simp

/-- C2 at the sizes of the claim, `H = 5`, `W = 10` with post-op `Pool` and a
destination of `2 x 5`: the work-item of tile row 2 passes the guard
`oh + boh >= src.H` with `oh = 4` and stores to destination row `2 = dstH`, at an
element offset beyond the `16 * 2 * 5` elements of the destination. -/
theorem C2_pool_odd_height_store :
    ∃ d, (∀ fuel, 5 ≤ fuel →
        runImpl fuel (exampleKernel PostOp.Pool ⟨16, 5, 10⟩ ⟨16, 2, 5⟩ 1) = some d) ∧
      ∃ it ∈ d.items, ∃ s ∈ (exampleKernel PostOp.Pool ⟨16, 5, 10⟩ ⟨16, 2, 5⟩ 1).call it,
        s.1 = (exampleKernel PostOp.Pool ⟨16, 5, 10⟩ ⟨16, 2, 5⟩ 1).dst.offset 0 2 0 ∧
        ¬ (2 < (exampleKernel PostOp.Pool ⟨16, 5, 10⟩ ⟨16, 2, 5⟩ 1).dst.H) ∧
        ((16 * 2 * 5 : Nat) : Int) ≤ s.1 := by
  obtain ⟨d, hd, _, hcov⟩ := runImpl_grid (exampleKernel PostOp.Pool ⟨16, 5, 10⟩ ⟨16, 2, 5⟩ 1)
    (by decide)
  obtain ⟨it, hit, i0, i1, i2⟩ := hcov 0 2 0 (by decide) (by decide) (by decide)
  refine ⟨d, hd, it, hit, _, (store_pool_value _ rfl (by decide) it _).2
    ⟨by rw [i1]; decide, 0, 0, by decide, by decide, by rw [i2]; decide, rfl⟩, ?_, by decide, ?_⟩
  · rw [i0, i1, i2]; rfl
  · rw [i0, i1, i2]; decide

/-- C3 for an odd source height: with `H = 3`, two output channel blocks, zero
weights and `bias[o] = o`, the plain convolution output is `o` everywhere, so the
pooled element `(16,0,0)` should be 16. The work-item of channel block 0 and tile
row 1 pools the unpaired row 2 and stores it to destination row `1 = dstH` of its
block, which is the offset of element `(16,0,0)`; in a schedule where it runs last
that element ends up holding 0. -/
theorem C3_pool_odd_height_overwrite :
    ∃ d dN, (∀ fuel, 5 ≤ fuel →
        runImpl fuel (exampleKernel PostOp.Pool ⟨16, 3, 2⟩ ⟨32, 1, 1⟩ 0) = some d ∧
        runImpl fuel (exampleKernel PostOp.Pool ⟨16, 3, 2⟩ ⟨32, 1, 1⟩ 0).plain = some dN) ∧
      ∃ sched : List WorkGroupItem, sched.Perm d.items ∧
        ∀ (mem : Mem) (schedN : List WorkGroupItem) (memN : Mem), schedN.Perm dN.items →
          execute (exampleKernel PostOp.Pool ⟨16, 3, 2⟩ ⟨32, 1, 1⟩ 0) sched mem
              ((exampleKernel PostOp.Pool ⟨16, 3, 2⟩ ⟨32, 1, 1⟩ 0).dst.offset 16 0 0) = 0 ∧
          maxPool2x2
            (fun o h w =>
              execute (exampleKernel PostOp.Pool ⟨16, 3, 2⟩ ⟨32, 1, 1⟩ 0).plain schedN memN
                ((exampleKernel PostOp.Pool ⟨16, 3, 2⟩ ⟨32, 1, 1⟩ 0).plain.dst.offset o (h : Int)
                  (w : Int))) 16 0 0 = 16 := by
  obtain ⟨d, hd, _, hcov⟩ := runImpl_grid (exampleKernel PostOp.Pool ⟨16, 3, 2⟩ ⟨32, 1, 1⟩ 0)
    (by decide)
  obtain ⟨dN, hdN, hvalN⟩ := conv_none_grid (exampleKernel PostOp.Pool ⟨16, 3, 2⟩ ⟨32, 1, 1⟩ 0).plain
    rfl (by decide) (by decide) rfl rfl (by decide)
  obtain ⟨bad, hbad, i0, i1, i2⟩ := hcov 0 1 0 (by decide) (by decide) (by decide)
  refine ⟨d, dN, fun fuel hf => ⟨hd fuel hf, hdN fuel hf⟩, d.items.erase bad ++ [bad], ?_, ?_⟩
  · exact (List.perm_append_singleton _ _).trans (List.perm_cons_erase hbad).symm
  · intro mem schedN memN hN
    constructor
    · rw [execute_append]
      have e : ∀ m : Mem, execute (exampleKernel PostOp.Pool ⟨16, 3, 2⟩ ⟨32, 1, 1⟩ 0) [bad] m
          = applyStores m ((exampleKernel PostOp.Pool ⟨16, 3, 2⟩ ⟨32, 1, 1⟩ 0).call bad) := fun _ => rfl
      rw [e]
      apply applyStores_value
      · intro s hs ha
        rw [store_pool_value _ rfl (by decide), i0, i1, i2] at hs
        obtain ⟨_, w, c, hw, hc, hx, rfl⟩ := hs
        have hw0 : w = 0 := by
          have : (exampleKernel PostOp.Pool ⟨16, 3, 2⟩ ⟨32, 1, 1⟩ 0).dst.W = 1 := rfl
          omega
        subst hw0
        simp only [maxPool2x2, exampleKernel_convRelu_zero]
        simp only [TensorAccessor3D.offset, exampleKernel] at ha
        have hc0 : c = 0 := by
          simp only [blockC] at *
          omega
        subst hc0
        simp
      · refine ⟨_, (store_pool_value _ rfl (by decide) bad _).2
          ⟨by rw [i1]; decide, 0, 0, by decide, by decide, by rw [i2]; decide, rfl⟩, ?_⟩
        rw [i0, i1, i2]; rfl
    · unfold maxPool2x2
      simp only
      rw [hvalN 16 (2 * 0) (2 * 0) (by decide) (by decide) (by decide) schedN memN hN,
        hvalN 16 (2 * 0) (2 * 0 + 1) (by decide) (by decide) (by decide) schedN memN hN,
        hvalN 16 (2 * 0 + 1) (2 * 0) (by decide) (by decide) (by decide) schedN memN hN,
        hvalN 16 (2 * 0 + 1) (2 * 0 + 1) (by decide) (by decide) (by decide) schedN memN hN]
      have e : ∀ h w, (exampleKernel PostOp.Pool ⟨16, 3, 2⟩ ⟨32, 1, 1⟩ 0).plain.convRelu 16 h w = 16 :=
        fun h w => exampleKernel_convRelu_zero PostOp.Pool ⟨16, 3, 2⟩ ⟨32, 1, 1⟩ 16 h w
      rw [e, e, e, e]
      simp

open SYCLConvGen9Kernel

/-- Where the stores stay inside the destination: for `None` with a destination of
`H x W`, for `Upsample` with `2H x 2W`, and for `Pool` with `H/2 x W/2` when the
source height is even, every store of every work-item addresses an element whose
row is below `dstH` and whose column is below `dstW`. -/
theorem stores_in_bounds (k : SYCLConvGen9Kernel) (hC : k.src.C % blockC = 0)
    (hshape : (k.postOp = PostOp.None ∧ k.dst.H = k.src.H ∧ k.dst.W = k.src.W) ∨
      (k.postOp = PostOp.Pool ∧ k.dst.H = k.src.H / 2 ∧ k.dst.W = k.src.W / 2 ∧ k.src.H % 2 = 0) ∨
      (k.postOp = PostOp.Upsample ∧ k.dst.H = 2 * k.src.H ∧ k.dst.W = 2 * k.src.W))
    (it : WorkGroupItem) (s : Store) (hs : s ∈ k.call it) :
    ∃ c y x, c < blockC ∧ y < k.dst.H ∧ x < k.dst.W ∧
      s.1 = k.dst.offset (it.getLocalId 0 * blockC + c) (y : Int) (x : Int) := by
  rcases hshape with ⟨hp, _, _⟩ | ⟨hp, hH, _, heven⟩ | ⟨hp, hH, hW⟩
  · obtain ⟨c, y, x, hc, hy, hx, _, _, rfl⟩ := store_none_spec k hp hC it s hs
    exact ⟨c, y, x, hc, hy, hx, rfl⟩
  · rw [store_pool_value k hp hC] at hs
    obtain ⟨hlt, x, c, _, hc, hxw, rfl⟩ := hs
    exact ⟨c, _, _, hc, by simp only [blockOH] at *; omega, hxw, rfl⟩
  · obtain ⟨c, y, x, hc, hy, hx, rfl⟩ := store_upsample_spec k hp hC hH hW it s hs
    exact ⟨c, y, x, hc, hy, hx, rfl⟩

/-! ## Behaviour of the sizing loop -/

/-- The sizing step with the axis index resolved: the preferred axis is the height
when `localSize[1] * blockOH < localSize[2] * blockOW` and the width otherwise. -/
theorem sizingStep_eq (g : WorkDim3) (l0 l1 l2 t : Nat) :
    sizingStep g (⟨l0, l1, l2⟩, t) =
      if t * 2 ≤ 16 then
        if l1 * blockOH < l2 * blockOW then
          if g.d1 % (l1 * 2) = 0 then some (⟨l0, l1 * 2, l2⟩, t * 2)
          else if g.d2 % (l2 * 2) = 0 then some (⟨l0, l1, l2 * 2⟩, t * 2)
          else none
        else
          if g.d2 % (l2 * 2) = 0 then some (⟨l0, l1, l2 * 2⟩, t * 2)
          else if g.d1 % (l1 * 2) = 0 then some (⟨l0, l1 * 2, l2⟩, t * 2)
          else none
      else none := by
  obtain ⟨g0, g1, g2⟩ := g
  unfold sizingStep
  simp only
  by_cases ht : t * 2 ≤ 16
  · rw [if_pos ht, if_pos ht]
    by_cases hc : l1 * blockOH < l2 * blockOW
    · have e1 : (WorkDim3.mk l0 l1 l2).get 1 * blockOH < (WorkDim3.mk l0 l1 l2).get 2 * blockOW := by
        simpa [WorkDim3.get] using hc
      rw [if_pos e1, if_pos hc]
      simp only [WorkDim3.get, WorkDim3.set]
      norm_num
    · have e1 : ¬ ((WorkDim3.mk l0 l1 l2).get 1 * blockOH < (WorkDim3.mk l0 l1 l2).get 2 * blockOW) := by
        simpa [WorkDim3.get] using hc
      rw [if_neg e1, if_neg hc]
      simp only [WorkDim3.get, WorkDim3.set]
      norm_num
  · rw [if_neg ht, if_neg ht]

/-- When the sizing step stops the loop, the total cannot double or no spatial axis can. -/
theorem sizingStep_none_iff (g : WorkDim3) (st : WorkDim3 × Nat) :
    sizingStep g st = none ↔
      (16 < 2 * st.2 ∨ (g.d1 % (2 * st.1.d1) ≠ 0 ∧ g.d2 % (2 * st.1.d2) ≠ 0)) := by
  obtain ⟨⟨l0, l1, l2⟩, t⟩ := st
  rw [sizingStep_eq]
  simp only [mul_comm 2]
  split_ifs <;> simp <;> omega

/-- C16: when the sizing loop of `runImpl` stops with local grid `L` and total
`t = L[0] * L[1] * L[2]`, either doubling the total would exceed 16
(`2 * t > 16`) or neither spatial axis can be doubled
(`G[1] % (2 * L[1]) != 0` and `G[2] % (2 * L[2]) != 0`); for `Cb >= 1` the loop
does stop, within five evaluations. -/
theorem C16_sizing_maximal (g0 : WorkDim3) :
    (∀ fuel G L t, sizeGrid fuel g0 = some (G, L, t) →
      t = L.d0 * L.d1 * L.d2 ∧
      (16 < 2 * t ∨ (G.d1 % (2 * L.d1) ≠ 0 ∧ G.d2 % (2 * L.d2) ≠ 0))) ∧
    (1 ≤ g0.d0 → ∃ r, ∀ fuel, 5 ≤ fuel → sizeGrid fuel g0 = some r) := by
  refine ⟨fun fuel G L t h => ?_, sizeGrid_terminates g0⟩
  obtain ⟨_, hl⟩ := sizeGrid_some fuel g0 G L t h
  obtain ⟨_, _, _, ht⟩ := sizeGrid_inv fuel g0 G L t h
  exact ⟨ht, (sizingStep_none_iff G (L, t)).1 (sizingLoop_stops G fuel _ _ hl)⟩

/-- C16 at the count `(1,3,5)`: the loop stops at `(1,1,2)` because 3 is odd and 4 does not divide 6. -/
theorem C16_sizing_maximal_witness :
    sizeGrid 5 ⟨1, 3, 5⟩ = some (⟨1, 3, 6⟩, ⟨1, 1, 2⟩, 2) ∧
    (2 = 1 * 1 * 2 ∧ (16 < 2 * 2 ∨ (3 % (2 * 1) ≠ 0 ∧ 6 % (2 * 2) ≠ 0))) ∧
    (∃ r, ∀ fuel, 5 ≤ fuel → sizeGrid fuel ⟨1, 3, 5⟩ = some r) :=
  ⟨by decide, (C16_sizing_maximal ⟨1, 3, 5⟩).1 5 ⟨1, 3, 6⟩ ⟨1, 1, 2⟩ 2 (by decide),
    (C16_sizing_maximal ⟨1, 3, 5⟩).2 (by decide)⟩

/-- For one channel block, a height count that is a multiple of 8 and a width
count that is a multiple of 2, the sizing returns the local grid `(1,8,2)`. -/
theorem sizeGrid_one_eight_two (a b fuel : Nat) (hf : 5 ≤ fuel) :
    sizeGrid fuel ⟨1, 8 * a, 2 * b⟩ = some (⟨1, 8 * a, 2 * b⟩, ⟨1, 8, 2⟩, 16) := by
  have hG : euFusion ⟨1, 8 * a, 2 * b⟩ = ⟨1, 8 * a, 2 * b⟩ := by
    rw [euFusion_eq, if_neg]
    simp only
    omega
  have h1 : (8 * a) % (1 * 2) = 0 := by omega
  have h2 : (8 * a) % (2 * 2) = 0 := by omega
  have h3 : (8 * a) % (4 * 2) = 0 := by omega
  have h4 : (2 * b) % (1 * 2) = 0 := by omega
  have s1 : sizingStep ⟨1, 8 * a, 2 * b⟩ (⟨1, 1, 1⟩, 1) = some (⟨1, 2, 1⟩, 2) := by
    rw [sizingStep_eq]; simp [h1, blockOH, blockOW]
  have s2 : sizingStep ⟨1, 8 * a, 2 * b⟩ (⟨1, 2, 1⟩, 2) = some (⟨1, 4, 1⟩, 4) := by
    rw [sizingStep_eq]; simp [h2, blockOH, blockOW]
  have s3 : sizingStep ⟨1, 8 * a, 2 * b⟩ (⟨1, 4, 1⟩, 4) = some (⟨1, 4, 2⟩, 8) := by
    rw [sizingStep_eq]; simp [h4, blockOH, blockOW]
  have s4 : sizingStep ⟨1, 8 * a, 2 * b⟩ (⟨1, 4, 2⟩, 8) = some (⟨1, 8, 2⟩, 16) := by
    rw [sizingStep_eq]; simp [h3, blockOH, blockOW]
  have s5 : sizingStep ⟨1, 8 * a, 2 * b⟩ (⟨1, 8, 2⟩, 16) = none := by
    rw [sizingStep_eq]; simp
  have h5 : sizingLoop ⟨1, 8 * a, 2 * b⟩ 5 (⟨1, 1, 1⟩, 1) = some (⟨1, 8, 2⟩, 16) := by
    simp only [sizingLoop, s1, s2, s3, s4, s5]
  unfold sizeGrid
  simp only [hG, WorkDim3.get]
  norm_num
  rw [sizingLoop_mono _ 5 _ _ h5 fuel hf]

/-- C17: in every iteration of the sizing loop the axis tried first is the height
when `localSize[1] * blockOH < localSize[2] * blockOW` and the width otherwise, the
other axis being tried only when the first cannot be doubled; as a result, for
`Cb = 1`, `Hb` a multiple of 8 and `Wb` a multiple of 2 the final local grid is
`(1,8,2)`, a work-group of 16 output rows by 16 output columns. -/
theorem C17_preferred_axis (g : WorkDim3) (l0 l1 l2 t : Nat) :
    (sizingStep g (⟨l0, l1, l2⟩, t) =
      if t * 2 ≤ 16 then
        if l1 * blockOH < l2 * blockOW then
          if g.d1 % (l1 * 2) = 0 then some (⟨l0, l1 * 2, l2⟩, t * 2)
          else if g.d2 % (l2 * 2) = 0 then some (⟨l0, l1, l2 * 2⟩, t * 2)
          else none
        else
          if g.d2 % (l2 * 2) = 0 then some (⟨l0, l1, l2 * 2⟩, t * 2)
          else if g.d1 % (l1 * 2) = 0 then some (⟨l0, l1 * 2, l2⟩, t * 2)
          else none
      else none) ∧
    (∀ a b fuel, 5 ≤ fuel →
      sizeGrid fuel ⟨1, 8 * a, 2 * b⟩ = some (⟨1, 8 * a, 2 * b⟩, ⟨1, 8, 2⟩, 16)) ∧
    8 * blockOH = 16 ∧ 2 * blockOW = 16 :=
  ⟨sizingStep_eq g l0 l1 l2 t, sizeGrid_one_eight_two, rfl, rfl⟩

/-- C17 for 16 tile rows and 6 tile columns: the local grid is `(1,8,2)`. -/
theorem C17_preferred_axis_witness :
    5 ≤ 5 ∧ sizeGrid 5 ⟨1, 8 * 2, 2 * 3⟩ = some (⟨1, 8 * 2, 2 * 3⟩, ⟨1, 8, 2⟩, 16) :=
  ⟨le_refl 5, (C17_preferred_axis ⟨1, 16, 6⟩ 1 1 1 1).2.1 2 3 5 (le_refl 5)⟩

/-- A returning sizing loop has doubled the height `a` times and the width `b`
times, in exactly `a + b` doubling evaluations followed by the stopping one. -/
theorem sizingLoop_count (g : WorkDim3) (fuel : Nat) (st r : WorkDim3 × Nat)
    (h : sizingLoop g fuel st = some r) :
    ∃ a b, r.1 = ⟨st.1.d0, st.1.d1 * 2 ^ a, st.1.d2 * 2 ^ b⟩ ∧ r.2 = st.2 * 2 ^ (a + b) ∧
      sizingLoop g (a + b + 1) st = some r ∧ ∀ f, f ≤ a + b → sizingLoop g f st = none := by
  induction fuel generalizing st with
  | zero => simp [sizingLoop] at h
  | succ n ih =>
    unfold sizingLoop at h
    cases hs : sizingStep g st with
    | none =>
      simp only [hs] at h
      have hr : st = r := Option.some.inj h
      subst hr
      refine ⟨0, 0, by simp, by simp, ?_, ?_⟩
      · simp [sizingLoop, hs]
      · intro f hf
        have : f = 0 := by omega
        subst this
        rfl
    | some st1 =>
      simp only [hs] at h
      obtain ⟨a, b, e1, e2, e3, e4⟩ := ih st1 h
      have hstep : ∀ f, sizingLoop g (f + 1) st = sizingLoop g f st1 := by
        intro f
        conv_lhs => unfold sizingLoop
        simp only [hs]
      have hnone : ∀ c f, c = a + b + 1 → f ≤ c → sizingLoop g f st = none := by
        intro c f hc hf
        rcases Nat.eq_zero_or_pos f with h0 | h0
        · subst h0; rfl
        · obtain ⟨f1, rfl⟩ : ∃ f1, f = f1 + 1 := ⟨f - 1, by omega⟩
          rw [hstep]
          exact e4 f1 (by omega)
      rcases sizingStep_cases g st st1 hs with ⟨_, rfl⟩ | ⟨_, rfl⟩
      · refine ⟨a + 1, b, ?_, ?_, ?_, fun f hf => hnone _ f rfl (by omega)⟩
        · rw [e1]; simp only [pow_succ]; congr 1; ring
        · rw [e2]; simp only; rw [show a + 1 + b = (a + b) + 1 by omega, pow_succ]; ring
        · rw [show a + 1 + b + 1 = (a + b + 1) + 1 by omega, hstep]; exact e3
      · refine ⟨a, b + 1, ?_, ?_, ?_, fun f hf => hnone _ f rfl (by omega)⟩
        · rw [e1]; simp only [pow_succ]; congr 1; ring
        · rw [e2]; simp only; rw [show a + (b + 1) = (a + b) + 1 by omega, pow_succ]; ring
        · rw [show a + (b + 1) + 1 = (a + b + 1) + 1 by omega, hstep]; exact e3

/-- C18: for `Cb >= 1` and any `Hb`, `Wb` the sizing loop of `runImpl` terminates:
it doubles the height `a` times and the width `b` times with `a + b <= 4`, stops at
evaluation `a + b + 1 <= 5` and not before, and returns the local grid
`(Cb, 2^a, 2^b)` with total `Cb * 2^(a+b)`; the product of the two spatial local
sizes is at most 16. -/
theorem C18_sizing_terminates (g0 : WorkDim3) (h0 : 1 ≤ g0.d0) :
    ∃ a b, a + b ≤ 4 ∧ 2 ^ a * 2 ^ b ≤ 16 ∧
      sizingLoop (euFusion g0) (a + b + 1) (⟨(euFusion g0).d0, 1, 1⟩, (euFusion g0).d0)
        = some (⟨g0.d0, 2 ^ a, 2 ^ b⟩, g0.d0 * 2 ^ (a + b)) ∧
      (∀ f, f ≤ a + b →
        sizingLoop (euFusion g0) f (⟨(euFusion g0).d0, 1, 1⟩, (euFusion g0).d0) = none) ∧
      (∀ fuel, 5 ≤ fuel →
        sizeGrid fuel g0 = some (euFusion g0, ⟨g0.d0, 2 ^ a, 2 ^ b⟩, g0.d0 * 2 ^ (a + b))) := by
  have hG : (euFusion g0).d0 = g0.d0 := (euFusion_dims g0).1
  obtain ⟨r, hr⟩ := sizingLoop_terminates (euFusion g0) 4
    (⟨(euFusion g0).d0, 1, 1⟩, (euFusion g0).d0) (by simp only [hG]; omega)
  obtain ⟨a, b, e1, e2, e3, e4⟩ := sizingLoop_count _ _ _ _ hr
  have hab : a + b ≤ 4 := by
    by_contra hc
    have := e4 5 (by omega)
    rw [hr] at this
    exact absurd this (by simp)
  have hr1 : r = (⟨g0.d0, 2 ^ a, 2 ^ b⟩, g0.d0 * 2 ^ (a + b)) := by
    refine Prod.ext ?_ ?_
    · rw [e1]; simp [hG]
    · rw [e2]; simp [hG]
  rw [hr1] at e3
  refine ⟨a, b, hab, ?_, e3, e4, fun fuel hf => ?_⟩
  · rw [← pow_add]
    calc 2 ^ (a + b) ≤ 2 ^ 4 := Nat.pow_le_pow_right (by decide) hab
      _ = 16 := by norm_num
  · unfold sizeGrid
    simp only [WorkDim3.get]
    norm_num
    rw [sizingLoop_mono _ _ _ _ e3 fuel (by omega)]

/-- C18 at the count `(1,3,5)`. -/
theorem C18_sizing_terminates_witness :
    1 ≤ (WorkDim3.mk 1 3 5).d0 ∧
    ∃ a b, a + b ≤ 4 ∧ 2 ^ a * 2 ^ b ≤ 16 ∧
      sizingLoop (euFusion ⟨1, 3, 5⟩) (a + b + 1)
          (⟨(euFusion ⟨1, 3, 5⟩).d0, 1, 1⟩, (euFusion ⟨1, 3, 5⟩).d0)
        = some (⟨(WorkDim3.mk 1 3 5).d0, 2 ^ a, 2 ^ b⟩, (WorkDim3.mk 1 3 5).d0 * 2 ^ (a + b)) ∧
      (∀ f, f ≤ a + b →
        sizingLoop (euFusion ⟨1, 3, 5⟩) f
          (⟨(euFusion ⟨1, 3, 5⟩).d0, 1, 1⟩, (euFusion ⟨1, 3, 5⟩).d0) = none) ∧
      (∀ fuel, 5 ≤ fuel →
        sizeGrid fuel ⟨1, 3, 5⟩ = some (euFusion ⟨1, 3, 5⟩,
          ⟨(WorkDim3.mk 1 3 5).d0, 2 ^ a, 2 ^ b⟩, (WorkDim3.mk 1 3 5).d0 * 2 ^ (a + b))) :=
  ⟨by decide, C18_sizing_terminates ⟨1, 3, 5⟩ (by decide)⟩

open SYCLConvGen9Kernel

/-! ## Work-items and tiles -/

theorem runImpl_some (fuel : Nat) (k : SYCLConvGen9Kernel) (d : Dispatch)
    (h : runImpl fuel k = some d) :
    ∃ G L t, sizeGrid fuel (initialGlobalSize k) = some (G, L, t) ∧ d = ⟨G.div L, L⟩ := by
  unfold runImpl at h
  split at h
  · exact absurd h (by simp)
  · rename_i r hr
    obtain ⟨G, L, t⟩ := r
    exact ⟨G, L, t, hr, (Option.some.inj h).symm⟩

/-- In the dispatched grid a work-item is determined by its channel block index
(local id 0), its tile row and its tile column. -/
theorem item_eq_of_coords (fuel : Nat) (g0 G L : WorkDim3) (t : Nat)
    (h : sizeGrid fuel g0 = some (G, L, t)) (h0 : 1 ≤ g0.d0) (it1 it2 : WorkGroupItem)
    (h1 : it1 ∈ (Dispatch.mk (G.div L) L).items) (h2 : it2 ∈ (Dispatch.mk (G.div L) L).items)
    (e0 : it1.getLocalId 0 = it2.getLocalId 0) (e1 : it1.getGlobalId 1 = it2.getGlobalId 1)
    (e2 : it1.getGlobalId 2 = it2.getGlobalId 2) : it1 = it2 := by
  obtain ⟨l0, _, _, _⟩ := sizeGrid_inv fuel g0 G L t h
  obtain ⟨hG, _⟩ := sizeGrid_some fuel g0 G L t h
  have hG0 : G.d0 = g0.d0 := by rw [hG]; exact (euFusion_dims g0).1
  have hone : G.d0 / L.d0 = 1 := by rw [l0]; exact Nat.div_self (by omega)
  obtain ⟨⟨x0, x1, x2⟩, ⟨y0, y1, y2⟩, r⟩ := it1
  obtain ⟨⟨u0, u1, u2⟩, ⟨v0, v1, v2⟩, r1⟩ := it2
  rw [mem_items] at h1 h2
  simp only [mem_indices, WorkDim3.div] at h1 h2
  obtain ⟨⟨hx0, _, _⟩, ⟨_, hy1, hy2⟩, hr⟩ := h1
  obtain ⟨⟨hu0, _, _⟩, ⟨_, hv1, hv2⟩, hr1⟩ := h2
  subst hr hr1
  simp only [WorkGroupItem.getGlobalId, WorkGroupItem.getLocalId, WorkDim3.get] at e0 e1 e2
  norm_num at e0 e1 e2
  obtain ⟨p1, q1⟩ := split_index_unique _ _ _ _ hy1 e1
  obtain ⟨p2, q2⟩ := split_index_unique _ _ _ _ hv1 rfl
  obtain ⟨p3, q3⟩ := split_index_unique _ _ _ _ hy2 e2
  obtain ⟨p4, q4⟩ := split_index_unique _ _ _ _ hv2 rfl
  have a0 : x0 = 0 := by omega
  have b0 : u0 = 0 := by omega
  subst a0 b0 e0
  rw [p1, q1, p3, q3]
  rw [← p2, ← q2, ← p4, ← q4]

/-- C19: the local grid computed by `runImpl` has `L[0] = G[0] = Cb`; for `Cb >= 1`
there is one work-group along the channel axis, and for every channel block
`b < Cb` and every tile `(th,tw)` of the global grid exactly one work-item of the
dispatch has `(oc, oh, ow) = (b * blockC, th * blockOH, tw * blockOW)`. -/
theorem C19_one_group_per_channel_axis (g0 : WorkDim3) :
    (∀ fuel G L t, sizeGrid fuel g0 = some (G, L, t) → L.d0 = G.d0 ∧ G.d0 = g0.d0) ∧
    (1 ≤ g0.d0 →
      ∃ G L t, (∀ fuel, 5 ≤ fuel → sizeGrid fuel g0 = some (G, L, t)) ∧
        L.d0 = G.d0 ∧ G.d0 = g0.d0 ∧ (G.div L).d0 = 1 ∧
        ∀ b th tw, b < g0.d0 → th < G.d1 → tw < G.d2 →
          ∃! it, it ∈ (Dispatch.mk (G.div L) L).items ∧
            it.getLocalId 0 * blockC = b * blockC ∧ it.getGlobalId 1 * blockOH = th * blockOH ∧
            it.getGlobalId 2 * blockOW = tw * blockOW) := by
  refine ⟨fun fuel G L t h => ?_, fun h0 => ?_⟩
  · obtain ⟨l0, _, _, _⟩ := sizeGrid_inv fuel g0 G L t h
    obtain ⟨hG, _⟩ := sizeGrid_some fuel g0 G L t h
    exact ⟨l0, by rw [hG]; exact (euFusion_dims g0).1⟩
  obtain ⟨⟨G, L, t⟩, hr⟩ := sizeGrid_terminates g0 h0
  have h5 := hr 5 le_rfl
  obtain ⟨l0, _, _, _⟩ := sizeGrid_inv 5 g0 G L t h5
  obtain ⟨hG, _⟩ := sizeGrid_some 5 g0 G L t h5
  have hG0 : G.d0 = g0.d0 := by rw [hG]; exact (euFusion_dims g0).1
  obtain ⟨_, hcov⟩ := items_of_sizeGrid 5 g0 G L t h5
  refine ⟨G, L, t, hr, l0, hG0, ?_, fun b th tw hb hth htw => ?_⟩
  · show G.d0 / L.d0 = 1
    rw [l0]; exact Nat.div_self (by omega)
  · obtain ⟨it, hit, i0, i1, i2⟩ := hcov b th tw (by omega) hth htw
    refine ⟨it, ⟨hit, by rw [i0], by rw [i1], by rw [i2]⟩, ?_⟩
    rintro it1 ⟨hit1, j0, j1, j2⟩
    refine item_eq_of_coords 5 g0 G L t h5 h0 it1 it hit1 hit ?_ ?_ ?_
    · simp only [blockC] at j0; omega
    · simp only [blockOH] at j1; omega
    · simp only [blockOW] at j2; omega

/-- C19 at the count `(1,3,5)`. -/
theorem C19_one_group_per_channel_axis_witness :
    1 ≤ (WorkDim3.mk 1 3 5).d0 ∧
    ∃ G L t, (∀ fuel, 5 ≤ fuel → sizeGrid fuel ⟨1, 3, 5⟩ = some (G, L, t)) ∧
      L.d0 = G.d0 ∧ G.d0 = (WorkDim3.mk 1 3 5).d0 ∧ (G.div L).d0 = 1 ∧
      ∀ b th tw, b < (WorkDim3.mk 1 3 5).d0 → th < G.d1 → tw < G.d2 →
        ∃! it, it ∈ (Dispatch.mk (G.div L) L).items ∧
          it.getLocalId 0 * blockC = b * blockC ∧ it.getGlobalId 1 * blockOH = th * blockOH ∧
          it.getGlobalId 2 * blockOW = tw * blockOW :=
  ⟨by decide, (C19_one_group_per_channel_axis ⟨1, 3, 5⟩).2 (by decide)⟩

open SYCLConvGen9Kernel

/-- Every store of a work-item addresses an element of its own destination tile:
for `None` with a destination of `H x W`, for `Upsample` with `2H x 2W`, and for
`Pool` with `H/2 x W/2` when the source height is even. -/
theorem store_tile (k : SYCLConvGen9Kernel) (hC : k.src.C % blockC = 0)
    (hshape : (k.postOp = PostOp.None ∧ k.dst.H = k.src.H ∧ k.dst.W = k.src.W) ∨
      (k.postOp = PostOp.Pool ∧ k.dst.H = k.src.H / 2 ∧ k.dst.W = k.src.W / 2 ∧ k.src.H % 2 = 0) ∨
      (k.postOp = PostOp.Upsample ∧ k.dst.H = 2 * k.src.H ∧ k.dst.W = 2 * k.src.W))
    (it : WorkGroupItem) (s : Store) (hs : s ∈ k.call it) :
    ∃ c y x, c < blockC ∧ y < k.dst.H ∧ x < k.dst.W ∧
      s.1 = k.dst.offset (it.getLocalId 0 * blockC + c) (y : Int) (x : Int) ∧
      y / dstTileH k.postOp = it.getGlobalId 1 ∧ x / dstTileW k.postOp = it.getGlobalId 2 := by
  rcases hshape with ⟨hp, _, _⟩ | ⟨hp, hH, _, heven⟩ | ⟨hp, hH, hW⟩
  · obtain ⟨c, y, x, hc, hy, hx, ty, tx, rfl⟩ := store_none_spec k hp hC it s hs
    rw [hp]
    exact ⟨c, y, x, hc, hy, hx, rfl, ty, tx⟩
  · rw [store_pool_value k hp hC] at hs
    obtain ⟨hlt, x, c, hx, hc, hxw, rfl⟩ := hs
    rw [hp]
    refine ⟨c, _, _, hc, by simp only [blockOH] at *; omega, hxw, rfl, ?_, ?_⟩
    · simp [dstTileH, blockOH]
    · simp only [dstTileW, blockOW] at *; omega
  · rw [call_upsample k hp, mem_storeUpsample k _ _ _ _ ⟨k.src.W, hW⟩] at hs
    obtain ⟨boh, r, w, c, hb, hr, hw, hc, hy, hx, rfl⟩ := hs
    rw [hp]
    refine ⟨c, (it.getGlobalId 1 * blockOH + boh) * 2 + r, it.getGlobalId 2 * blockOW * 2 + w, hc,
      by omega, hx, ?_, ?_, ?_⟩
    · simp only
      rw [offset_add_lane _ _ _ _ _ (Nat.mul_mod_left _ _) hc]
    · simp only [dstTileH, blockOH] at *; omega
    · simp only [dstTileW, blockOW] at *; omega

/-- Where the stores stay inside the destination (see `store_tile`), two
work-items of the dispatched grid that store to a common element are the same
work-item: distinct work-items write disjoint sets of destination elements. -/
theorem stores_disjoint (k : SYCLConvGen9Kernel) (hC : k.src.C % blockC = 0)
    (hshape : (k.postOp = PostOp.None ∧ k.dst.H = k.src.H ∧ k.dst.W = k.src.W) ∨
      (k.postOp = PostOp.Pool ∧ k.dst.H = k.src.H / 2 ∧ k.dst.W = k.src.W / 2 ∧ k.src.H % 2 = 0) ∨
      (k.postOp = PostOp.Upsample ∧ k.dst.H = 2 * k.src.H ∧ k.dst.W = 2 * k.src.W))
    (h0 : 1 ≤ k.dst.getCB) (fuel : Nat) (d : Dispatch) (hd : runImpl fuel k = some d)
    (it1 it2 : WorkGroupItem) (h1 : it1 ∈ d.items) (h2 : it2 ∈ d.items)
    (s1 s2 : Store) (hs1 : s1 ∈ k.call it1) (hs2 : s2 ∈ k.call it2) (ha : s1.1 = s2.1) :
    it1 = it2 := by
  obtain ⟨G, L, t, hg, rfl⟩ := runImpl_some fuel k d hd
  obtain ⟨c1, y1, x1, hc1, hy1, hx1, a1, ty1, tx1⟩ := store_tile k hC hshape it1 s1 hs1
  obtain ⟨c2, y2, x2, hc2, hy2, hx2, a2, ty2, tx2⟩ := store_tile k hC hshape it2 s2 hs2
  rw [a1, a2] at ha
  obtain ⟨e1, e2, e3⟩ := offset_inj k.dst _ _ _ _ _ _ hy1 hx1 hy2 hx2 ha
  subst e2 e3
  refine item_eq_of_coords fuel _ G L t hg h0 it1 it2 h1 h2 ?_ (ty1.symm.trans ty2)
    (tx1.symm.trans tx2)
  simp only [blockC] at *
  omega

/-- C11 for an odd source height with post-op `Pool`: with `H = 3` and two output
channel blocks, the work-item of channel block 0 and tile row 1 and the work-item
of channel block 1 and tile row 0 both store to the destination element
`(16,0,0)`, with different values (0 and 16 for zero weights and `bias[o] = o`). -/
theorem C11_pool_odd_height_overlap :
    ∃ d, (∀ fuel, 5 ≤ fuel →
        runImpl fuel (exampleKernel PostOp.Pool ⟨16, 3, 2⟩ ⟨32, 1, 1⟩ 0) = some d) ∧
      ∃ it1 ∈ d.items, ∃ it2 ∈ d.items,
        it1.getLocalId 0 = 0 ∧ it1.getGlobalId 1 = 1 ∧ it1.getGlobalId 2 = 0 ∧
        it2.getLocalId 0 = 1 ∧ it2.getGlobalId 1 = 0 ∧ it2.getGlobalId 2 = 0 ∧
        ∃ s1 ∈ (exampleKernel PostOp.Pool ⟨16, 3, 2⟩ ⟨32, 1, 1⟩ 0).call it1,
        ∃ s2 ∈ (exampleKernel PostOp.Pool ⟨16, 3, 2⟩ ⟨32, 1, 1⟩ 0).call it2,
          s1.1 = (exampleKernel PostOp.Pool ⟨16, 3, 2⟩ ⟨32, 1, 1⟩ 0).dst.offset 16 0 0 ∧
          s2.1 = (exampleKernel PostOp.Pool ⟨16, 3, 2⟩ ⟨32, 1, 1⟩ 0).dst.offset 16 0 0 ∧
          s1.2 = 0 ∧ s2.2 = 16 := by
  obtain ⟨d, hd, _, hcov⟩ := runImpl_grid (exampleKernel PostOp.Pool ⟨16, 3, 2⟩ ⟨32, 1, 1⟩ 0)
    (by decide)
  obtain ⟨it1, h1, i0, i1, i2⟩ := hcov 0 1 0 (by decide) (by decide) (by decide)
  obtain ⟨it2, h2, j0, j1, j2⟩ := hcov 1 0 0 (by decide) (by decide) (by decide)
  refine ⟨d, hd, it1, h1, it2, h2, i0, i1, i2, j0, j1, j2,
    _, (store_pool_value _ rfl (by decide) it1 _).2
      ⟨by rw [i1]; decide, 0, 0, by decide, by decide, by rw [i2]; decide, rfl⟩,
    _, (store_pool_value _ rfl (by decide) it2 _).2
      ⟨by rw [j1]; decide, 0, 0, by decide, by decide, by rw [j2]; decide, rfl⟩, ?_, ?_, ?_, ?_⟩
  · rw [i0, i1, i2]; rfl
  · rw [j0, j1, j2]; rfl
  · simp [maxPool2x2, exampleKernel_convRelu_zero, i0]
  · simp [maxPool2x2, exampleKernel_convRelu_zero, j0]

open SYCLConvGen9Kernel

/-- C20: in the `Upsample` epilogue with `dst.W = 2 * src.W` and `dst.H = 2 * src.H`,
every call `storeRow<2>(row, oc, r, ow * 2)` stores exactly the columns
`ow * 2 + w < dst.W` of the 16 column row, so no column at or beyond `dst.W` is
written although the slow path predicates a chunk of two columns on its first
column: a chunk whose first column is below `dst.W - ow * 2` has its second column
below it as well; and every store of the epilogue goes to a row below `dst.H`. -/
theorem C20_upsample_store_in_range (k : SYCLConvGen9Kernel)
    (hH : k.dst.H = 2 * k.src.H) (hW : k.dst.W = 2 * k.src.W) :
    (∀ (row : Simd) (oc r ow : Nat) (s : Store),
      s ∈ k.storeRow 2 (blockOW * blockC * 2) row oc (r : Int) ((ow * 2 : Nat) : Int) ↔
        ∃ w c, w < 2 * blockOW ∧ c < blockC ∧ ow * 2 + w < k.dst.W ∧
          s = (k.dst.offset oc (r : Int) ((ow * 2 + w : Nat) : Int) + (c : Int),
                row (w * blockC + c))) ∧
    (∀ ow i : Nat, ((i * 2 : Nat) : Int) < (k.dst.W : Int) - ((ow * 2 : Nat) : Int) →
      ((i * 2 + 1 : Nat) : Int) < (k.dst.W : Int) - ((ow * 2 : Nat) : Int)) ∧
    (∀ (outRows : Nat → Simd) (oc oh ow : Nat) (s : Store),
      s ∈ k.storeUpsample outRows oc oh ow →
        ∃ boh r w c, boh < blockOH ∧ r < 2 ∧ c < blockC ∧ oh + boh < k.src.H ∧
          (oh + boh) * 2 + r < k.dst.H ∧ ow * 2 + w < k.dst.W ∧
          s.1 = k.dst.offset oc (((oh + boh) * 2 + r : Nat) : Int) ((ow * 2 + w : Nat) : Int)
            + (c : Int)) := by
  refine ⟨fun row oc r ow s => ?_, fun ow i h => by omega, fun outRows oc oh ow s hs => ?_⟩
  · have e : blockOW * blockC * 2 = (2 * blockOW) * blockC := rfl
    have hD : ((2 : Nat) : Int) ∣ (k.dst.W : Int) - ((ow * 2 : Nat) : Int) :=
      ⟨(k.src.W : Int) - (ow : Int), by rw [hW]; push_cast; ring⟩
    rw [e, mem_storeRow_columns k 2 (2 * blockOW) row oc _ _ (by decide) ⟨blockOW, rfl⟩ hD]
    constructor
    · rintro ⟨w, c, hw, hc, hlt, rfl⟩
      exact ⟨w, c, hw, hc, by omega, by push_cast; rfl⟩
    · rintro ⟨w, c, hw, hc, hlt, rfl⟩
      exact ⟨w, c, hw, hc, by omega, by push_cast; rfl⟩
  · rw [mem_storeUpsample k _ _ _ _ ⟨k.src.W, hW⟩] at hs
    obtain ⟨boh, r, w, c, hb, hr, hw, hc, hy, hx, rfl⟩ := hs
    exact ⟨boh, r, w, c, hb, hr, hc, hy, by omega, hx, rfl⟩

/-- C20 for a 4 x 10 source upsampled to 8 x 20: the chunk starting at column 18 is stored whole. -/
theorem C20_upsample_store_in_range_witness :
    (exampleKernel PostOp.Upsample ⟨16, 4, 10⟩ ⟨16, 8, 20⟩ 1).dst.H
      = 2 * (exampleKernel PostOp.Upsample ⟨16, 4, 10⟩ ⟨16, 8, 20⟩ 1).src.H ∧
    (exampleKernel PostOp.Upsample ⟨16, 4, 10⟩ ⟨16, 8, 20⟩ 1).dst.W
      = 2 * (exampleKernel PostOp.Upsample ⟨16, 4, 10⟩ ⟨16, 8, 20⟩ 1).src.W ∧
    (((1 * 2 : Nat) : Int) <
        ((exampleKernel PostOp.Upsample ⟨16, 4, 10⟩ ⟨16, 8, 20⟩ 1).dst.W : Int) - ((8 * 2 : Nat) : Int) →
      ((1 * 2 + 1 : Nat) : Int) <
        ((exampleKernel PostOp.Upsample ⟨16, 4, 10⟩ ⟨16, 8, 20⟩ 1).dst.W : Int) - ((8 * 2 : Nat) : Int)) :=
  ⟨rfl, rfl,
    (C20_upsample_store_in_range (exampleKernel PostOp.Upsample ⟨16, 4, 10⟩ ⟨16, 8, 20⟩ 1) rfl rfl).2.1 8 1⟩

open SYCLConvGen9Kernel

/-! ## Ring buffer of input rows -/

theorem khLoop_eq (k : SYCLConvGen9Kernel) (oc ic : Nat) (ih iw : Int)
    (st : (Nat → Simd) × (Nat → Simd)) :
    k.khLoop oc ic ih iw st = forLoop 3 (k.khBody oc ic ih iw) st := rfl

theorem icBody_eq (k : SYCLConvGen9Kernel) (oc oh ow ic : Nat) (out : Nat → Simd) :
    k.icBody oc oh ow ic out =
      (k.khLoop oc ic ((oh : Int) - 1) ((ow : Int) - 1)
        (k.preloadRows ic ((oh : Int) - 1) ((ow : Int) - 1), out)).2 := rfl

theorem khBody_fst (k : SYCLConvGen9Kernel) (oc ic : Nat) (ih iw : Int) (kh : Nat)
    (st : (Nat → Simd) × (Nat → Simd)) :
    (k.khBody oc ic ih iw kh st).1 =
      Function.update st.1 ((kh + blockOH - 1) % blockOH)
        (k.loadRow (blockIW * blockC) (st.1 ((kh + blockOH - 1) % blockOH)) ic
          (ih + ((kh + blockOH - 1 : Nat) : Int)) iw) := rfl

theorem preloadRows_lane (k : SYCLConvGen9Kernel) (ic : Nat) (ih iw : Int)
    (hic : ic % blockC = 0) (x i : Nat) (hx : x < blockIW) (hi : i < blockC) :
    k.preloadRows ic ih iw 0 (x * blockC + i) = k.source (ic + i) ih (iw + (x : Int)) := by
  unfold preloadRows
  have e : blockOH - 1 = 0 + 1 := rfl
  rw [e, forLoop_succ, forLoop_zero, Function.update_same, loadRow_lane k _ ic _ _ hic x i hx hi]
  congr 1
  push_cast; ring

/-- Before iteration `n` of the loop over the kernel height, slot `n % blockOH`
holds input row `ih + n`. -/
theorem ring_loop (k : SYCLConvGen9Kernel) (oc ic : Nat) (ih iw : Int) (hic : ic % blockC = 0)
    (out0 : Nat → Simd) (n : Nat) (x i : Nat) (hx : x < blockIW) (hi : i < blockC) :
    (forLoop n (k.khBody oc ic ih iw) (k.preloadRows ic ih iw, out0)).1 (n % blockOH)
        (x * blockC + i) = k.source (ic + i) (ih + (n : Int)) (iw + (x : Int)) := by
  induction n with
  | zero =>
    rw [forLoop_zero]
    simpa using preloadRows_lane k ic ih iw hic x i hx hi
  | succ n _ =>
    rw [forLoop_succ, khBody_fst, Function.update_apply,
      if_pos (by simp only [blockOH]; omega), loadRow_lane k _ ic _ iw hic x i hx hi]
    congr 1

/-- Content of the ring buffer at the reads of kernel row `kh`. -/
theorem ringBuffer_lane (k : SYCLConvGen9Kernel) (oc ic : Nat) (ih iw : Int)
    (hic : ic % blockC = 0) (out0 : Nat → Simd) (kh boh : Nat) (hboh : boh < blockOH)
    (x i : Nat) (hx : x < blockIW) (hi : i < blockC) :
    k.ringBuffer oc ic ih iw out0 kh ((kh + boh) % blockOH) (x * blockC + i)
      = k.source (ic + i) (ih + (kh : Int) + (boh : Int)) (iw + (x : Int)) := by
  unfold ringBuffer
  rw [khBody_fst, Function.update_apply]
  rcases (by simp only [blockOH] at hboh; omega : boh = 0 ∨ boh = 1) with rfl | rfl
  · rw [if_neg (by simp only [blockOH]; omega)]
    simpa using ring_loop k oc ic ih iw hic out0 kh x i hx hi
  · rw [if_pos (by simp only [blockOH]; omega), loadRow_lane k _ ic _ iw hic x i hx hi]
    congr 1
    simp only [blockOH]
    push_cast
    omega

/-- C15: ring buffer invariant. For an input channel block `ic` and every kernel
row `kh` and output row `boh < blockOH`, the slot `(kh + boh) % blockOH` of the
buffer that the multiply-accumulate of kernel row `kh` reads holds the row that
`loadRow` returns for input row `ih + kh + boh`, that is the zero-padded source row
`ih + kh + boh`; and the load of iteration `kh` into slot
`(kh + blockOH - 1) % blockOH` leaves untouched the slots read for `boh < blockOH - 1`,
which were loaded before. The buffer is the one of `khLoop` inside `icBody`. -/
theorem C15_ring_buffer (k : SYCLConvGen9Kernel) (oc ic : Nat) (ih iw : Int)
    (out0 : Nat → Simd) (hic : ic % blockC = 0) (kh boh : Nat) (hboh : boh < blockOH) :
    (∀ (row : Simd) (j : Nat), j < blockIW * blockC →
      k.ringBuffer oc ic ih iw out0 kh ((kh + boh) % blockOH) j
        = k.loadRow (blockIW * blockC) row ic (ih + (kh : Int) + (boh : Int)) iw j) ∧
    (∀ w c, w < blockIW → c < blockC →
      k.ringBuffer oc ic ih iw out0 kh ((kh + boh) % blockOH) (w * blockC + c)
        = k.source (ic + c) (ih + (kh : Int) + (boh : Int)) (iw + (w : Int))) ∧
    (boh < blockOH - 1 →
      k.ringBuffer oc ic ih iw out0 kh ((kh + boh) % blockOH)
        = (forLoop kh (k.khBody oc ic ih iw) (k.preloadRows ic ih iw, out0)).1
            ((kh + boh) % blockOH)) ∧
    (∀ st, k.khLoop oc ic ih iw st = forLoop 3 (k.khBody oc ic ih iw) st) ∧
    (∀ oh ow : Nat, ∀ out, k.icBody oc oh ow ic out =
      (k.khLoop oc ic ((oh : Int) - 1) ((ow : Int) - 1)
        (k.preloadRows ic ((oh : Int) - 1) ((ow : Int) - 1), out)).2) := by
  refine ⟨fun row j hj => ?_, fun w c hw hc => ringBuffer_lane k oc ic ih iw hic out0 kh boh hboh w c hw hc,
    fun hb => ?_, fun st => rfl, fun oh ow out => rfl⟩
  · obtain ⟨e, hlt⟩ := lane_split j
    have hw : j / blockC < blockIW := Nat.div_lt_of_lt_mul (by rw [mul_comm]; exact hj)
    rw [e, ringBuffer_lane k oc ic ih iw hic out0 kh boh hboh _ _ hw hlt,
      loadRow_lane k row ic _ iw hic _ _ hw hlt]
  · unfold ringBuffer
    rw [khBody_fst, Function.update_apply, if_neg (by simp only [blockOH] at *; omega)]

/-- C15 for the first tile of a 4 x 4 source: the read of `(kh, boh) = (2, 1)` sees input row 2. -/
theorem C15_ring_buffer_witness :
    0 % blockC = 0 ∧ 1 < blockOH ∧
    (∀ w c, w < blockIW → c < blockC →
      (exampleKernel PostOp.None ⟨16, 4, 4⟩ ⟨16, 4, 4⟩ 1).ringBuffer 0 0 (-1) (-1) (fun _ _ => 0) 2
          ((2 + 1) % blockOH) (w * blockC + c)
        = (exampleKernel PostOp.None ⟨16, 4, 4⟩ ⟨16, 4, 4⟩ 1).source (0 + c)
            (-1 + ((2 : Nat) : Int) + ((1 : Nat) : Int)) (-1 + (w : Int))) :=
  ⟨by decide, by decide,
    (C15_ring_buffer (exampleKernel PostOp.None ⟨16, 4, 4⟩ ⟨16, 4, 4⟩ 1) 0 0 (-1) (-1) (fun _ _ => 0)
      (by decide) 2 1 (by decide)).2.1⟩

open SYCLConvGen9Kernel

/-! ## The example scenario -/

theorem onesKernel_convRelu (o h w : Nat) :
    onesKernel.convRelu o h w = 16 * (tapsInside 4 4 h w : Int) := by
  unfold convRelu weightAt biasAt source tapsInside
  simp only [onesKernel, one_mul, zero_add, Finset.sum_const, Finset.card_range, nsmul_eq_mul]
  push_cast
  rw [max_eq_right]
  apply mul_nonneg (by norm_num)
  apply Finset.sum_nonneg
  intro kh _
  apply Finset.sum_nonneg
  intro kw _
  split_ifs <;> norm_num

theorem tapsInside_four (h w : Nat) (hh : h < 4) (hw : w < 4) :
    tapsInside 4 4 h w =
      if (h = 1 ∨ h = 2) ∧ (w = 1 ∨ w = 2) then 9
      else if (h = 0 ∨ h = 3) ∧ (w = 0 ∨ w = 3) then 4 else 6 := by
  interval_cases h <;> interval_cases w <;> decide

/-- C14: for `C = I = O = 16`, `H = W = 4`, every source value 1, every weight 1,
bias 0 and post-op `None`, after the dispatch every output element `(o,h,w)` equals
16 times the number of 3x3 taps inside the image: 144 at the four interior
positions, 64 at the four corners and 96 at the other edge positions. -/
theorem C14_example_scenario :
    ∃ d, (∀ fuel, 5 ≤ fuel → runImpl fuel onesKernel = some d) ∧
      ∀ (sched : List WorkGroupItem) (mem : Mem), sched.Perm d.items →
        ∀ o h w : Nat, o < 16 → h < 4 → w < 4 →
          execute onesKernel sched mem (onesKernel.dst.offset o (h : Int) (w : Int))
            = 16 * (tapsInside 4 4 h w : Int) ∧
          execute onesKernel sched mem (onesKernel.dst.offset o (h : Int) (w : Int))
            = if (h = 1 ∨ h = 2) ∧ (w = 1 ∨ w = 2) then 144
              else if (h = 0 ∨ h = 3) ∧ (w = 0 ∨ w = 3) then 64 else 96 := by
  obtain ⟨d, hd, hval⟩ := conv_none_grid onesKernel rfl (by decide) (by decide) rfl rfl (by decide)
  refine ⟨d, hd, fun sched mem hperm o h w ho hh hw => ?_⟩
  have e := hval o h w ho hh hw sched mem hperm
  rw [onesKernel_convRelu] at e
  refine ⟨e, ?_⟩
  rw [e, tapsInside_four h w hh hw]
  split_ifs <;> norm_num

/-- C14 at the corner `(0,0)` and the interior position `(1,2)` of channel 5. -/
theorem C14_example_scenario_witness :
    ∃ d, (∀ fuel, 5 ≤ fuel → runImpl fuel onesKernel = some d) ∧
      ∀ (sched : List WorkGroupItem) (mem : Mem), sched.Perm d.items →
        execute onesKernel sched mem (onesKernel.dst.offset 5 ((0 : Nat) : Int) ((0 : Nat) : Int)) = 64 ∧
        execute onesKernel sched mem (onesKernel.dst.offset 5 ((1 : Nat) : Int) ((2 : Nat) : Int)) = 144 := by
  obtain ⟨d, hd, hval⟩ := C14_example_scenario
  refine ⟨d, hd, fun sched mem hperm => ⟨?_, ?_⟩⟩
  · have := (hval sched mem hperm 5 0 0 (by decide) (by decide) (by decide)).2
    simpa using this
  · have := (hval sched mem hperm 5 1 2 (by decide) (by decide) (by decide)).2
    simpa using this

open SYCLConvGen9Kernel

/-! ## Construction and submission -/

/-- C12: constructing `SYCLConvGen9` succeeds if and only if the source descriptor
is `(Chw16c, Float16)`, the weight descriptor `(OIhw16i16o, Float16)` and the bias
descriptor `(x, Float16)`; otherwise the constructor throws `std::invalid_argument`
and returns no object, naming the first failing operand in the order source,
weight, bias. In particular every source layout other than `Chw16c` fails. -/
theorem C12_constructor_validation (desc : ConvDesc) :
    ((∃ c, SYCLConvGen9.construct desc = Except.ok c) ↔
      (desc.srcDesc = ⟨TensorLayout.Chw16c, DataType.Float16⟩ ∧
        desc.weightDesc = ⟨TensorLayout.OIhw16i16o, DataType.Float16⟩ ∧
        desc.biasDesc = ⟨TensorLayout.x, DataType.Float16⟩)) ∧
    (desc.srcDesc ≠ ⟨TensorLayout.Chw16c, DataType.Float16⟩ →
      SYCLConvGen9.construct desc = Except.error
        (ConvError.invalid_argument "unsupported convolution source layout/data type")) ∧
    (desc.srcDesc = ⟨TensorLayout.Chw16c, DataType.Float16⟩ →
      desc.weightDesc ≠ ⟨TensorLayout.OIhw16i16o, DataType.Float16⟩ →
      SYCLConvGen9.construct desc = Except.error
        (ConvError.invalid_argument "unsupported convolution weight layout/data type")) ∧
    (desc.srcDesc = ⟨TensorLayout.Chw16c, DataType.Float16⟩ →
      desc.weightDesc = ⟨TensorLayout.OIhw16i16o, DataType.Float16⟩ →
      desc.biasDesc ≠ ⟨TensorLayout.x, DataType.Float16⟩ →
      SYCLConvGen9.construct desc = Except.error
        (ConvError.invalid_argument "unsupported convolution bias layout/data type")) ∧
    (desc.srcDesc.layout ≠ TensorLayout.Chw16c →
      ∀ c, SYCLConvGen9.construct desc ≠ Except.ok c) := by
  obtain ⟨⟨sl, sd⟩, ⟨wl, wd⟩, ⟨bl, bd⟩, p⟩ := desc
  have hs : (sl ≠ TensorLayout.Chw16c ∨ sd ≠ DataType.Float16) ↔
      (TensorDesc.mk sl sd ≠ ⟨TensorLayout.Chw16c, DataType.Float16⟩) := by
    simp only [ne_eq, TensorDesc.mk.injEq]; tauto
  have hw : (wl ≠ TensorLayout.OIhw16i16o ∨ wd ≠ DataType.Float16) ↔
      (TensorDesc.mk wl wd ≠ ⟨TensorLayout.OIhw16i16o, DataType.Float16⟩) := by
    simp only [ne_eq, TensorDesc.mk.injEq]; tauto
  have hb : (bl ≠ TensorLayout.x ∨ bd ≠ DataType.Float16) ↔
      (TensorDesc.mk bl bd ≠ ⟨TensorLayout.x, DataType.Float16⟩) := by
    simp only [ne_eq, TensorDesc.mk.injEq]; tauto
  simp only [SYCLConvGen9.construct, hs, hw, hb]
  refine ⟨?_, ?_, ?_, ?_, ?_⟩
  · split_ifs with h1 h2 h3
    · simp [h1]
    · simp [h2]
    · simp [h3]
    · simp only [Except.ok.injEq, exists_eq', true_iff]
      exact ⟨not_not.1 h1, not_not.1 h2, not_not.1 h3⟩
  · intro h1
    rw [if_pos h1]
  · intro h1 h2
    rw [if_neg (not_not.2 h1), if_pos h2]
  · intro h1 h2 h3
    rw [if_neg (not_not.2 h1), if_neg (not_not.2 h2), if_pos h3]
  · intro h1 c
    rw [if_pos (by intro h; exact h1 (congrArg TensorDesc.layout h))]
    simp

/-- C12 for a source descriptor in another layout: construction throws the source error. -/
theorem C12_constructor_validation_witness :
    (ConvDesc.mk ⟨TensorLayout.other 0, DataType.Float16⟩ ⟨TensorLayout.OIhw16i16o, DataType.Float16⟩
        ⟨TensorLayout.x, DataType.Float16⟩ PostOp.None).srcDesc
      ≠ ⟨TensorLayout.Chw16c, DataType.Float16⟩ ∧
    SYCLConvGen9.construct (ConvDesc.mk ⟨TensorLayout.other 0, DataType.Float16⟩
        ⟨TensorLayout.OIhw16i16o, DataType.Float16⟩ ⟨TensorLayout.x, DataType.Float16⟩ PostOp.None)
      = Except.error (ConvError.invalid_argument "unsupported convolution source layout/data type") :=
  ⟨by decide,
    (C12_constructor_validation (ConvDesc.mk ⟨TensorLayout.other 0, DataType.Float16⟩
      ⟨TensorLayout.OIhw16i16o, DataType.Float16⟩ ⟨TensorLayout.x, DataType.Float16⟩ PostOp.None)).2.1
      (by decide)⟩

open SYCLConvGen9Kernel

theorem runImplFor_eq (fuel : Nat) (p : PostOp) (s : Tensor3D) (w : Tensor4D) (b : Tensor1D)
    (d : Tensor3D) :
    SYCLConvGen9.runImplFor fuel p s w b d =
      (runImpl fuel (SYCLConvGen9.kernel p s w b d)).map
        (fun g => [(SYCLConvGen9.kernel p s w b d, g)]) := by
  unfold SYCLConvGen9.runImplFor
  cases runImpl fuel (SYCLConvGen9.kernel p s w b d) <;> rfl

theorem submit_all_set (fuel : Nat) (c : SYCLConvGen9) (s : Tensor3D) (w : Tensor4D)
    (b : Tensor1D) (d : Tensor3D) (hs : c.src = some s) (hw : c.weight = some w)
    (hb : c.bias = some b) (hd : c.dst = some d) :
    c.submit fuel = Except.ok (SYCLConvGen9.runImplFor fuel c.desc.postOp s w b d) := by
  unfold SYCLConvGen9.submit
  rw [hs, hw, hb, hd]
  cases c.desc.postOp <;> rfl

theorem submit_unset (fuel : Nat) (c : SYCLConvGen9)
    (h : c.src = none ∨ c.weight = none ∨ c.bias = none ∨ c.dst = none) :
    c.submit fuel = Except.error (ConvError.logic_error "convolution argument not set") := by
  unfold SYCLConvGen9.submit
  rcases h with h | h | h | h
  · rw [h]
  · rw [h]; cases c.src <;> rfl
  · rw [h]; cases c.src <;> cases c.weight <;> rfl
  · rw [h]; cases c.src <;> cases c.weight <;> cases c.bias <;> rfl

/-- C13: `submit` throws `std::logic_error` if and only if one of the operands
source, weight, bias, destination is unset, and then hands no kernel to the
engine; when the four are set it runs `runImpl` once, for the kernel specialised
for the stored post-op, which hands exactly that one kernel to the engine (for a
destination with at least one channel block the sizing loop returns). -/
theorem C13_submit (fuel : Nat) (c : SYCLConvGen9) :
    ((∃ e, c.submit fuel = Except.error e) ↔
      (c.src = none ∨ c.weight = none ∨ c.bias = none ∨ c.dst = none)) ∧
    ((c.src = none ∨ c.weight = none ∨ c.bias = none ∨ c.dst = none) →
      c.submit fuel = Except.error (ConvError.logic_error "convolution argument not set")) ∧
    (∀ (s : Tensor3D) (w : Tensor4D) (b : Tensor1D) (d : Tensor3D),
      c.src = some s → c.weight = some w → c.bias = some b → c.dst = some d →
        c.submit fuel = Except.ok
          ((runImpl fuel (SYCLConvGen9.kernel c.desc.postOp s w b d)).map
            (fun g => [(SYCLConvGen9.kernel c.desc.postOp s w b d, g)])) ∧
        (SYCLConvGen9.kernel c.desc.postOp s w b d).postOp = c.desc.postOp ∧
        (1 ≤ d.acc.getCB → ∃ g, ∀ fuel1, 5 ≤ fuel1 →
          c.submit fuel1 = Except.ok (some [(SYCLConvGen9.kernel c.desc.postOp s w b d, g)]))) := by
  refine ⟨⟨?_, fun h => ⟨_, submit_unset fuel c h⟩⟩, submit_unset fuel c, ?_⟩
  · rintro ⟨e, he⟩
    by_contra hc
    simp only [not_or] at hc
    obtain ⟨h1, h2, h3, h4⟩ := hc
    obtain ⟨s, hs⟩ := Option.ne_none_iff_exists'.1 h1
    obtain ⟨w, hw⟩ := Option.ne_none_iff_exists'.1 h2
    obtain ⟨b, hb⟩ := Option.ne_none_iff_exists'.1 h3
    obtain ⟨d, hd⟩ := Option.ne_none_iff_exists'.1 h4
    rw [submit_all_set fuel c s w b d hs hw hb hd] at he
    exact absurd he (by simp)
  · intro s w b d hs hw hb hd
    refine ⟨?_, rfl, fun h0 => ?_⟩
    · rw [submit_all_set fuel c s w b d hs hw hb hd, runImplFor_eq]
    · obtain ⟨g, hg, _⟩ := runImpl_grid (SYCLConvGen9.kernel c.desc.postOp s w b d) h0
      refine ⟨g, fun fuel1 hf => ?_⟩
      rw [submit_all_set fuel1 c s w b d hs hw hb hd, runImplFor_eq, hg fuel1 hf]
      rfl

/-- C13 for an operator whose destination is unset, and for the same operator
with a destination of one channel block. -/
theorem C13_submit_witness :
    (SYCLConvGen9.mk ⟨⟨TensorLayout.Chw16c, DataType.Float16⟩, ⟨TensorLayout.OIhw16i16o, DataType.Float16⟩,
        ⟨TensorLayout.x, DataType.Float16⟩, PostOp.Pool⟩
        (some ⟨⟨16, 4, 4⟩, fun _ => 1⟩) (some ⟨⟨16, 16, 3, 3⟩, fun _ => 1⟩) (some ⟨fun _ => 0⟩) none).submit 5
      = Except.error (ConvError.logic_error "convolution argument not set") ∧
    (∃ g, ∀ fuel1, 5 ≤ fuel1 →
      (SYCLConvGen9.mk ⟨⟨TensorLayout.Chw16c, DataType.Float16⟩,
        ⟨TensorLayout.OIhw16i16o, DataType.Float16⟩, ⟨TensorLayout.x, DataType.Float16⟩, PostOp.Pool⟩
        (some ⟨⟨16, 4, 4⟩, fun _ => 1⟩) (some ⟨⟨16, 16, 3, 3⟩, fun _ => 1⟩) (some ⟨fun _ => 0⟩)
        (some ⟨⟨16, 2, 2⟩, fun _ => 0⟩)).submit fuel1
      = Except.ok (some [(SYCLConvGen9.kernel PostOp.Pool ⟨⟨16, 4, 4⟩, fun _ => 1⟩
          ⟨⟨16, 16, 3, 3⟩, fun _ => 1⟩ ⟨fun _ => 0⟩ ⟨⟨16, 2, 2⟩, fun _ => 0⟩, g)])) :=
  ⟨(C13_submit 5 (SYCLConvGen9.mk ⟨⟨TensorLayout.Chw16c, DataType.Float16⟩,
      ⟨TensorLayout.OIhw16i16o, DataType.Float16⟩, ⟨TensorLayout.x, DataType.Float16⟩, PostOp.Pool⟩
      (some ⟨⟨16, 4, 4⟩, fun _ => 1⟩) (some ⟨⟨16, 16, 3, 3⟩, fun _ => 1⟩) (some ⟨fun _ => 0⟩) none)).2.1
    (Or.inr (Or.inr (Or.inr rfl))),
   ((C13_submit 5 (SYCLConvGen9.mk ⟨⟨TensorLayout.Chw16c, DataType.Float16⟩,
      ⟨TensorLayout.OIhw16i16o, DataType.Float16⟩, ⟨TensorLayout.x, DataType.Float16⟩, PostOp.Pool⟩
      (some ⟨⟨16, 4, 4⟩, fun _ => 1⟩) (some ⟨⟨16, 16, 3, 3⟩, fun _ => 1⟩) (some ⟨fun _ => 0⟩)
      (some ⟨⟨16, 2, 2⟩, fun _ => 0⟩))).2.2 _ _ _ _ rfl rfl rfl rfl).2.2 (by decide)⟩

end oidn
